import Mathlib

/-!
A shallow embedding of `fix_demo.cpp`, and the properties proved of it.

The program reads FIX-like `tag=value` records from standard input through a
byte-mirroring stream, recognises order messages and folds them into a per-account
high/low table.  The definitions below follow `fix_demo.cpp` function by function.

Modelling conventions.

* A byte is a `Char`, a byte string a `List Char`.
* `long double` is the 80-bit extended format, and a value of the type is kept as the
  rational number it is.  A numeral is converted as `strtold` converts it: to the nearest
  value of the format, and with a failure when it lies beyond the largest one.
* `std::map<std::string, ...>` is a finite partial function from keys to entries.
* The standard stream operations the program calls (`sentry`, `peek`, `ignore`,
  `operator>>` for `int`, `std::string` and `long double`) are written out from their
  documented behaviour on a stream whose buffer is the program's `tappedstreambuf`.
* `bad_cast` escaping `main` is the result `none` of the step that throws.
-/

namespace FixDemo

/-! ## `fix_whitespace`: the character classification table -/

/-- A classification mask of `std::ctype_base`. -/
abbrev mask := Nat

/-- The bit `std::ctype_base::space`. -/
def space : mask := 8192

/-- The whitespace part of the classic "C" table that `main` passes to `fix_whitespace`:
blank, tab, newline, vertical tab, form feed and carriage return carry the `space` bit.
The other classification bits are never consulted by the program. -/
def classic_table (c : Char) : mask :=
  if c = ' ' ∨ c = '\t' ∨ c = '\n' ∨ c = '\x0b' ∨ c = '\x0c' ∨ c = '\r' then space else 0

/-- The assignment `v[i] = m` on a table. -/
def table_set (v : Char → mask) (i : Char) (m : mask) : Char → mask :=
  fun c => if c = i then m else v c

/-- The function `fix_whitespace::derive_from_table`: copy the table, then or the `space`
bit into the entries of the two separator bytes. -/
def derive_from_table (table : Char → mask) : Char → mask :=
  let v := table
  let v := table_set v '|' (v '|' ||| space)
  let v := table_set v '=' (v '=' ||| space)
  v

/-- The test `ctype<char>::is(space, c)` of the locale imbued in `main`. -/
def isspace (c : Char) : Bool :=
  derive_from_table classic_table c &&& space != 0

/-! ## `tappedstreambuf` and the stream built on it -/

/-- The class `tappedstreambuf`: `src` is what is still unread in the source buffer,
`dst` what has been put into the destination buffer and is still unread there. -/
structure tappedstreambuf where
  src : List Char
  dst : List Char
deriving DecidableEq

/-- The override `tappedstreambuf::uflow`: at end of input return end-of-file; otherwise
take one byte from the source, put it into the destination, and return it. -/
def tappedstreambuf.uflow (tb : tappedstreambuf) : Option Char × tappedstreambuf :=
  match tb.src with
  | [] => (none, tb)
  | c :: rest => (some c, { src := rest, dst := tb.dst ++ [c] })

/-- The override `tappedstreambuf::underflow`: the next source byte, not consumed. -/
def tappedstreambuf.underflow (tb : tappedstreambuf) : Option Char :=
  tb.src.head?

/-- The class `tappedistream` in the state `main` uses it: the tapped buffer and the
two state bits of the stream that the program can set. -/
structure tappedistream extends tappedstreambuf where
  eofbit : Bool
  failbit : Bool
deriving DecidableEq

/-- The test `good()`. -/
def tappedistream.good (is : tappedistream) : Bool :=
  !is.eofbit && !is.failbit

/-- Repeated `uflow` while the next byte satisfies `p`: the bytes taken, and the stream
after them. -/
def tappedistream.take_while (is : tappedistream) (p : Char → Bool) :
    List Char × tappedistream :=
  (is.src.takeWhile p,
   { is with src := is.src.dropWhile p, dst := is.dst ++ is.src.takeWhile p })

/-- One `uflow` when the next byte satisfies `p`. -/
def tappedistream.take_if (is : tappedistream) (p : Char → Bool) :
    Option Char × tappedistream :=
  match is.src with
  | [] => (none, is)
  | c :: rest =>
    if p c then (some c, { is with src := rest, dst := is.dst ++ [c] }) else (none, is)

/-- Set `eofbit` when the source is exhausted. -/
def tappedistream.note_eof (is : tappedistream) : tappedistream :=
  if is.src = [] then { is with eofbit := true } else is

/-- The constructor of `std::istream::sentry`.  A stream that is not good gets `failbit`.
Otherwise, unless `noskipws`, whitespace is consumed; running into the end of input
while doing so sets `eofbit` and `failbit`. -/
def tappedistream.sentry (is : tappedistream) (noskipws : Bool) : Bool × tappedistream :=
  if !is.good then (false, { is with failbit := true })
  else if noskipws then (true, is)
  else
    let is1 := (is.take_while isspace).2
    if is1.src = [] then (false, { is1 with eofbit := true, failbit := true })
    else (true, is1)

/-- The call `is.peek()`. -/
def tappedistream.peek (is : tappedistream) : Option Char × tappedistream :=
  match is.sentry true with
  | (false, is1) => (none, is1)
  | (true, is1) =>
    match is1.underflow with
    | none => (none, { is1 with eofbit := true })
    | some c => (some c, is1)

/-- The call `is.ignore()`: one byte is consumed. -/
def tappedistream.ignore (is : tappedistream) : tappedistream :=
  match is.sentry true with
  | (false, is1) => is1
  | (true, is1) =>
    match is1.uflow with
    | (none, _) => { is1 with eofbit := true }
    | (some _, tb) => { is1 with src := tb.src, dst := tb.dst }

/-- The call `is.ignore(numeric_limits<streamsize>::max(), delim)`: bytes are consumed up
to and including the first `delim`; without one, to the end of input, setting `eofbit`. -/
def tappedistream.ignore_until (is : tappedistream) (delim : Char) : tappedistream :=
  match is.sentry true with
  | (false, is1) => is1
  | (true, is1) =>
    let is2 := (is1.take_while (fun c => c != delim)).2
    match is2.uflow with
    | (none, _) => { is2 with eofbit := true }
    | (some _, tb) => { is2 with src := tb.src, dst := tb.dst }

/-! ## Numeric and string extraction -/

/-- A decimal digit. -/
def is_digit (c : Char) : Bool := '0' ≤ c && c ≤ '9'

/-- A sign character. -/
def is_sign (c : Char) : Bool := c = '+' || c = '-'

/-- The number written by a string of decimal digits. -/
def digits_value (ds : List Char) : Nat :=
  ds.foldl (fun n c => 10 * n + (c.toNat - '0'.toNat)) 0

/-- The extraction `is >> int`: after the sentry, an optional sign and the longest run of
digits are consumed.  No digit, or a value outside the range of `int`, sets `failbit`. -/
def tappedistream.extract_int (is : tappedistream) : Option Int × tappedistream :=
  match is.sentry false with
  | (false, is1) => (none, is1)
  | (true, is1) =>
    let (sign, is2) := is1.take_if is_sign
    let (ds, is3) := is2.take_while is_digit
    let is4 := is3.note_eof
    let v : Int := if sign = some '-' then -(digits_value ds : Int) else (digits_value ds : Int)
    if ds = [] ∨ v < -2147483648 ∨ 2147483647 < v then (none, { is4 with failbit := true })
    else (some v, is4)

/-- The extraction `is >> std::string`: after the sentry, the bytes up to the next
whitespace are consumed. -/
def tappedistream.extract_string (is : tappedistream) : Option (List Char) × tappedistream :=
  match is.sentry false with
  | (false, is1) => (none, is1)
  | (true, is1) =>
    let (tok, is2) := is1.take_while (fun c => !isspace c)
    let is3 := is2.note_eof
    if tok = [] then (none, { is3 with failbit := true }) else (some tok, is3)

/-- The number written by a floating numeral with the given sign, digits before and after
the point, and decimal exponent: the exact decimal value, before any conversion. -/
def float_value (neg : Bool) (intd fracd : List Char) (e : Int) : ℚ :=
  let m : Int := if neg then -(digits_value (intd ++ fracd) : Int) else digits_value (intd ++ fracd)
  let k : Int := e - (fracd.length : Int)
  if 0 ≤ k then ((m * 10 ^ k.toNat : Int) : ℚ) else mkRat m (10 ^ (-k).toNat)

/-! ## The type `long double`

`long double` is taken as the 80-bit extended format of the x86-64 ABI, the one of
`<cfloat>` with `LDBL_MANT_DIG == 64`: a 64-bit significand, binary exponents from -16382
to 16383, subnormal numbers below.  A value of the type is kept as the rational number it
is.  The conversion of a decimal numeral is the correctly rounded one of `strtold`, to
which the stream extraction delegates: the nearest `long double`, ties to the even
significand. -/

/-- The constant `LDBL_MANT_DIG`: the number of bits of the significand. -/
def LDBL_MANT_DIG : Nat := 64

/-- The constant `LDBL_MAX_EXP`: every `long double` is below `2 ^ LDBL_MAX_EXP`. -/
def LDBL_MAX_EXP : Nat := 16384

/-- The constant `LDBL_MIN_EXP`: the least normal number is `2 ^ (LDBL_MIN_EXP - 1)`. -/
def LDBL_MIN_EXP : Int := -16381

/-- The number of halvings that bring `a` below 2, which is the integer part of its binary
logarithm when the first argument, the number of steps allowed, is at least that. -/
def ilog2 : Nat → Nat → Nat
  | 0, _ => 0
  | fuel + 1, a => if a < 2 then 0 else ilog2 fuel (a / 2) + 1

/-- The integer part of the binary logarithm of the fraction `a / b`, for positive `a`
and `b`: the `e` with `2 ^ e ≤ a / b < 2 ^ (e + 1)`. -/
def floor_log2 (a b : Nat) : Int :=
  let e : Int := (ilog2 a a : Int) - (ilog2 b b : Int)
  if (if 0 ≤ e then b * 2 ^ e.toNat ≤ a else b ≤ a * 2 ^ (-e).toNat) then e else e - 1

/-- The integer nearest to `x / y`, the even one of the two when `x / y` is half way. -/
def div_round_even (x y : Nat) : Nat :=
  if 2 * (x % y) < y then x / y
  else if y < 2 * (x % y) then x / y + 1
  else if x / y % 2 = 0 then x / y else x / y + 1

/-- The exponent of the unit in the last place for the fraction `a / b`: the unit leaves
`LDBL_MANT_DIG` bits from the leading bit of the fraction, and is no less than the
spacing `2 ^ (LDBL_MIN_EXP - LDBL_MANT_DIG)` of the subnormal numbers. -/
def last_place (a b : Nat) : Int :=
  max (floor_log2 a b) (LDBL_MIN_EXP - 1) - ((LDBL_MANT_DIG : Int) - 1)

/-- The `long double` nearest to the fraction `a / b`, or `none` when the fraction rounds
to `2 ^ LDBL_MAX_EXP` or beyond (`strtold` then returns `HUGE_VALL`).  The result is the
multiple `n * 2 ^ k` of the unit in the last place `2 ^ k` that is nearest to the
fraction; a fraction below half of the least subnormal number becomes 0. -/
def nearest_long_double (a b : Nat) : Option ℚ :=
  if a = 0 then some 0
  else
    let k : Int := last_place a b
    if 0 ≤ k then
      let n := div_round_even a (b * 2 ^ k.toNat)
      if 2 ^ LDBL_MAX_EXP ≤ n * 2 ^ k.toNat then none else some ((n * 2 ^ k.toNat : Nat) : ℚ)
    else some (mkRat (div_round_even (a * 2 ^ (-k).toNat) b) (2 ^ (-k).toNat))

/-- The conversion `strtold` of a number written in decimal: the nearest `long double` of
the same sign, or `none` when the number is out of range. -/
def strtold (q : ℚ) : Option ℚ :=
  match nearest_long_double q.num.natAbs q.den with
  | none => none
  | some v => some (if q < 0 then -v else v)

/-- The extraction `is >> long double`: after the sentry, an optional sign, digits, at
most one point with more digits and, once a digit has been seen, an exponent part are
consumed.  The text read must be a complete numeral whose value is within the range of
`long double`, else `failbit` is set; the value stored is the nearest `long double`. -/
def tappedistream.extract_long_double (is : tappedistream) : Option ℚ × tappedistream :=
  match is.sentry false with
  | (false, is1) => (none, is1)
  | (true, is1) =>
    let (sign, is2) := is1.take_if is_sign
    let (intd, is3) := is2.take_while is_digit
    let (dot, is4) := is3.take_if (fun c => c = '.')
    let (fracd, is5) := if dot.isSome then is4.take_while is_digit else ([], is4)
    let (ex, is6) :=
      if intd ++ fracd = [] then (none, is5) else is5.take_if (fun c => c = 'e' || c = 'E')
    let (esign, is7) := if ex.isSome then is6.take_if is_sign else (none, is6)
    let (expd, is8) := if ex.isSome then is7.take_while is_digit else ([], is7)
    let is9 := is8.note_eof
    if intd ++ fracd = [] ∨ (ex.isSome ∧ expd = []) then (none, { is9 with failbit := true })
    else
      let e : Int := if esign = some '-' then -(digits_value expd : Int) else digits_value expd
      match strtold (float_value (sign = some '-') intd fracd e) with
      | some ld => (some ld, is9)
      | none => (none, { is9 with failbit := true })

/-! ## `field_tag`, `tagvalue` and the outcome type -/

/-- The enumeration `field_tag` with underlying type `int`: any `int` is a value. -/
abbrev field_tag := Int

/-- The enumerator `field_tag::Account`. -/
def field_tag.Account : field_tag := 1

/-- The enumerator `field_tag::MsgType`. -/
def field_tag.MsgType : field_tag := 35

/-- The enumerator `field_tag::Price`. -/
def field_tag.Price : field_tag := 44

/-- The function `operator>>(std::istream&, field_tag&)`: one `int` is extracted through an
`istream_iterator`; the tag is assigned when the extraction succeeded. -/
def extract_field_tag (is : tappedistream) : Option field_tag × tappedistream :=
  is.extract_int

/-- The friend `operator>>(std::istream&, tagvalue&)`: a `tagvalue` is its tag together
with the stream it was read from; the value is left unread. -/
def extract_tagvalue (is : tappedistream) : Option field_tag × tappedistream :=
  extract_field_tag is

/-- The conversion `tagvalue::operator long double`: `none` stands for `bad_cast`. -/
def tagvalue.to_long_double (is : tappedistream) : Option (ℚ × tappedistream) :=
  match is.extract_long_double with
  | (some ld, is1) => some (ld, is1)
  | (none, _) => none

/-- The conversion `tagvalue::operator std::string`: `none` stands for `bad_cast`. -/
def tagvalue.to_string (is : tappedistream) : Option (List Char × tappedistream) :=
  match is.extract_string with
  | (some s, is1) => some (s, is1)
  | (none, _) => none

/-- The variant `production`. -/
inductive production where
  | monostate : production
  | order : List Char → ℚ → production
  | error : production
  | purge : production
deriving DecidableEq

/-! ## `tagvalue_processor` -/

/-- The data members of `tagvalue_processor` other than the stream reference. -/
structure tagvalue_processor where
  discovered_fields : List field_tag
  account : Option (List Char)
  price : Option ℚ
  message_is_new_order_single : Bool
deriving DecidableEq

/-- The processor as constructed in `main`. -/
def tagvalue_processor.init : tagvalue_processor :=
  { discovered_fields := [], account := none, price := none,
    message_is_new_order_single := false }

/-- The member `is_a_duplicate`: insert the tag into the set and report whether it was
already there. -/
def tagvalue_processor.is_a_duplicate (tvp : tagvalue_processor) (ft : field_tag) :
    Bool × tagvalue_processor :=
  if ft ∈ tvp.discovered_fields then (true, tvp)
  else (false, { tvp with discovered_fields := ft :: tvp.discovered_fields })

/-- The member `ignore_the_rest_of_the_message`. -/
def tagvalue_processor.ignore_the_rest_of_the_message (tvp : tagvalue_processor)
    (is : tappedistream) : tagvalue_processor × tappedistream :=
  ({ tvp with discovered_fields := [] }, is.ignore_until '\n')

/-- The member `ignore_the_field`. -/
def tagvalue_processor.ignore_the_field (is : tappedistream) : tappedistream :=
  is.ignore_until '|'

/-- The member `reset`. -/
def tagvalue_processor.reset (tvp : tagvalue_processor) : tagvalue_processor :=
  { tvp with message_is_new_order_single := false, account := none, price := none,
             discovered_fields := [] }

/-- The first statement of `operator()`: the duplicate branch, or the `switch` on the
tag.  `none` stands for `bad_cast` thrown by a conversion. -/
def tagvalue_processor.handle_field (tvp : tagvalue_processor) (is : tappedistream)
    (tv : field_tag) : Option (production × tagvalue_processor × tappedistream) :=
  let ret_val := production.monostate
  match tvp.is_a_duplicate tv with
  | (true, tvp1) =>
    let ret_val := production.error
    let (tvp2, is1) := tvp1.ignore_the_rest_of_the_message is
    some (ret_val, tvp2.reset, is1)
  | (false, tvp1) =>
    if tv = field_tag.Account then
      match tagvalue.to_string is with
      | none => none
      | some (s, is1) => some (ret_val, { tvp1 with account := some s }, is1)
    else if tv = field_tag.MsgType then
      match tagvalue.to_string is with
      | none => none
      | some (s, is1) =>
        some (ret_val,
          (if "D".toList = s then { tvp1 with message_is_new_order_single := true } else tvp1),
          is1)
    else if tv = field_tag.Price then
      match tagvalue.to_long_double is with
      | none => none
      | some (ld, is1) => some (ret_val, { tvp1 with price := some ld }, is1)
    else some (ret_val, tvp1, tagvalue_processor.ignore_the_field is)

/-- The second statement of `operator()`: the test for the newline and the decision
taken there. -/
def tagvalue_processor.boundary_check (ret_val : production) (tvp : tagvalue_processor)
    (is : tappedistream) : production × tagvalue_processor × tappedistream :=
  match is.peek with
  | (some '\n', is1) =>
    let is2 := is1.ignore
    let ret_val :=
      match tvp.message_is_new_order_single, tvp.account, tvp.price with
      | true, some a, some p => production.order a p
      | _, _, _ => production.purge
    (ret_val, tvp.reset, is2)
  | (_, is1) => (ret_val, tvp, is1)

/-- The function `tagvalue_processor::operator()`. -/
def tagvalue_processor.call (tvp : tagvalue_processor) (is : tappedistream) (tv : field_tag) :
    Option (production × tagvalue_processor × tappedistream) :=
  match tvp.handle_field is tv with
  | none => none
  | some (ret_val, tvp1, is1) => some (tagvalue_processor.boundary_check ret_val tvp1 is1)

/-! ## `sink` -/

/-- The mapped type of `map_of_high_low_per_account`: the optional high and low. -/
abbrev high_low := Option ℚ × Option ℚ

/-- The type `map_of_high_low_per_account`. -/
abbrev map_of_high_low_per_account := List Char → Option high_low

/-- The struct `sink` together with what its assignment acts on: `ss` is the unread
content of the string stream the sink refers to, `mp` the table, `cerr` the writes made
to `std::cerr`, and `cerr_failbit` the state of `std::cerr`. -/
structure sink where
  ss : List Char
  mp : map_of_high_low_per_account
  cerr : List (List Char)
  cerr_failbit : Bool

/-- The expression `mp[key]`: the entry, created empty when the key is new. -/
def map_of_high_low_per_account.at (mp : map_of_high_low_per_account) (key : List Char) :
    high_low :=
  match mp key with
  | some e => e
  | none => (none, none)

/-- Store an entry under a key. -/
def map_of_high_low_per_account.set (mp : map_of_high_low_per_account) (key : List Char)
    (e : high_low) : map_of_high_low_per_account :=
  fun k => if k = key then some e else mp k

/-- The statement `std::cerr << ss.rdbuf()`: nothing happens on a failed `std::cerr`;
inserting no byte sets its `failbit`; otherwise the unread content is written. -/
def sink.dump (s : sink) : sink :=
  if s.cerr_failbit then s
  else if s.ss = [] then { s with cerr_failbit := true }
  else { s with cerr := s.cerr ++ [s.ss], ss := [] }

/-- The statement `ss.seekg(0, std::ios_base::end)`. -/
def sink.seekg_end (s : sink) : sink :=
  { s with ss := [] }

/-- The function `sink::operator=`. -/
def sink.assign (s : sink) (p : production) : sink :=
  match p with
  | production.monostate => s
  | production.error => s.dump.seekg_end
  | production.purge => s.seekg_end
  | production.order account price =>
    let (high, low) := s.mp.at account
    let high :=
      match high with
      | none => some price
      | some h => if h < price then some price else some h
    let low :=
      match low with
      | none => some price
      | some l => if l > price then some price else some l
    ({ s with mp := s.mp.set account (high, low) }).seekg_end

/-! ## `main` -/

/-- How the call of `std::transform` in `main` ends. -/
inductive exit_kind where
  | finished : exit_kind
  | bad_cast : exit_kind
  | out_of_fuel : exit_kind
deriving DecidableEq

/-- What a run leaves behind. -/
structure run_result where
  kind : exit_kind
  s : sink
  is : tappedistream

/-- The loop of `std::transform` over `istream_iterator<tagvalue>`: read a `tagvalue`,
stop when that fails; otherwise apply the processor, assign its outcome to the sink and
go on.  The sink's stream is the destination of the tapped buffer. -/
def transform : Nat → tappedistream → tagvalue_processor → sink → run_result
  | 0, is, _, s => { kind := exit_kind.out_of_fuel, s := s, is := is }
  | fuel + 1, is, tvp, s =>
    match extract_tagvalue is with
    | (none, is1) => { kind := exit_kind.finished, s := s, is := is1 }
    | (some tv, is1) =>
      match tvp.call is1 tv with
      | none => { kind := exit_kind.bad_cast, s := { s with ss := is1.dst }, is := is1 }
      | some (p, tvp2, is2) =>
        let s2 := ({ s with ss := is2.dst }).assign p
        transform fuel { is2 with dst := s2.ss } tvp2 s2

/-- The sink as constructed in `main`. -/
def sink.init : sink :=
  { ss := [], mp := fun _ => none, cerr := [], cerr_failbit := false }

/-- The stream as constructed in `main` over the given standard input. -/
def tappedistream.init (input : List Char) : tappedistream :=
  { src := input, dst := [], eofbit := false, failbit := false }

/-- The part of `main` that fills the table: every successful read of a tag consumes a
byte, so one round per input byte and one more suffice. -/
def main (input : List Char) : run_result :=
  transform (input.length + 1) (tappedistream.init input) tagvalue_processor.init sink.init

/-! ## Vocabulary of the statements -/

/-- The prices of the orders for account `a` in a sequence of outcomes, in order. -/
def prices_of (ps : List production) (a : List Char) : List ℚ :=
  ps.filterMap fun p =>
    match p with
    | production.order b q => if b = a then some q else none
    | _ => none

/-- Consuming a sequence of outcomes, one assignment each. -/
def sink.consume (s : sink) (ps : List production) : sink :=
  ps.foldl sink.assign s

/-- What the table holds for an account whose orders had the prices `qs`: nothing when
there were none, otherwise a greatest and a least element of `qs`. -/
def entry_matches (e : Option high_low) (qs : List ℚ) : Prop :=
  (qs = [] → e = none) ∧
  (qs ≠ [] → ∃ hi lo, e = some (some hi, some lo) ∧
      IsGreatest {q | q ∈ qs} hi ∧ IsLeast {q | q ∈ qs} lo)

/-- The new high of an entry after an order at `price`, as `sink::operator=` sets it. -/
def raised (high : Option ℚ) (price : ℚ) : Option ℚ :=
  match high with
  | none => some price
  | some h => if h < price then some price else some h

/-- The new low of an entry after an order at `price`, as `sink::operator=` sets it. -/
def lowered (low : Option ℚ) (price : ℚ) : Option ℚ :=
  match low with
  | none => some price
  | some l => if l > price then some price else some l

/-- A stream state in which a raised `eofbit` or `failbit` goes with an exhausted source;
the streams of a run are of this kind whenever a field has been handled. -/
def tappedistream.settled (is : tappedistream) : Prop :=
  is.good = false → is.src = []

/-! ## Well-formed input -/

/-- A stream with both state bits clear. -/
def tappedistream.clear (src dst : List Char) : tappedistream :=
  { src := src, dst := dst, eofbit := false, failbit := false }

/-- A decimal numeral: digits, optionally followed by a point and more digits. -/
structure numeral where
  intd : List Char
  fracd : Option (List Char)
deriving DecidableEq

/-- The text of a numeral. -/
def numeral.text (n : numeral) : List Char :=
  match n.fracd with
  | none => n.intd
  | some f => n.intd ++ '.' :: f

/-- The number a numeral denotes. -/
def numeral.value (n : numeral) : ℚ :=
  float_value false n.intd (n.fracd.getD []) 0

/-- A numeral is well formed when each digit string is a non-empty string of digits and
the number it denotes is within the range of `long double`: the conversion succeeds,
which it does for the numbers below `2 ^ 16384 - 2 ^ 16319`. -/
def numeral.wellformed (n : numeral) : Prop :=
  n.intd ≠ [] ∧ (∀ c ∈ n.intd, is_digit c = true) ∧
  (∀ f, n.fracd = some f → f ≠ [] ∧ ∀ c ∈ f, is_digit c = true) ∧
  strtold n.value ≠ none

/-- The `long double` a numeral is read as: the one nearest to the number it denotes. -/
def numeral.long_double (n : numeral) : ℚ :=
  (strtold n.value).getD 0

/-- A number is a `long double` when its magnitude is `n * 2 ^ k` for a significand `n`
of at most `LDBL_MANT_DIG` bits and an exponent `k` of the format. -/
def is_long_double (v : ℚ) : Prop :=
  ∃ (n : Nat) (k : Int), n < 2 ^ LDBL_MANT_DIG ∧
    LDBL_MIN_EXP - (LDBL_MANT_DIG : Int) ≤ k ∧
    k ≤ (LDBL_MAX_EXP : Int) - (LDBL_MANT_DIG : Int) ∧
    |v| = n * 2 ^ k

/-- The three fields of an order message. -/
inductive field_kind where
  | account : field_kind
  | msgtype : field_kind
  | price : field_kind
deriving DecidableEq

/-- The tag of a field. -/
def field_kind.tag : field_kind → field_tag
  | field_kind.account => field_tag.Account
  | field_kind.msgtype => field_tag.MsgType
  | field_kind.price => field_tag.Price

/-- The tag of a field as written in a message. -/
def field_kind.tag_text : field_kind → List Char
  | field_kind.account => "1".toList
  | field_kind.msgtype => "35".toList
  | field_kind.price => "44".toList

/-- An order message: an account, a price, and the order in which its three fields
are written. -/
structure order_message where
  account : List Char
  price : numeral
  layout : List field_kind
deriving DecidableEq

/-- The value of a field of an order message as written. -/
def order_message.value_text (m : order_message) : field_kind → List Char
  | field_kind.account => m.account
  | field_kind.msgtype => "D".toList
  | field_kind.price => m.price.text

/-- A field of an order message as written: tag, `=`, value. -/
def order_message.field (m : order_message) (k : field_kind) : List Char :=
  k.tag_text ++ '=' :: m.value_text k

/-- An order message is well formed when its account is a non-empty token free of
whitespace, `|` and `=`, its price is a well-formed numeral, so one within the range of
`long double`, and its layout lists each of the three fields once. -/
def order_message.wellformed (m : order_message) : Prop :=
  m.account ≠ [] ∧ (∀ c ∈ m.account, isspace c = false) ∧ m.price.wellformed ∧
  m.layout.Perm [field_kind.account, field_kind.msgtype, field_kind.price]

/-- The line of an order message: its fields separated by `|`, then a newline. -/
def order_message.text (m : order_message) : List Char :=
  List.intercalate ['|'] (m.layout.map m.field) ++ ['\n']

/-- The input made of the lines of the given messages. -/
def render : List order_message → List Char
  | [] => []
  | m :: ms => m.text ++ render ms

/-- The outcome an order message stands for. -/
def order_message.outcome (m : order_message) : production :=
  production.order m.account m.price.long_double

/-- The processor after the given field of a message has been handled. -/
def tagvalue_processor.absorb (tvp : tagvalue_processor) (m : order_message) :
    field_kind → tagvalue_processor
  | field_kind.account =>
    { tvp with discovered_fields := field_tag.Account :: tvp.discovered_fields,
               account := some m.account }
  | field_kind.msgtype =>
    { tvp with discovered_fields := field_tag.MsgType :: tvp.discovered_fields,
               message_is_new_order_single := true }
  | field_kind.price =>
    { tvp with discovered_fields := field_tag.Price :: tvp.discovered_fields,
               price := some m.price.long_double }

/-- The field order `1, 35, 44`. -/
def layout_apt : List field_kind :=
  [field_kind.account, field_kind.msgtype, field_kind.price]

/-- The three messages of the specification's example:
`1=ACME|35=D|44=10.5`, `1=ACME|35=D|44=12.0` and `1=FOO|35=D|44=5`. -/
def example_messages : List order_message :=
  [ { account := "ACME".toList, price := { intd := "10".toList, fracd := some "5".toList },
      layout := layout_apt },
    { account := "ACME".toList, price := { intd := "12".toList, fracd := some "0".toList },
      layout := layout_apt },
    { account := "FOO".toList, price := { intd := "5".toList, fracd := none },
      layout := layout_apt } ]

/-- The given fields of a message, each followed by `|`, and then the text `last`. -/
def fields_then (m : order_message) : List field_kind → List Char → List Char
  | [], last => last
  | k :: ks, last => m.field k ++ '|' :: fields_then m ks last

/-- A line with a repeated tag: the fields `ks` of `m`, then a field with the tag of `k`
again and any text `tail` as the rest of the line, then the newline. -/
def duplicate_line (m : order_message) (ks : List field_kind) (k : field_kind)
    (tail : List Char) : List Char :=
  fields_then m ks (k.tag_text ++ '=' :: tail) ++ ['\n']

/-! ## Vocabulary for the tee -/

/-- A read on the tee: looking at the next byte, or taking it. -/
inductive tee_op where
  | peek : tee_op
  | consume : tee_op
deriving DecidableEq

/-- Apply a sequence of reads to the tee: the buffer afterwards, and what each read
returned (`none` is end of input). -/
def tappedstreambuf.run_ops (tb : tappedstreambuf) : List tee_op →
    tappedstreambuf × List (tee_op × Option Char)
  | [] => (tb, [])
  | tee_op.peek :: ops =>
    let r := tb.run_ops ops
    (r.1, (tee_op.peek, tb.underflow) :: r.2)
  | tee_op.consume :: ops =>
    let r := (tb.uflow).2.run_ops ops
    (r.1, (tee_op.consume, (tb.uflow).1) :: r.2)

/-- The bytes returned by the consuming reads of a log, in order. -/
def consumed_bytes (log : List (tee_op × Option Char)) : List Char :=
  log.filterMap fun e =>
    match e with
    | (tee_op.consume, some c) => some c
    | _ => none

/-- The processor states that can arise: the one constructed in `main`, and any state
left by a call of `operator()` on such a state, for whatever stream and tag. -/
inductive tagvalue_processor.reachable : tagvalue_processor → Prop where
  | init : tagvalue_processor.reachable tagvalue_processor.init
  | step (tvp : tagvalue_processor) (is : tappedistream) (tv : field_tag) (p : production)
      (tvp2 : tagvalue_processor) (is2 : tappedistream) :
      tagvalue_processor.reachable tvp → tvp.call is tv = some (p, tvp2, is2) →
      tagvalue_processor.reachable tvp2

/-- Captured values go with discovered tags. -/
def tagvalue_processor.captured_are_discovered (tvp : tagvalue_processor) : Prop :=
  (tvp.account ≠ none → field_tag.Account ∈ tvp.discovered_fields) ∧
  (tvp.price ≠ none → field_tag.Price ∈ tvp.discovered_fields) ∧
  (tvp.message_is_new_order_single = true → field_tag.MsgType ∈ tvp.discovered_fields)

/-! ## Vocabulary for the bytes a run consumes -/

/-- The stream `b` is the stream `a` after some bytes were consumed: they were taken off
the front of the source and put at the end of the destination. -/
def tappedistream.follows (a b : tappedistream) : Prop :=
  ∃ k, a.src = k ++ b.src ∧ b.dst = a.dst ++ k

/-- The rounds of the loop of `transform`, as a log: for each round that produced an
outcome, the outcome and the bytes the round took from the source. -/
def rounds : Nat → tappedistream → tagvalue_processor → sink → List (production × List Char)
  | 0, _, _, _ => []
  | fuel + 1, is, tvp, s =>
    match extract_tagvalue is with
    | (none, _) => []
    | (some tv, is1) =>
      match tvp.call is1 tv with
      | none => []
      | some (p, tvp2, is2) =>
        let s2 := ({ s with ss := is2.dst }).assign p
        (p, is.src.take (is.src.length - is2.src.length)) ::
          rounds fuel { is2 with dst := s2.ss } tvp2 s2

/-- The diagnostics that a log of rounds calls for, given the bytes `buf` consumed since
the last outcome other than `None`: every `Error` dumps the bytes consumed since then,
its own round included, and every outcome other than `None` starts afresh. -/
def dumps_of : List Char → List (production × List Char) → List (List Char)
  | _, [] => []
  | buf, (production.monostate, k) :: r => dumps_of (buf ++ k) r
  | buf, (production.error, k) :: r => (buf ++ k) :: dumps_of [] r
  | _, (_, _) :: r => dumps_of [] r

/-- The value of a field as written when the message type is `t` instead of `D`. -/
def order_message.value_with (m : order_message) (t : List Char) : field_kind → List Char
  | field_kind.msgtype => t
  | k => m.value_text k

/-- A field as written when the message type is `t`. -/
def order_message.field_with (m : order_message) (t : List Char) (k : field_kind) :
    List Char :=
  k.tag_text ++ '=' :: m.value_with t k

/-- The line of a message whose message type is `t`. -/
def order_message.text_with (m : order_message) (t : List Char) : List Char :=
  List.intercalate ['|'] (m.layout.map (m.field_with t)) ++ ['\n']

/-- The processor after a field of a message whose type is not `D` has been handled. -/
def tagvalue_processor.absorb_other (tvp : tagvalue_processor) (m : order_message) :
    field_kind → tagvalue_processor
  | field_kind.msgtype =>
    { tvp with discovered_fields := field_tag.MsgType :: tvp.discovered_fields }
  | k => tvp.absorb m k

/-- The message `1=A|35=D|44=99…9` whose price is written with 5000 digits `9`. -/
def nines_price : order_message :=
  { account := "A".toList, price := { intd := List.replicate 5000 '9', fracd := none },
    layout := layout_apt }

/-- Two messages of the account `A`, at the prices `0.1` and `0.1000000000000000000001`. -/
def tenth_twice : List order_message :=
  [ { account := "A".toList, price := { intd := "0".toList, fracd := some "1".toList },
      layout := layout_apt },
    { account := "A".toList,
      price := { intd := "0".toList, fracd := some "1000000000000000000001".toList },
      layout := layout_apt } ]

/-- The account `ACME` at price 9.9 with the field order `35, 1, 44`: with the type `8`
its line is the specification's example `35=8|1=ACME|44=9.9`. -/
def acme_type_first : order_message :=
  { account := "ACME".toList, price := { intd := "9".toList, fracd := some "9".toList },
    layout := [field_kind.msgtype, field_kind.account, field_kind.price] }

end FixDemo

/-! # Properties -/

namespace FixDemo

/-! ## The aggregator -/

theorem assign_mp_monostate (s : sink) : (s.assign production.monostate).mp = s.mp := rfl

theorem assign_mp_error (s : sink) : (s.assign production.error).mp = s.mp := by
  simp only [sink.assign, sink.dump, sink.seekg_end]
  split_ifs <;> rfl

theorem assign_mp_purge (s : sink) : (s.assign production.purge).mp = s.mp := rfl

/-- The new high after an order at price `q`. -/
theorem assign_order_mp_same (s : sink) (a : List Char) (q : ℚ) :
    (s.assign (production.order a q)).mp a =
      some (raised (s.mp.at a).1 q, lowered (s.mp.at a).2 q) := by
  simp only [sink.assign, sink.seekg_end, map_of_high_low_per_account.set, if_true, raised,
    lowered]

theorem assign_order_mp_other (s : sink) (a b : List Char) (q : ℚ) (h : a ≠ b) :
    (s.assign (production.order b q)).mp a = s.mp a := by
  simp [sink.assign, sink.seekg_end, map_of_high_low_per_account.set, h]

theorem consume_append (s : sink) (ps : List production) (p : production) :
    s.consume (ps ++ [p]) = (s.consume ps).assign p := by
  simp [sink.consume, List.foldl_append]

theorem prices_of_append (ps : List production) (p : production) (a : List Char) :
    prices_of (ps ++ [p]) a = prices_of ps a ++ prices_of [p] a := by
  simp [prices_of, List.filterMap_append]

theorem prices_of_single_order (a b : List Char) (q : ℚ) :
    prices_of [production.order b q] a = if b = a then [q] else [] := by
  by_cases h : b = a <;> simp [prices_of, List.filterMap_cons, h]

theorem entry_matches_step (e : Option high_low) (qs : List ℚ) (q : ℚ)
    (h : entry_matches e qs) :
    entry_matches
      (some (raised (match e with | some x => x | none => (none, none)).1 q,
             lowered (match e with | some x => x | none => (none, none)).2 q))
      (qs ++ [q]) := by
  refine ⟨fun h0 => by simp at h0, fun _ => ?_⟩
  by_cases hq : qs = []
  · subst hq
    have he := h.1 rfl
    subst he
    refine ⟨q, q, rfl, ?_, ?_⟩ <;> simp [IsGreatest, IsLeast, upperBounds, lowerBounds]
  · obtain ⟨hi, lo, he, hhi, hlo⟩ := h.2 hq
    subst he
    refine ⟨if hi < q then q else hi, if lo > q then q else lo, ?_, ?_, ?_⟩
    · simp only [raised, lowered]
      split_ifs <;> rfl
    · constructor
      · show _ ∈ qs ++ [q]
        split_ifs
        · simp
        · exact List.mem_append_left _ hhi.1
      · intro x hx
        have hx' : x ∈ qs ++ [q] := hx
        rcases List.mem_append.1 hx' with hx1 | hx1
        · have := hhi.2 hx1
          split_ifs with hc
          · exact le_trans this (le_of_lt hc)
          · exact this
        · have hxq : x = q := by simpa using hx1
          subst hxq
          split_ifs with hc
          · exact le_refl _
          · exact not_lt.1 hc
    · constructor
      · show _ ∈ qs ++ [q]
        split_ifs
        · simp
        · exact List.mem_append_left _ hlo.1
      · intro x hx
        have hx' : x ∈ qs ++ [q] := hx
        rcases List.mem_append.1 hx' with hx1 | hx1
        · have := hlo.2 hx1
          split_ifs with hc
          · exact le_trans (le_of_lt hc) this
          · exact this
        · have hxq : x = q := by simpa using hx1
          subst hxq
          split_ifs with hc
          · exact le_refl _
          · exact not_lt.1 hc

/-- The table after consuming any outcomes from an empty table. -/
theorem consume_entry_matches (s : sink) (h0 : ∀ a, s.mp a = none) (ps : List production)
    (a : List Char) : entry_matches ((s.consume ps).mp a) (prices_of ps a) := by
  induction ps using List.reverseRecOn with
  | nil => exact ⟨fun _ => h0 a, fun h => absurd rfl h⟩
  | append_singleton ps p ih =>
    rw [consume_append, prices_of_append]
    cases p with
    | monostate => simpa [prices_of, assign_mp_monostate] using ih
    | error => simpa [prices_of, assign_mp_error] using ih
    | purge => simpa [prices_of, assign_mp_purge] using ih
    | order b q =>
      rw [prices_of_single_order]
      by_cases hb : b = a
      · subst hb
        rw [assign_order_mp_same, if_pos rfl]
        exact entry_matches_step _ _ q ih
      · rw [assign_order_mp_other _ _ _ _ (Ne.symm hb), if_neg hb, List.append_nil]
        exact ih

theorem raised_some (x q : ℚ) : raised (some x) q = some (max x q) := by
  simp only [raised]
  rcases lt_trichotomy x q with h | h | h
  · rw [if_pos h, max_eq_right (le_of_lt h)]
  · rw [if_neg (by rw [h]; exact lt_irrefl _), h, max_self]
  · rw [if_neg (not_lt.2 (le_of_lt h)), max_eq_left (le_of_lt h)]

theorem lowered_some (x q : ℚ) : lowered (some x) q = some (min x q) := by
  simp only [lowered]
  rcases lt_trichotomy x q with h | h | h
  · rw [if_neg (not_lt.2 (le_of_lt h)), min_eq_left (le_of_lt h)]
  · rw [if_neg (by rw [h]; exact lt_irrefl _), h, min_self]
  · rw [if_pos h, min_eq_right (le_of_lt h)]

theorem raised_comm (h : Option ℚ) (p q : ℚ) :
    raised (raised h p) q = raised (raised h q) p := by
  cases h with
  | none =>
    show raised (some p) q = raised (some q) p
    rw [raised_some, raised_some, max_comm]
  | some x => rw [raised_some, raised_some, raised_some, raised_some, max_assoc, max_comm p q, max_assoc]

theorem lowered_comm (l : Option ℚ) (p q : ℚ) :
    lowered (lowered l p) q = lowered (lowered l q) p := by
  cases l with
  | none =>
    show lowered (some p) q = lowered (some q) p
    rw [lowered_some, lowered_some, min_comm]
  | some x => rw [lowered_some, lowered_some, lowered_some, lowered_some, min_assoc, min_comm p q, min_assoc]

theorem mem_prices_of (ps : List production) (a : List Char) (q : ℚ) :
    q ∈ prices_of ps a ↔ production.order a q ∈ ps := by
  simp only [prices_of, List.mem_filterMap]
  constructor
  · rintro ⟨p, hp, hq⟩
    cases p with
    | order b r =>
      by_cases hb : b = a
      · simp only [hb, if_true, Option.some.injEq] at hq
        rw [← hb, ← hq]
        simpa [hb] using hp
      · simp [hb] at hq
    | monostate => simp at hq
    | error => simp at hq
    | purge => simp at hq
  · intro h
    exact ⟨_, h, by simp⟩

theorem assign_order_frame (t : sink) (c : List Char) (r : ℚ) :
    (t.assign (production.order c r)).ss = [] ∧
    (t.assign (production.order c r)).cerr = t.cerr ∧
    (t.assign (production.order c r)).cerr_failbit = t.cerr_failbit := by
  simp [sink.assign, sink.seekg_end]

theorem sink_ext (s t : sink) (h1 : s.ss = t.ss) (h2 : s.mp = t.mp) (h3 : s.cerr = t.cerr)
    (h4 : s.cerr_failbit = t.cerr_failbit) : s = t := by
  cases s; cases t; simp only at h1 h2 h3 h4; subst h1 h2 h3 h4; rfl

theorem assign_order_comm (s : sink) (a b : List Char) (p q : ℚ) :
    (s.assign (production.order a p)).assign (production.order b q) =
      (s.assign (production.order b q)).assign (production.order a p) := by
  apply sink_ext
  · rw [(assign_order_frame _ _ _).1, (assign_order_frame _ _ _).1]
  · funext k
    by_cases hab : a = b
    · subst hab
      by_cases hk : k = a
      · subst hk
        rw [assign_order_mp_same, assign_order_mp_same]
        simp only [map_of_high_low_per_account.at, assign_order_mp_same]
        rw [raised_comm, lowered_comm]
      · rw [assign_order_mp_other _ _ _ _ hk, assign_order_mp_other _ _ _ _ hk,
          assign_order_mp_other _ _ _ _ hk, assign_order_mp_other _ _ _ _ hk]
    · by_cases hka : k = a
      · subst hka
        rw [assign_order_mp_other _ _ _ _ hab, assign_order_mp_same, assign_order_mp_same]
        simp only [map_of_high_low_per_account.at, assign_order_mp_other _ _ _ _ hab]
      · by_cases hkb : k = b
        · subst hkb
          rw [assign_order_mp_same, assign_order_mp_other _ _ _ _ hka, assign_order_mp_same]
          simp only [map_of_high_low_per_account.at, assign_order_mp_other _ _ _ _ hka]
        · rw [assign_order_mp_other _ _ _ _ hkb, assign_order_mp_other _ _ _ _ hka,
            assign_order_mp_other _ _ _ _ hka, assign_order_mp_other _ _ _ _ hkb]
  · rw [(assign_order_frame _ _ _).2.1, (assign_order_frame _ _ _).2.1,
      (assign_order_frame _ _ _).2.1, (assign_order_frame _ _ _).2.1]
  · rw [(assign_order_frame _ _ _).2.2, (assign_order_frame _ _ _).2.2,
      (assign_order_frame _ _ _).2.2, (assign_order_frame _ _ _).2.2]

/-- C2: starting from the empty table, after any finite sequence of outcomes every
account is either absent from the table or has both its high and its low set, with
the high at least the low. -/
theorem C2_aggregator_invariant (ss : List Char) (cerr : List (List Char)) (f : Bool)
    (ps : List production) (a : List Char) :
    (sink.consume { ss := ss, mp := fun _ => none, cerr := cerr, cerr_failbit := f } ps).mp a
        = none ∨
    ∃ hi lo,
      (sink.consume { ss := ss, mp := fun _ => none, cerr := cerr, cerr_failbit := f } ps).mp a
        = some (some hi, some lo) ∧ lo ≤ hi := by
  have h := consume_entry_matches
    { ss := ss, mp := fun _ => none, cerr := cerr, cerr_failbit := f } (fun _ => rfl) ps a
  by_cases hq : prices_of ps a = []
  · exact Or.inl (h.1 hq)
  · obtain ⟨hi, lo, he, hhi, hlo⟩ := h.2 hq
    exact Or.inr ⟨hi, lo, he, hlo.2 hhi.1⟩

/-- C3: starting from the empty table, after any finite sequence of outcomes an account
is in the table exactly when some order of the sequence names it, and then its high is
the greatest and its low the least of the prices of its orders. -/
theorem C3_fold_is_max_min (ss : List Char) (cerr : List (List Char)) (f : Bool)
    (ps : List production) (a : List Char) :
    ((sink.consume { ss := ss, mp := fun _ => none, cerr := cerr, cerr_failbit := f } ps).mp a
        = none ∧ ¬ ∃ q, production.order a q ∈ ps) ∨
    ((∃ q, production.order a q ∈ ps) ∧ ∃ hi lo,
      (sink.consume { ss := ss, mp := fun _ => none, cerr := cerr, cerr_failbit := f } ps).mp a
        = some (some hi, some lo) ∧
      IsGreatest {q | production.order a q ∈ ps} hi ∧
      IsLeast {q | production.order a q ∈ ps} lo) := by
  have h := consume_entry_matches
    { ss := ss, mp := fun _ => none, cerr := cerr, cerr_failbit := f } (fun _ => rfl) ps a
  have hset : {q | q ∈ prices_of ps a} = {q | production.order a q ∈ ps} := by
    ext q
    exact mem_prices_of ps a q
  by_cases hq : prices_of ps a = []
  · refine Or.inl ⟨h.1 hq, ?_⟩
    rintro ⟨q, hqm⟩
    have := (mem_prices_of ps a q).2 hqm
    rw [hq] at this
    exact absurd this (List.not_mem_nil q)
  · obtain ⟨hi, lo, he, hhi, hlo⟩ := h.2 hq
    rw [hset] at hhi hlo
    exact Or.inr ⟨⟨hi, hhi.1⟩, hi, lo, he, hhi, hlo⟩

/-- C9: consuming a list of orders and consuming any permutation of it from the same
sink give the same sink, table included; and two orders for an absent account at prices
`p1 < p2` leave high `p2` and low `p1` in either arrival order. -/
theorem C9_arrival_order_irrelevant (s : sink) (l1 l2 : List (List Char × ℚ))
    (hp : l1.Perm l2) :
    s.consume (l1.map fun o => production.order o.1 o.2) =
      s.consume (l2.map fun o => production.order o.1 o.2) ∧
    ∀ (a : List Char) (p1 p2 : ℚ), s.mp a = none → p1 < p2 →
      (s.consume [production.order a p1, production.order a p2]).mp a
          = some (some p2, some p1) ∧
      (s.consume [production.order a p2, production.order a p1]).mp a
          = some (some p2, some p1) := by
  constructor
  · unfold sink.consume
    apply List.Perm.foldl_eq' (hp.map _)
    intro x hx y hy z
    obtain ⟨o1, _, rfl⟩ := List.mem_map.1 hx
    obtain ⟨o2, _, rfl⟩ := List.mem_map.1 hy
    exact assign_order_comm z _ _ _ _
  · intro a p1 p2 ha hlt
    have h1 : ∀ q : ℚ, (s.assign (production.order a q)).mp a = some (some q, some q) := by
      intro q
      rw [assign_order_mp_same]
      simp [map_of_high_low_per_account.at, ha, raised, lowered]
    constructor
    · show ((s.assign (production.order a p1)).assign (production.order a p2)).mp a = _
      rw [assign_order_mp_same]
      simp only [map_of_high_low_per_account.at, h1, raised_some, lowered_some]
      rw [max_eq_right (le_of_lt hlt), min_eq_left (le_of_lt hlt)]
    · show ((s.assign (production.order a p2)).assign (production.order a p1)).mp a = _
      rw [assign_order_mp_same]
      simp only [map_of_high_low_per_account.at, h1, raised_some, lowered_some]
      rw [max_eq_left (le_of_lt hlt), min_eq_right (le_of_lt hlt)]

/-- C9 at the orders `(A, 1), (A, 2)` and their swap, from the sink of `main`. -/
theorem C9_arrival_order_irrelevant_witness :
    List.Perm [("A".toList, (1 : ℚ)), ("A".toList, (2 : ℚ))]
        [("A".toList, (2 : ℚ)), ("A".toList, (1 : ℚ))] ∧
    sink.init.consume [production.order "A".toList 1, production.order "A".toList 2] =
      sink.init.consume [production.order "A".toList 2, production.order "A".toList 1] ∧
    (sink.init.consume [production.order "A".toList 1, production.order "A".toList 2]).mp
        "A".toList = some (some 2, some 1) ∧
    (sink.init.consume [production.order "A".toList 2, production.order "A".toList 1]).mp
        "A".toList = some (some 2, some 1) :=
  ⟨List.Perm.swap _ _ _,
   (C9_arrival_order_irrelevant sink.init [("A".toList, (1 : ℚ)), ("A".toList, (2 : ℚ))]
      [("A".toList, (2 : ℚ)), ("A".toList, (1 : ℚ))] (List.Perm.swap _ _ _)).1,
   (C9_arrival_order_irrelevant sink.init [("A".toList, (1 : ℚ)), ("A".toList, (2 : ℚ))]
      [("A".toList, (2 : ℚ)), ("A".toList, (1 : ℚ))] (List.Perm.swap _ _ _)).2
      "A".toList 1 2 rfl (by norm_num)⟩

/-! ## Stream states -/

theorem settled_of_good (is : tappedistream) (h : is.good = true) : is.settled := by
  intro h2
  rw [h] at h2
  exact absurd h2 (by decide)

theorem good_of_settled (is : tappedistream) (h : is.settled) (c : Char) (rest : List Char)
    (hs : is.src = c :: rest) : is.good = true := by
  by_contra hg
  have := h (by simpa using hg)
  rw [hs] at this
  exact absurd this (by simp)

theorem take_while_good (is : tappedistream) (p : Char → Bool) :
    (is.take_while p).2.good = is.good := rfl

theorem take_if_good (is : tappedistream) (p : Char → Bool) :
    (is.take_if p).2.good = is.good := by
  unfold tappedistream.take_if
  split
  · rfl
  · split <;> rfl

theorem note_eof_settled (is : tappedistream) (h : is.good = true) : is.note_eof.settled := by
  unfold tappedistream.note_eof
  split_ifs with hs
  · intro _
    exact hs
  · exact settled_of_good is h

theorem sentry_true_good (is : tappedistream) (b : Bool) (is1 : tappedistream)
    (h : is.sentry b = (true, is1)) : is1.good = true := by
  unfold tappedistream.sentry at h
  by_cases h1 : (!is.good) = true
  · rw [if_pos h1] at h
    simp at h
  · rw [if_neg h1] at h
    by_cases h2 : b = true
    · rw [if_pos h2] at h
      simp only [Prod.mk.injEq, true_and] at h
      rw [← h]
      simpa using h1
    · rw [if_neg h2] at h
      simp only at h
      by_cases h3 : (is.take_while isspace).2.src = []
      · rw [if_pos h3] at h
        simp at h
      · rw [if_neg h3] at h
        simp only [Prod.mk.injEq, true_and] at h
        rw [← h, take_while_good]
        simpa using h1

theorem sentry_settled (is : tappedistream) (b : Bool) (h : is.settled) :
    (is.sentry b).2.settled := by
  unfold tappedistream.sentry
  by_cases h1 : (!is.good) = true
  · rw [if_pos h1]
    intro _
    exact h (by simpa using h1)
  · rw [if_neg h1]
    by_cases h2 : b = true
    · rw [if_pos h2]
      exact h
    · rw [if_neg h2]
      simp only
      by_cases h3 : (is.take_while isspace).2.src = []
      · rw [if_pos h3]
        intro _
        exact h3
      · rw [if_neg h3]
        apply settled_of_good
        rw [take_while_good]
        simpa using h1

theorem extract_string_settled (is : tappedistream) (s : List Char) (is1 : tappedistream)
    (h : is.extract_string = (some s, is1)) : is1.settled := by
  unfold tappedistream.extract_string at h
  rcases hs : is.sentry false with ⟨ok, is0⟩
  rw [hs] at h
  cases ok with
  | false => simp at h
  | true =>
    simp only at h
    by_cases ht : (is0.take_while fun c => !isspace c).1 = []
    · rw [if_pos ht] at h
      simp at h
    · rw [if_neg ht] at h
      simp only [Prod.mk.injEq, Option.some.injEq] at h
      rw [← h.2]
      apply note_eof_settled
      rw [take_while_good]
      exact sentry_true_good _ _ _ hs

theorem ignore_until_settled (is : tappedistream) (d : Char) (h : is.settled) :
    (is.ignore_until d).settled := by
  unfold tappedistream.ignore_until
  rcases hs : is.sentry true with ⟨ok, is0⟩
  have h0 : is0.settled := by
    have := sentry_settled is true h
    rw [hs] at this
    exact this
  cases ok with
  | false => exact h0
  | true =>
    have hg := sentry_true_good _ _ _ hs
    simp only
    rcases hu : (is0.take_while fun c => c != d).2.uflow with ⟨c, tb⟩
    unfold tappedstreambuf.uflow at hu
    cases c with
    | none =>
      simp only
      intro _
      split at hu
      · assumption
      · simp at hu
    | some c =>
      simp only
      apply settled_of_good
      simpa [tappedistream.good, tappedistream.take_while] using hg

theorem extract_long_double_settled (is : tappedistream) (v : ℚ) (is1 : tappedistream)
    (h : is.extract_long_double = (some v, is1)) : is1.settled := by
  unfold tappedistream.extract_long_double at h
  rcases hs : is.sentry false with ⟨ok, is0⟩
  rw [hs] at h
  cases ok with
  | false => simp at h
  | true =>
    have hg := sentry_true_good _ _ _ hs
    simp only at h
    split_ifs at h
    all_goals first
      | (split at h
         · simp only [Prod.mk.injEq, Option.some.injEq] at h
           rw [← h.2]
           apply note_eof_settled
           simp only [take_while_good, take_if_good, hg]
         · simp only [Prod.mk.injEq, reduceCtorEq, false_and] at h)
      | (exfalso
         simp only [Prod.mk.injEq, reduceCtorEq, false_and] at h)

/-! ## The boundary decision -/

theorem to_string_settled (is : tappedistream) (s : List Char) (is1 : tappedistream)
    (h : tagvalue.to_string is = some (s, is1)) : is1.settled := by
  unfold tagvalue.to_string at h
  rcases he : is.extract_string with ⟨r, is2⟩
  rw [he] at h
  cases r with
  | none => simp at h
  | some t =>
    simp only [Option.some.injEq, Prod.mk.injEq] at h
    rw [← h.2]
    exact extract_string_settled is t is2 he

theorem to_long_double_settled (is : tappedistream) (v : ℚ) (is1 : tappedistream)
    (h : tagvalue.to_long_double is = some (v, is1)) : is1.settled := by
  unfold tagvalue.to_long_double at h
  rcases he : is.extract_long_double with ⟨r, is2⟩
  rw [he] at h
  cases r with
  | none => simp at h
  | some t =>
    simp only [Option.some.injEq, Prod.mk.injEq] at h
    rw [← h.2]
    exact extract_long_double_settled is t is2 he

theorem handle_field_settled (tvp : tagvalue_processor) (is : tappedistream) (tv : field_tag)
    (ret : production) (tvp1 : tagvalue_processor) (is1 : tappedistream)
    (hnd : tv ∉ tvp.discovered_fields) (hJ : is.settled)
    (hf : tvp.handle_field is tv = some (ret, tvp1, is1)) :
    is1.settled ∧ ret = production.monostate := by
  unfold tagvalue_processor.handle_field at hf
  simp only [tagvalue_processor.is_a_duplicate, if_neg hnd] at hf
  split_ifs at hf with h1 h2 h3
  · rcases hv : tagvalue.to_string is with _ | ⟨s, is2⟩
    · rw [hv] at hf
      simp at hf
    · rw [hv] at hf
      simp only [Option.some.injEq, Prod.mk.injEq] at hf
      rw [← hf.2.2, ← hf.1]
      exact ⟨to_string_settled _ _ _ hv, rfl⟩
  · rcases hv : tagvalue.to_string is with _ | ⟨s, is2⟩
    · rw [hv] at hf
      simp at hf
    · rw [hv] at hf
      simp only [Option.some.injEq, Prod.mk.injEq] at hf
      rw [← hf.2.2, ← hf.1]
      exact ⟨to_string_settled _ _ _ hv, rfl⟩
  · rcases hv : tagvalue.to_long_double is with _ | ⟨s, is2⟩
    · rw [hv] at hf
      simp at hf
    · rw [hv] at hf
      simp only [Option.some.injEq, Prod.mk.injEq] at hf
      rw [← hf.2.2, ← hf.1]
      exact ⟨to_long_double_settled _ _ _ hv, rfl⟩
  · simp only [Option.some.injEq, Prod.mk.injEq] at hf
    rw [← hf.2.2, ← hf.1]
    exact ⟨ignore_until_settled _ _ hJ, rfl⟩

theorem peek_newline (is : tappedistream) (rest : List Char) (hg : is.good = true)
    (hs : is.src = '\n' :: rest) : is.peek = (some '\n', is) := by
  unfold tappedistream.peek tappedistream.sentry
  simp [hg, tappedstreambuf.underflow, hs]

theorem ignore_one (is : tappedistream) (c : Char) (rest : List Char) (hg : is.good = true)
    (hs : is.src = c :: rest) :
    is.ignore = { is with src := rest, dst := is.dst ++ [c] } := by
  unfold tappedistream.ignore tappedistream.sentry
  simp [hg, tappedstreambuf.uflow, hs]

/-- The outcome of `boundary_check` when the next byte is a newline. -/
theorem boundary_check_newline (ret : production) (tvp : tagvalue_processor)
    (is : tappedistream) (rest : List Char) (hg : is.good = true)
    (hs : is.src = '\n' :: rest) :
    tagvalue_processor.boundary_check ret tvp is =
      ((match tvp.message_is_new_order_single, tvp.account, tvp.price with
        | true, some a, some p => production.order a p
        | _, _, _ => production.purge),
       tvp.reset, { is with src := rest, dst := is.dst ++ ['\n'] }) := by
  unfold tagvalue_processor.boundary_check
  rw [peek_newline is rest hg hs]
  simp only
  rw [ignore_one is '\n' rest hg hs]

/-- C8: when the tag is not a duplicate, the field is handled and the next byte is a
newline, the step consumes the newline, returns `Order(account, price)` exactly when the
type flag is set and account and price are captured (with those values), returns `Purge`
otherwise, and leaves the processor reset. -/
theorem C8_boundary_decision (tvp : tagvalue_processor) (is : tappedistream) (tv : field_tag)
    (ret : production) (tvp1 : tagvalue_processor) (is1 : tappedistream) (rest : List Char)
    (hnd : tv ∉ tvp.discovered_fields) (hJ : is.settled)
    (hf : tvp.handle_field is tv = some (ret, tvp1, is1))
    (hnl : is1.src = '\n' :: rest) :
    ∃ p, tvp.call is tv =
        some (p, tagvalue_processor.init, { is1 with src := rest, dst := is1.dst ++ ['\n'] }) ∧
      (∀ a q, p = production.order a q ↔
        (tvp1.message_is_new_order_single = true ∧ tvp1.account = some a ∧
          tvp1.price = some q)) ∧
      ((∃ a q, p = production.order a q) ∨ p = production.purge) := by
  have hset := (handle_field_settled tvp is tv ret tvp1 is1 hnd hJ hf).1
  have hg := good_of_settled is1 hset _ _ hnl
  refine ⟨(match tvp1.message_is_new_order_single, tvp1.account, tvp1.price with
        | true, some a, some p => production.order a p
        | _, _, _ => production.purge), ?_, ?_, ?_⟩
  · unfold tagvalue_processor.call
    rw [hf]
    simp only
    rw [boundary_check_newline ret tvp1 is1 rest hg hnl]
    rfl
  · intro a q
    rcases tvp1 with ⟨d, acc, pr, fl⟩
    cases fl <;> cases acc <;> cases pr <;> simp
  · rcases tvp1 with ⟨d, acc, pr, fl⟩
    cases fl <;> cases acc <;> cases pr <;> simp

/-- C8 at a processor that has seen `1=A` and `35=D` and now handles tag 44 before
`=5`, a newline and the next line: the step returns `Order(A, 5)` and stops after the
newline. -/
theorem C8_boundary_decision_witness :
    tagvalue_processor.call
        { discovered_fields := [35, 1], account := some "A".toList, price := none,
          message_is_new_order_single := true }
        { src := "=5\n1=B".toList, dst := "1=A|35=D|44".toList, eofbit := false,
          failbit := false } 44 =
      some (production.order "A".toList 5, tagvalue_processor.init,
        { src := "1=B".toList, dst := "1=A|35=D|44=5\n".toList, eofbit := false,
          failbit := false }) := by
  obtain ⟨p, hc, hiff, _⟩ := C8_boundary_decision
    { discovered_fields := [35, 1], account := some "A".toList, price := none,
      message_is_new_order_single := true }
    { src := "=5\n1=B".toList, dst := "1=A|35=D|44".toList, eofbit := false,
      failbit := false } 44 production.monostate
    { discovered_fields := [44, 35, 1], account := some "A".toList, price := some 5,
      message_is_new_order_single := true }
    { src := "\n1=B".toList, dst := "1=A|35=D|44=5".toList, eofbit := false,
      failbit := false } "1=B".toList (by decide) (settled_of_good _ rfl) (by decide!) rfl
  have hp : p = production.order "A".toList 5 := (hiff _ _).2 ⟨rfl, rfl, rfl⟩
  rw [hp] at hc
  exact hc

/-- C4, the code at the failing input: the processor has seen tag 1 and meets tag 1
again before `=B`, a newline and an empty line.  The step returns `Purge`, not `Error`,
having consumed the empty line's newline as well; and the run over `1=A|1=B` followed by
an empty line writes no diagnostic. -/
theorem C4_duplicate_before_empty_line :
    tagvalue_processor.call
        { discovered_fields := [1], account := some "A".toList, price := none,
          message_is_new_order_single := false }
        { src := "=B\n\n1=C".toList, dst := "1=A|1".toList, eofbit := false,
          failbit := false } 1 =
      some (production.purge, tagvalue_processor.init,
        { src := "1=C".toList, dst := "1=A|1=B\n\n".toList, eofbit := false,
          failbit := false }) ∧
    (main "1=A|1=B\n\n".toList).kind = exit_kind.finished ∧
    (main "1=A|1=B\n\n".toList).s.cerr = [] := by
  decide!

/-- C5, the claim fails at its own witness: the one dump written for
`1=ACME|1=ACME|35=D|44=10.5` is the whole line with its newline, not the bytes up to and
including the duplicate field. -/
theorem C5_dump_is_whole_line :
    (main "1=ACME|1=ACME|35=D|44=10.5\n".toList).s.cerr =
        ["1=ACME|1=ACME|35=D|44=10.5\n".toList] ∧
    (main "1=ACME|1=ACME|35=D|44=10.5\n".toList).s.cerr ≠ ["1=ACME|1=ACME".toList] ∧
    (main "1=ACME|1=ACME|35=D|44=10.5\n".toList).s.cerr ≠ ["1=ACME|1".toList] := by
  decide!

/-- C6, the code at the failing input: two duplicate-free incomplete messages, the
first `1=A|35=D|99=x` without a price, the second `7=y|44=5` without account and type.
The run finishes without a diagnostic and the table holds `A` with high and low 5. -/
theorem C6_incomplete_messages_merge :
    (main "1=A|35=D|99=x\n7=y|44=5\n".toList).kind = exit_kind.finished ∧
    (main "1=A|35=D|99=x\n7=y|44=5\n".toList).s.cerr = [] ∧
    (main "1=A|35=D|99=x\n7=y|44=5\n".toList).s.mp "A".toList = some (some 5, some 5) := by
  decide!

/-- C7, the code at the failing input: a complete order for `A` whose last field has the
unrecognised tag 99, followed by a complete order for `B`.  Handling tag 99 consumes the
newline and the first field of the next message; no order is emitted for `A` or for `B`,
and both lines are dumped as one diagnostic. -/
theorem C7_trailing_unrecognised_field :
    tagvalue_processor.call
        { discovered_fields := [44, 35, 1], account := some "A".toList, price := some 5,
          message_is_new_order_single := true }
        { src := "=x\n1=B|35=D|44=6\n".toList, dst := "1=A|35=D|44=5|99".toList,
          eofbit := false, failbit := false } 99 =
      some (production.monostate,
        { discovered_fields := [99, 44, 35, 1], account := some "A".toList, price := some 5,
          message_is_new_order_single := true },
        { src := "35=D|44=6\n".toList, dst := "1=A|35=D|44=5|99=x\n1=B|".toList,
          eofbit := false, failbit := false }) ∧
    (main "1=A|35=D|44=5|99=x\n1=B|35=D|44=6\n".toList).s.mp "A".toList = none ∧
    (main "1=A|35=D|44=5|99=x\n1=B|35=D|44=6\n".toList).s.mp "B".toList = none ∧
    (main "1=A|35=D|44=5|99=x\n1=B|35=D|44=6\n".toList).s.cerr =
      ["1=A|35=D|44=5|99=x\n1=B|35=D|44=6\n".toList] ∧
    (main "1=A|35=D|44=5\n1=B|35=D|44=6\n".toList).s.mp "A".toList = some (some 5, some 5) := by
  decide!

/-! ## Reading well-formed tokens -/

theorem takeWhile_prefix (p : Char → Bool) (a : List Char) (c : Char) (rest : List Char)
    (ha : ∀ x ∈ a, p x = true) (hc : p c = false) :
    (a ++ c :: rest).takeWhile p = a ∧ (a ++ c :: rest).dropWhile p = c :: rest := by
  induction a with
  | nil => simp [List.takeWhile, List.dropWhile, hc]
  | cons x xs ih =>
    have hx : p x = true := ha x (List.mem_cons_self _ _)
    have ih2 := ih (fun y hy => ha y (List.mem_cons_of_mem _ hy))
    simp [List.takeWhile, List.dropWhile, hx, ih2.1, ih2.2]

theorem is_digit_not_space (c : Char) (h : is_digit c = true) : isspace c = false := by
  unfold is_digit at h
  simp only [Bool.and_eq_true, decide_eq_true_eq] at h
  have h1 : 48 ≤ c.toNat := h.1
  have h2 : c.toNat ≤ 57 := h.2
  have hne : ∀ d : Char, (d.toNat < 48 ∨ 57 < d.toNat) → c ≠ d := by
    intro d hd hcd
    rw [hcd] at h1 h2
    omega
  unfold isspace derive_from_table table_set classic_table
  have e1 := hne '|' (by decide)
  have e2 := hne '=' (by decide)
  have e3 := hne ' ' (by decide)
  have e4 := hne '\t' (by decide)
  have e5 := hne '\n' (by decide)
  have e6 := hne '\x0b' (by decide)
  have e7 := hne '\x0c' (by decide)
  have e8 := hne '\r' (by decide)
  simp [e1, e2, e3, e4, e5, e6, e7, e8]

theorem sentry_clear (pre : List Char) (x : Char) (more dst : List Char)
    (hpre : ∀ y ∈ pre, isspace y = true) (hx : isspace x = false) :
    (tappedistream.clear (pre ++ x :: more) dst).sentry false =
      (true, tappedistream.clear (x :: more) (dst ++ pre)) := by
  have h := takeWhile_prefix isspace pre x more hpre hx
  simp [tappedistream.sentry, tappedistream.clear, tappedistream.good,
    tappedistream.take_while, h.1, h.2]

theorem sentry_clear_noskip (src dst : List Char) :
    (tappedistream.clear src dst).sentry true = (true, tappedistream.clear src dst) := by
  simp [tappedistream.sentry, tappedistream.clear, tappedistream.good]

theorem is_digit_not_sign (c : Char) (h : is_digit c = true) : is_sign c = false := by
  unfold is_digit at h
  simp only [Bool.and_eq_true, decide_eq_true_eq] at h
  have h1 : 48 ≤ c.toNat := h.1
  have e1 : c ≠ '+' := by
    intro hc
    rw [hc] at h1
    exact absurd h1 (by decide)
  have e2 : c ≠ '-' := by
    intro hc
    rw [hc] at h1
    exact absurd h1 (by decide)
  simp [is_sign, e1, e2]

theorem take_while_clear (p : Char → Bool) (a : List Char) (c : Char) (rest dst : List Char)
    (ha : ∀ x ∈ a, p x = true) (hc : p c = false) :
    (tappedistream.clear (a ++ c :: rest) dst).take_while p =
      (a, tappedistream.clear (c :: rest) (dst ++ a)) := by
  have h := takeWhile_prefix p a c rest ha hc
  simp [tappedistream.take_while, tappedistream.clear, h.1, h.2]

theorem take_if_clear_no (p : Char → Bool) (c : Char) (rest dst : List Char)
    (hc : p c = false) :
    (tappedistream.clear (c :: rest) dst).take_if p =
      (none, tappedistream.clear (c :: rest) dst) := by
  simp [tappedistream.take_if, tappedistream.clear, hc]

theorem take_if_clear_yes (p : Char → Bool) (c : Char) (rest dst : List Char)
    (hc : p c = true) :
    (tappedistream.clear (c :: rest) dst).take_if p =
      (some c, tappedistream.clear rest (dst ++ [c])) := by
  simp [tappedistream.take_if, tappedistream.clear, hc]

theorem note_eof_clear (c : Char) (rest dst : List Char) :
    (tappedistream.clear (c :: rest) dst).note_eof = tappedistream.clear (c :: rest) dst := by
  simp [tappedistream.note_eof, tappedistream.clear]

/-- Reading a tag written as digits and followed by a byte that is no digit. -/
theorem extract_int_clear (pre : List Char) (d : Char) (ds : List Char) (c : Char)
    (rest dst : List Char) (hpre : ∀ y ∈ pre, isspace y = true)
    (hd : ∀ x ∈ d :: ds, is_digit x = true) (hc : is_digit c = false)
    (hr : digits_value (d :: ds) ≤ 2147483647) :
    (tappedistream.clear (pre ++ (d :: ds) ++ c :: rest) dst).extract_int =
      (some (digits_value (d :: ds) : Int),
        tappedistream.clear (c :: rest) (dst ++ pre ++ (d :: ds))) := by
  have hd0 : is_digit d = true := hd d (List.mem_cons_self _ _)
  unfold tappedistream.extract_int
  have e1 : pre ++ (d :: ds) ++ c :: rest = pre ++ d :: (ds ++ c :: rest) := by simp
  rw [e1, sentry_clear pre d _ dst hpre (is_digit_not_space d hd0)]
  simp only
  rw [take_if_clear_no is_sign d _ _ (is_digit_not_sign d hd0)]
  simp only
  have e2 : d :: (ds ++ c :: rest) = (d :: ds) ++ c :: rest := by simp
  rw [e2, take_while_clear is_digit (d :: ds) c rest _ hd hc]
  simp only [note_eof_clear]
  have hv : ¬ ((digits_value (d :: ds) : Int) < -2147483648) := by
    have : (0 : Int) ≤ (digits_value (d :: ds) : Int) := Int.natCast_nonneg _
    omega
  have hv2 : ¬ ((2147483647 : Int) < (digits_value (d :: ds) : Int)) := by
    have : (digits_value (d :: ds) : Int) ≤ 2147483647 := by exact_mod_cast hr
    omega
  simp [hv, hv2, List.append_assoc]

/-- Reading a token that is followed by a whitespace byte. -/
theorem extract_string_clear (pre : List Char) (t : Char) (ts : List Char) (c : Char)
    (rest dst : List Char) (hpre : ∀ y ∈ pre, isspace y = true)
    (ht : ∀ x ∈ t :: ts, isspace x = false) (hc : isspace c = true) :
    (tappedistream.clear (pre ++ (t :: ts) ++ c :: rest) dst).extract_string =
      (some (t :: ts), tappedistream.clear (c :: rest) (dst ++ pre ++ (t :: ts))) := by
  have ht0 : isspace t = false := ht t (List.mem_cons_self _ _)
  unfold tappedistream.extract_string
  have e1 : pre ++ (t :: ts) ++ c :: rest = pre ++ t :: (ts ++ c :: rest) := by simp
  rw [e1, sentry_clear pre t _ dst hpre ht0]
  simp only
  have e2 : t :: (ts ++ c :: rest) = (t :: ts) ++ c :: rest := by simp
  rw [e2, take_while_clear (fun c => !isspace c) (t :: ts) c rest _
    (fun x hx => by simp [ht x hx]) (by simp [hc])]
  simp [note_eof_clear, List.append_assoc]

/-! ## The conversion to `long double` -/

/-- With enough steps allowed, `ilog2` is the integer part of the binary logarithm. -/
theorem ilog2_spec (fuel a : Nat) (h : a ≤ fuel) (ha : 0 < a) :
    2 ^ ilog2 fuel a ≤ a ∧ a < 2 ^ (ilog2 fuel a + 1) := by
  induction fuel generalizing a with
  | zero => omega
  | succ f ih =>
    unfold ilog2
    by_cases h2 : a < 2
    · rw [if_pos h2]
      have : a = 1 := by omega
      subst this
      simp
    · rw [if_neg h2]
      have h3 := ih (a / 2) (by omega) (by omega)
      constructor
      · rw [pow_succ]
        calc 2 ^ ilog2 f (a / 2) * 2 ≤ a / 2 * 2 := Nat.mul_le_mul_right _ h3.1
          _ ≤ a := Nat.div_mul_le_self a 2
      · rw [pow_succ]
        have := h3.2
        omega

/-- The result of `div_round_even` is within one half of `x / y`, and even when `x / y` is
half way between two integers. -/
theorem div_round_even_spec (x y : Nat) (hy : 0 < y) :
    2 * x ≤ (2 * div_round_even x y + 1) * y ∧ (2 * div_round_even x y) * y ≤ 2 * x + y ∧
    (2 * x = (2 * div_round_even x y + 1) * y ∨ (2 * div_round_even x y) * y = 2 * x + y →
      div_round_even x y % 2 = 0) := by
  have hd := Nat.div_add_mod x y
  have hm := Nat.mod_lt x hy
  unfold div_round_even
  generalize x / y = q at hd ⊢
  generalize x % y = r at hd hm ⊢
  subst hd
  split_ifs with h1 h2 h3
  · refine ⟨by nlinarith, by nlinarith, ?_⟩
    rintro (h | h) <;> exfalso <;> nlinarith
  · refine ⟨by nlinarith, by nlinarith, ?_⟩
    rintro (h | h) <;> exfalso <;> nlinarith
  · exact ⟨by nlinarith, by nlinarith, fun _ => h3⟩
  · refine ⟨by nlinarith, by nlinarith, fun _ => ?_⟩
    omega

theorem floor_log2_test (a b la lb : Nat) :
    (if 0 ≤ (la : Int) - (lb : Int) then b * 2 ^ ((la : Int) - (lb : Int)).toNat ≤ a
      else b ≤ a * 2 ^ (-((la : Int) - (lb : Int))).toNat) ↔ b * 2 ^ la ≤ a * 2 ^ lb := by
  by_cases h : lb ≤ la
  · have h0 : 0 ≤ (la : Int) - (lb : Int) := by omega
    have h1 : ((la : Int) - (lb : Int)).toNat = la - lb := by omega
    rw [if_pos h0, h1]
    have e : 2 ^ la = 2 ^ (la - lb) * 2 ^ lb := by
      rw [← pow_add]
      congr 1
      omega
    rw [e, ← Nat.mul_assoc]
    exact (mul_le_mul_right (by positivity)).symm
  · have h0 : ¬ 0 ≤ (la : Int) - (lb : Int) := by omega
    have h1 : (-((la : Int) - (lb : Int))).toNat = lb - la := by omega
    rw [if_neg h0, h1]
    have e : 2 ^ lb = 2 ^ (lb - la) * 2 ^ la := by
      rw [← pow_add]
      congr 1
      omega
    rw [e, ← Nat.mul_assoc]
    exact (mul_le_mul_right (by positivity)).symm

/-- The number `floor_log2 a b` is the integer part of the binary logarithm of `a / b`. -/
theorem floor_log2_spec (a b : Nat) (ha : 0 < a) (hb : 0 < b) :
    (2 : ℚ) ^ floor_log2 a b ≤ (a : ℚ) / b ∧ (a : ℚ) / b < 2 ^ (floor_log2 a b + 1) := by
  obtain ⟨a1, a2⟩ := ilog2_spec a a le_rfl ha
  obtain ⟨b1, b2⟩ := ilog2_spec b b le_rfl hb
  have hbq : (0 : ℚ) < b := by exact_mod_cast hb
  have hA : (0 : ℚ) < 2 ^ ilog2 a a := by positivity
  have hB : (0 : ℚ) < 2 ^ ilog2 b b := by positivity
  have a1q : (2 : ℚ) ^ ilog2 a a ≤ a := by exact_mod_cast a1
  have a2q : (a : ℚ) < 2 ^ ilog2 a a * 2 := by
    rw [← pow_succ]
    exact_mod_cast a2
  have b1q : (2 : ℚ) ^ ilog2 b b ≤ b := by exact_mod_cast b1
  have b2q : (b : ℚ) < 2 ^ ilog2 b b * 2 := by
    rw [← pow_succ]
    exact_mod_cast b2
  have e0 : (2 : ℚ) ^ ((ilog2 a a : Int) - (ilog2 b b : Int)) =
      2 ^ ilog2 a a / 2 ^ ilog2 b b := by
    rw [zpow_sub₀ (by norm_num), zpow_natCast, zpow_natCast]
  unfold floor_log2
  simp only
  by_cases ht : b * 2 ^ ilog2 a a ≤ a * 2 ^ ilog2 b b
  · rw [if_pos ((floor_log2_test a b _ _).2 ht)]
    have htq : (b : ℚ) * 2 ^ ilog2 a a ≤ a * 2 ^ ilog2 b b := by exact_mod_cast ht
    constructor
    · rw [e0, div_le_div_iff₀ hB hbq]
      linarith
    · rw [zpow_add_one₀ (by norm_num), e0, div_lt_iff₀ hbq, div_mul_eq_mul_div,
        div_mul_eq_mul_div, lt_div_iff₀ hB]
      nlinarith
  · rw [if_neg (fun h => ht ((floor_log2_test a b _ _).1 h))]
    have htq : (a : ℚ) * 2 ^ ilog2 b b < b * 2 ^ ilog2 a a := by
      have := Nat.lt_of_not_le ht
      exact_mod_cast this
    constructor
    · rw [zpow_sub_one₀ (by norm_num), e0, le_div_iff₀ hbq, div_mul_eq_mul_div, mul_comm,
        ← mul_div_assoc, div_le_iff₀ hB]
      field_simp
      nlinarith
    · rw [sub_add_cancel, e0, div_lt_div_iff₀ hbq hB]
      linarith

theorem abs_div_le_half (x d u : ℚ) (hd : 0 < d) (h1 : -(u * d) ≤ 2 * x)
    (h2 : 2 * x ≤ u * d) : |x / d| ≤ u / 2 := by
  rw [abs_le]
  constructor
  · rw [le_div_iff₀ hd]
    linarith
  · rw [div_le_iff₀ hd]
    linarith

theorem abs_div_eq_half (x d u : ℚ) (hd : 0 < d) (hu : 0 ≤ u) (h : |x / d| = u / 2) :
    2 * x = u * d ∨ 2 * x = -(u * d) := by
  rcases (abs_eq (by positivity)).1 h with h | h
  · left
    rw [div_eq_iff hd.ne.symm] at h
    linarith
  · right
    rw [div_eq_iff hd.ne.symm] at h
    linarith

theorem last_place_ge (a b : Nat) :
    LDBL_MIN_EXP - (LDBL_MANT_DIG : Int) ≤ last_place a b := by
  have := le_max_right (floor_log2 a b) (LDBL_MIN_EXP - 1)
  simp only [last_place, LDBL_MANT_DIG, LDBL_MIN_EXP] at this ⊢
  push_cast
  omega

/-- The value `nearest_long_double` computes for a positive fraction: a multiple
`n * 2 ^ k` of the unit in the last place that is within half a unit of the fraction, with
`n` even when the fraction is half way between two multiples; the result is `none` when
this multiple reaches `2 ^ LDBL_MAX_EXP`. -/
theorem nearest_long_double_spec (a b : Nat) (ha : 0 < a) (hb : 0 < b) :
    ∃ n : Nat,
      |(a : ℚ) / b - n * 2 ^ last_place a b| ≤ 2 ^ last_place a b / 2 ∧
      (|(a : ℚ) / b - n * 2 ^ last_place a b| = 2 ^ last_place a b / 2 → n % 2 = 0) ∧
      nearest_long_double a b =
        if (2 : ℚ) ^ LDBL_MAX_EXP ≤ n * 2 ^ last_place a b then none
        else some ((n : ℚ) * 2 ^ last_place a b) := by
  have hbq : (0 : ℚ) < b := by exact_mod_cast hb
  have ha0 : a ≠ 0 := by omega
  unfold nearest_long_double
  rw [if_neg ha0]
  simp only
  have hq64 : (a : ℚ) / b < 2 ^ last_place a b * 2 ^ 64 := by
    refine lt_of_lt_of_le (floor_log2_spec a b ha hb).2 ?_
    have : (2 : ℚ) ^ last_place a b * 2 ^ 64 = 2 ^ (last_place a b + 64) := by
      rw [zpow_add₀ (by norm_num)]
      norm_cast
    rw [this]
    apply zpow_le_zpow_right₀ (by norm_num)
    have := le_max_left (floor_log2 a b) (LDBL_MIN_EXP - 1)
    simp only [last_place, LDBL_MANT_DIG]
    push_cast
    omega
  generalize last_place a b = k at hq64 ⊢
  have hpk : (0 : ℚ) < 2 ^ k := by positivity
  by_cases h0 : 0 ≤ k
  · rw [if_pos h0]
    obtain ⟨s1, s2, s3⟩ := div_round_even_spec a (b * 2 ^ k.toNat) (by positivity)
    have ek : (2 : ℚ) ^ k = ((2 ^ k.toNat : Nat) : ℚ) := by
      conv_lhs => rw [← Int.toNat_of_nonneg h0]
      rw [zpow_natCast]
      norm_cast
    generalize div_round_even a (b * 2 ^ k.toNat) = n at s1 s2 s3 ⊢
    have ec : (n : ℚ) * ((2 ^ k.toNat : Nat) : ℚ) = ((n * 2 ^ k.toNat : Nat) : ℚ) := by
      push_cast
      rfl
    have et : (2 : ℚ) ^ LDBL_MAX_EXP ≤ (n : ℚ) * ((2 ^ k.toNat : Nat) : ℚ) ↔
        2 ^ LDBL_MAX_EXP ≤ n * 2 ^ k.toNat := by
      rw [ec, ← Nat.cast_ofNat, ← Nat.cast_pow, Nat.cast_le]
    have s1q : (2 : ℚ) * a ≤ (2 * n + 1) * (b * ((2 ^ k.toNat : Nat) : ℚ)) := by
      exact_mod_cast s1
    have s2q : (2 : ℚ) * n * (b * ((2 ^ k.toNat : Nat) : ℚ)) ≤
        2 * a + b * ((2 ^ k.toNat : Nat) : ℚ) := by
      exact_mod_cast s2
    have s3q : (2 : ℚ) * a = (2 * n + 1) * (b * ((2 ^ k.toNat : Nat) : ℚ)) ∨
        (2 : ℚ) * n * (b * ((2 ^ k.toNat : Nat) : ℚ)) =
          2 * a + b * ((2 ^ k.toNat : Nat) : ℚ) → n % 2 = 0 := by
      intro h
      apply s3
      rcases h with h | h
      · left
        exact_mod_cast h
      · right
        exact_mod_cast h
    rw [ek] at hpk ⊢
    generalize ((2 ^ k.toNat : Nat) : ℚ) = P at hpk s1q s2q s3q ec et ⊢
    have hdiff : (a : ℚ) / b - n * P = (a - n * (b * P)) / b := by
      field_simp
      ring
    refine ⟨n, ?_, ?_, ?_⟩
    · rw [hdiff]
      exact abs_div_le_half _ _ _ hbq (by linarith) (by linarith)
    · intro ht
      apply s3q
      rw [hdiff] at ht
      rcases abs_div_eq_half _ _ _ hbq hpk.le ht with h | h
      · left
        linarith
      · right
        linarith
    · rw [← ec]
      by_cases hov : 2 ^ LDBL_MAX_EXP ≤ n * 2 ^ k.toNat
      · rw [if_pos hov, if_pos (et.2 hov)]
      · rw [if_neg hov, if_neg (fun h => hov (et.1 h))]
  · rw [if_neg h0]
    obtain ⟨s1, s2, s3⟩ := div_round_even_spec (a * 2 ^ (-k).toNat) b hb
    have ek : (2 : ℚ) ^ k = (((2 ^ (-k).toNat : Nat) : ℚ))⁻¹ := by
      have : k = -(((-k).toNat : Nat) : Int) := by
        rw [Int.toNat_of_nonneg (by omega)]
        omega
      conv_lhs => rw [this]
      rw [zpow_neg, zpow_natCast]
      norm_cast
    have h2k : (2 : ℚ) ^ k ≤ 1 := zpow_le_one_of_nonpos₀ (by norm_num) (by omega)
    generalize div_round_even (a * 2 ^ (-k).toNat) b = n at s1 s2 s3 ⊢
    have hP : (0 : ℚ) < ((2 ^ (-k).toNat : Nat) : ℚ) := by positivity
    have s1q : (2 : ℚ) * (a * ((2 ^ (-k).toNat : Nat) : ℚ)) ≤ (2 * n + 1) * b := by
      exact_mod_cast s1
    have s2q : (2 : ℚ) * n * b ≤ 2 * (a * ((2 ^ (-k).toNat : Nat) : ℚ)) + b := by
      exact_mod_cast s2
    have s3q : (2 : ℚ) * (a * ((2 ^ (-k).toNat : Nat) : ℚ)) = (2 * n + 1) * b ∨
        (2 : ℚ) * n * b = 2 * (a * ((2 ^ (-k).toNat : Nat) : ℚ)) + b → n % 2 = 0 := by
      intro h
      apply s3
      rcases h with h | h
      · left
        exact_mod_cast h
      · right
        exact_mod_cast h
    have hmk : mkRat (n : Int) (2 ^ (-k).toNat) =
        (n : ℚ) * (((2 ^ (-k).toNat : Nat) : ℚ))⁻¹ := by
      rw [Rat.mkRat_eq_div, div_eq_mul_inv]
      push_cast
      rfl
    rw [ek] at hpk h2k hq64 ⊢
    rw [hmk]
    generalize ((2 ^ (-k).toNat : Nat) : ℚ) = P at hP hpk h2k hq64 s1q s2q s3q ⊢
    have hdiff : (a : ℚ) / b - n * P⁻¹ = (a * P - n * b) / (b * P) := by
      field_simp
      ring
    have hud : P⁻¹ * (b * P) = b := by
      field_simp
    have hdist : |(a : ℚ) / b - n * P⁻¹| ≤ P⁻¹ / 2 := by
      rw [hdiff]
      exact abs_div_le_half _ _ _ (by positivity) (by rw [hud]; linarith) (by rw [hud]; linarith)
    refine ⟨n, hdist, ?_, ?_⟩
    · intro ht
      apply s3q
      rw [hdiff] at ht
      rcases abs_div_eq_half _ _ _ (by positivity) hpk.le ht with h | h
      · left
        rw [hud] at h
        linarith
      · right
        rw [hud] at h
        linarith
    · have hlt : ¬ (2 : ℚ) ^ LDBL_MAX_EXP ≤ n * P⁻¹ := by
        have h1 := (abs_le.1 hdist).1
        have h3 : (n : ℚ) * P⁻¹ < 2 ^ 64 + 1 := by nlinarith
        have h4 : (2 : ℚ) ^ 64 + 1 ≤ 2 ^ LDBL_MAX_EXP := by
          simp only [LDBL_MAX_EXP]
          have : (2 : ℚ) ^ 65 ≤ 2 ^ 16384 := pow_le_pow_right₀ (by norm_num) (by norm_num)
          have : (2 : ℚ) ^ 64 + 1 ≤ 2 ^ 65 := by norm_num
          linarith
        intro h
        linarith
      rw [if_neg hlt]

theorem last_place_bounds (a b : Nat) (ha : 0 < a) (hb : 0 < b) :
    (a : ℚ) / b < 2 ^ last_place a b * 2 ^ 64 ∧
    (2 ^ last_place a b * 2 ^ 63 ≤ (a : ℚ) / b ∨
      last_place a b = LDBL_MIN_EXP - (LDBL_MANT_DIG : Int)) := by
  obtain ⟨l1, l2⟩ := floor_log2_spec a b ha hb
  have e64 : ∀ k : Int, (2 : ℚ) ^ k * 2 ^ 64 = 2 ^ (k + 64) := by
    intro k
    rw [zpow_add₀ (by norm_num)]
    norm_cast
  have e63 : ∀ k : Int, (2 : ℚ) ^ k * 2 ^ 63 = 2 ^ (k + 63) := by
    intro k
    rw [zpow_add₀ (by norm_num)]
    norm_cast
  constructor
  · refine lt_of_lt_of_le l2 ?_
    rw [e64]
    apply zpow_le_zpow_right₀ (by norm_num)
    have := le_max_left (floor_log2 a b) (LDBL_MIN_EXP - 1)
    simp only [last_place, LDBL_MANT_DIG]
    push_cast
    omega
  · by_cases h : LDBL_MIN_EXP - 1 ≤ floor_log2 a b
    · left
      rw [e63]
      refine le_trans (zpow_le_zpow_right₀ (by norm_num) ?_) l1
      simp only [last_place, LDBL_MANT_DIG, max_eq_left h]
      push_cast
      omega
    · right
      simp only [last_place, LDBL_MANT_DIG, max_eq_right (le_of_not_le h)]
      push_cast
      omega

/-- A multiple of the unit within half a unit of the fraction has a significand of at
most `2 ^ 64`, and of at least `2 ^ 63` unless the unit is that of the subnormal
numbers. -/
theorem nearest_significand (a b n : Nat) (ha : 0 < a) (hb : 0 < b)
    (hd : |(a : ℚ) / b - n * 2 ^ last_place a b| ≤ 2 ^ last_place a b / 2) :
    n ≤ 2 ^ 64 ∧
    (2 ^ 63 ≤ n ∨ last_place a b = LDBL_MIN_EXP - (LDBL_MANT_DIG : Int)) := by
  obtain ⟨b1, b2⟩ := last_place_bounds a b ha hb
  obtain ⟨d1, d2⟩ := abs_le.1 hd
  have hpk : (0 : ℚ) < 2 ^ last_place a b := by positivity
  generalize last_place a b = k at b1 b2 d1 d2 hpk ⊢
  generalize (2 : ℚ) ^ k = u at b1 b2 d1 d2 hpk
  constructor
  · have h2 : u * (n : ℚ) < u * (2 ^ 64 + 1) := by linarith
    have h3 : (n : ℚ) < 2 ^ 64 + 1 := lt_of_mul_lt_mul_left h2 hpk.le
    have h4 : n < 2 ^ 64 + 1 := by exact_mod_cast h3
    omega
  · rcases b2 with h | h
    · left
      have h2 : u * (2 ^ 63 - 1) < u * (n : ℚ) := by linarith
      have h3 : (2 ^ 63 - 1 : ℚ) < n := lt_of_mul_lt_mul_left h2 hpk.le
      have h4 : ((2 ^ 63 - 1 : Nat) : ℚ) < n := by
        push_cast
        linarith
      have h5 : 2 ^ 63 - 1 < n := by exact_mod_cast h4
      omega
    · right
      exact h

theorem is_long_double_zero : is_long_double 0 :=
  ⟨0, 0, by simp only [LDBL_MANT_DIG]; norm_num,
    by simp only [LDBL_MIN_EXP, LDBL_MANT_DIG]; norm_num,
    by simp only [LDBL_MAX_EXP, LDBL_MANT_DIG]; norm_num, by simp⟩

theorem is_long_double_neg (w : ℚ) (h : is_long_double w) : is_long_double (-w) := by
  obtain ⟨n, k, h1, h2, h3, h4⟩ := h
  exact ⟨n, k, h1, h2, h3, by rw [abs_neg]; exact h4⟩

theorem zpow_two_lt (i j : Int) (h : (2 : ℚ) ^ i < 2 ^ j) : i < j :=
  (zpow_lt_zpow_iff_right₀ (by norm_num)).1 h

/-- What `nearest_long_double` returns is a `long double`. -/
theorem nearest_is_long_double (a b : Nat) (hb : 0 < b) (v : ℚ)
    (h : nearest_long_double a b = some v) : 0 ≤ v ∧ is_long_double v := by
  rcases Nat.eq_zero_or_pos a with ha | ha
  · subst ha
    simp only [nearest_long_double, if_true, Option.some.injEq] at h
    subst h
    exact ⟨le_rfl, is_long_double_zero⟩
  obtain ⟨n, hd, _, hr⟩ := nearest_long_double_spec a b ha hb
  obtain ⟨n64, n63⟩ := nearest_significand a b n ha hb hd
  have hge := last_place_ge a b
  rw [h] at hr
  generalize last_place a b = k at hd hr n63 hge
  have hpk : (0 : ℚ) < 2 ^ k := by positivity
  by_cases hc : (2 : ℚ) ^ LDBL_MAX_EXP ≤ n * 2 ^ k
  · rw [if_pos hc] at hr
    exact absurd hr (by simp)
  rw [if_neg hc] at hr
  simp only [Option.some.injEq] at hr
  subst hr
  have hc2 : (n : ℚ) * 2 ^ k < 2 ^ ((LDBL_MAX_EXP : Nat) : Int) := by
    rw [zpow_natCast]
    exact lt_of_not_le hc
  refine ⟨by positivity, ?_⟩
  have habs : |(n : ℚ) * 2 ^ k| = n * 2 ^ k := abs_of_nonneg (by positivity)
  simp only [LDBL_MIN_EXP, LDBL_MANT_DIG] at hge n63
  push_cast at hge n63
  by_cases hn : n = 2 ^ 64
  · refine ⟨2 ^ 63, k + 1, by simp only [LDBL_MANT_DIG]; norm_num, ?_, ?_, ?_⟩
    · simp only [LDBL_MIN_EXP, LDBL_MANT_DIG]
      push_cast
      omega
    · have h1 : (2 : ℚ) ^ (k + 64) < 2 ^ ((LDBL_MAX_EXP : Nat) : Int) := by
        rw [zpow_add₀ (by norm_num), mul_comm]
        subst hn
        exact_mod_cast hc2
      have := zpow_two_lt _ _ h1
      simp only [LDBL_MAX_EXP, LDBL_MANT_DIG] at this ⊢
      omega
    · rw [habs, hn, zpow_add_one₀ (by norm_num)]
      push_cast
      ring
  · refine ⟨n, k, by simp only [LDBL_MANT_DIG]; omega, ?_, ?_, habs⟩
    · simp only [LDBL_MIN_EXP, LDBL_MANT_DIG]
      push_cast
      omega
    · rcases n63 with h63 | hk
      · have h1 : (2 : ℚ) ^ (k + 63) < 2 ^ ((LDBL_MAX_EXP : Nat) : Int) := by
          rw [zpow_add₀ (by norm_num), mul_comm]
          refine lt_of_le_of_lt ?_ hc2
          apply mul_le_mul_of_nonneg_right _ hpk.le
          exact_mod_cast h63
        have := zpow_two_lt _ _ h1
        simp only [LDBL_MAX_EXP, LDBL_MANT_DIG] at this ⊢
        omega
      · simp only [LDBL_MAX_EXP, LDBL_MANT_DIG]
        omega

theorem grid_nearest (q u : ℚ) (n : Nat) (z : Int) (hu : 0 < u)
    (hd : |q - n * u| ≤ u / 2) : |q - n * u| ≤ |q - z * u| := by
  by_cases hz : z = n
  · subst hz
    simp
  · have h1 : (1 : ℚ) ≤ |(z : ℚ) - n| := by
      have : (1 : Int) ≤ |z - n| := Int.one_le_abs (sub_ne_zero.2 hz)
      exact_mod_cast this
    have h2 : u ≤ |(z : ℚ) * u - n * u| := by
      rw [← sub_mul, abs_mul, abs_of_pos hu]
      nlinarith
    have h3 : |(z : ℚ) * u - n * u| ≤ |q - n * u| + |q - z * u| := by
      have : (z : ℚ) * u - n * u = (q - n * u) - (q - z * u) := by ring
      rw [this]
      exact abs_sub _ _
    linarith

/-- What `nearest_long_double` returns is nearest to the fraction among all values of
the type. -/
theorem nearest_is_nearest (a b : Nat) (hb : 0 < b) (v : ℚ)
    (h : nearest_long_double a b = some v) (w : ℚ) (hw : is_long_double w) :
    |(a : ℚ) / b - v| ≤ |(a : ℚ) / b - w| := by
  rcases Nat.eq_zero_or_pos a with ha | ha
  · subst ha
    simp only [nearest_long_double, if_true, Option.some.injEq] at h
    subst h
    simp
  obtain ⟨n, hd, _, hr⟩ := nearest_long_double_spec a b ha hb
  obtain ⟨b1, b2⟩ := last_place_bounds a b ha hb
  have hge := last_place_ge a b
  rw [h] at hr
  generalize last_place a b = k at hd hr b1 b2 hge
  have hpk : (0 : ℚ) < 2 ^ k := by positivity
  by_cases hc : (2 : ℚ) ^ LDBL_MAX_EXP ≤ n * 2 ^ k
  · rw [if_pos hc] at hr
    exact absurd hr (by simp)
  rw [if_neg hc] at hr
  simp only [Option.some.injEq] at hr
  subst hr
  obtain ⟨m, j, hm, hj1, hj2, habs⟩ := hw
  by_cases hjk : k ≤ j
  · have e : (2 : ℚ) ^ j = ((2 ^ (j - k).toNat : Nat) : ℚ) * 2 ^ k := by
      have : j = (((j - k).toNat : Nat) : Int) + k := by
        rw [Int.toNat_of_nonneg (by omega)]
        omega
      conv_lhs => rw [this]
      rw [zpow_add₀ (by norm_num), zpow_natCast]
      norm_cast
    rcases (abs_eq (by positivity)).1 habs with hw | hw
    · have := grid_nearest ((a : ℚ) / b) (2 ^ k) n ((m * 2 ^ (j - k).toNat : Nat) : Int) hpk hd
      rw [hw, e]
      push_cast at this ⊢
      rw [← mul_assoc]
      exact this
    · have := grid_nearest ((a : ℚ) / b) (2 ^ k) n (-((m * 2 ^ (j - k).toNat : Nat) : Int))
        hpk hd
      rw [hw, e]
      push_cast at this ⊢
      rw [← mul_assoc, ← neg_mul]
      exact this
  · have hk : k ≠ LDBL_MIN_EXP - (LDBL_MANT_DIG : Int) := by omega
    have hq : (2 : ℚ) ^ k * 2 ^ 63 ≤ (a : ℚ) / b := by
      rcases b2 with h | h
      · exact h
      · exact absurd h hk
    have hg := grid_nearest ((a : ℚ) / b) (2 ^ k) n ((2 ^ 63 : Nat) : Int) hpk hd
    have hw1 : w ≤ m * 2 ^ j := by
      rw [← habs]
      exact le_abs_self w
    have hw2 : (m : ℚ) * 2 ^ j ≤ 2 ^ k * 2 ^ 63 := by
      have h1 : (m : ℚ) ≤ 2 ^ 64 := by
        have : m ≤ 2 ^ 64 := by
          simp only [LDBL_MANT_DIG] at hm
          omega
        exact_mod_cast this
      have h2 : (2 : ℚ) ^ j ≤ 2 ^ (k - 1) := zpow_le_zpow_right₀ (by norm_num) (by omega)
      have h3 : (2 : ℚ) ^ (k - 1) * 2 ^ 64 = 2 ^ k * 2 ^ 63 := by
        rw [zpow_sub_one₀ (by norm_num)]
        ring
      have hpj : (0 : ℚ) < 2 ^ j := by positivity
      calc (m : ℚ) * 2 ^ j ≤ 2 ^ 64 * 2 ^ j := mul_le_mul_of_nonneg_right h1 hpj.le
        _ ≤ 2 ^ 64 * 2 ^ (k - 1) := mul_le_mul_of_nonneg_left h2 (by positivity)
        _ = 2 ^ k * 2 ^ 63 := by rw [mul_comm, h3]
    have e1 : |(a : ℚ) / b - ((2 ^ 63 : Nat) : Int) * 2 ^ k| =
        (a : ℚ) / b - 2 ^ k * 2 ^ 63 := by
      rw [abs_of_nonneg]
      · push_cast
        ring
      · push_cast
        linarith
    rw [e1] at hg
    have e2 : (a : ℚ) / b - w ≤ |(a : ℚ) / b - w| := le_abs_self _
    linarith

theorem two_pow_max_exp (k : Int) :
    (2 : ℚ) ^ LDBL_MAX_EXP = 2 ^ (k + 64) * 2 ^ ((16320 : Int) - k) := by
  rw [← zpow_add₀ (by norm_num), ← zpow_natCast]
  congr 1
  simp only [LDBL_MAX_EXP]
  push_cast
  ring

/-- The range of the conversion: `nearest_long_double` fails exactly from the number
half way between the largest `long double` and `2 ^ 16384` on. -/
theorem nearest_none_iff (a b : Nat) (hb : 0 < b) :
    nearest_long_double a b = none ↔ (2 : ℚ) ^ 16384 - 2 ^ 16319 ≤ (a : ℚ) / b := by
  have hT : (2 : ℚ) ^ 16384 - 2 ^ 16319 = 2 ^ (16320 : Int) * (2 ^ 64 - 2⁻¹) := by
    have h1 : (2 : ℚ) ^ 16384 = 2 ^ (16320 : Int) * 2 ^ 64 := by
      rw [← zpow_natCast, ← zpow_natCast, ← zpow_add₀ (by norm_num)]
      rfl
    have h2 : (2 : ℚ) ^ 16319 = 2 ^ (16320 : Int) * 2⁻¹ := by
      rw [← zpow_natCast, ← zpow_neg_one, ← zpow_add₀ (by norm_num)]
      rfl
    rw [h1, h2]
    ring
  rw [hT]
  have hU : (0 : ℚ) < 2 ^ (16320 : Int) := by positivity
  rcases Nat.eq_zero_or_pos a with ha | ha
  · subst ha
    simp only [nearest_long_double, if_true, reduceCtorEq, Nat.cast_zero, zero_div, false_iff,
      not_le]
    have : (0 : ℚ) < 2 ^ 64 - 2⁻¹ := by norm_num
    positivity
  obtain ⟨n, hd, htie, hr⟩ := nearest_long_double_spec a b ha hb
  obtain ⟨n64, n63⟩ := nearest_significand a b n ha hb hd
  obtain ⟨b1, b2⟩ := last_place_bounds a b ha hb
  have hM := two_pow_max_exp (last_place a b)
  generalize last_place a b = k at hd htie hr n63 b1 b2 hM
  have hpk : (0 : ℚ) < 2 ^ k := by positivity
  have n64q : (n : ℚ) ≤ 2 ^ 64 := by exact_mod_cast n64
  obtain ⟨d1, d2⟩ := abs_le.1 hd
  have e64 : (2 : ℚ) ^ (k + 64) = 2 ^ k * 2 ^ 64 := by
    rw [zpow_add₀ (by norm_num)]
    norm_cast
  have hmin : LDBL_MIN_EXP - (LDBL_MANT_DIG : Int) < 16320 := by
    simp only [LDBL_MIN_EXP, LDBL_MANT_DIG]
    norm_num
  constructor
  · intro h
    rw [h] at hr
    by_cases hc : (2 : ℚ) ^ LDBL_MAX_EXP ≤ n * 2 ^ k
    · -- the unit is at least `2 ^ 16320`
      have hk : 16320 ≤ k := by
        by_contra hk
        have h1 : (1 : ℚ) < 2 ^ ((16320 : Int) - k) :=
          one_lt_zpow₀ (by norm_num) (by omega)
        have h2 : (0 : ℚ) < 2 ^ (k + 64) := by positivity
        have h3 : (n : ℚ) * 2 ^ k ≤ 2 ^ (k + 64) := by
          rw [e64, mul_comm]
          exact mul_le_mul_of_nonneg_left n64q hpk.le
        rw [hM] at hc
        nlinarith
      rcases eq_or_lt_of_le hk with hk | hk
      · subst hk
        rw [hM] at hc
        simp only [sub_self, zpow_zero, mul_one] at hc
        rw [e64] at hc
        nlinarith
      · have hq : (2 : ℚ) ^ k * 2 ^ 63 ≤ (a : ℚ) / b := by
          rcases b2 with h | h
          · exact h
          · omega
        have h1 : (2 : ℚ) ^ (16320 : Int) * 2 ≤ 2 ^ k := by
          have : (2 : ℚ) ^ (16320 : Int) * 2 = 2 ^ ((16320 : Int) + 1) := by
            rw [zpow_add_one₀ (by norm_num)]
          rw [this]
          exact zpow_le_zpow_right₀ (by norm_num) (by omega)
        nlinarith
    · rw [if_neg hc] at hr
      exact absurd hr (by simp)
  · intro h
    by_cases hc : (2 : ℚ) ^ LDBL_MAX_EXP ≤ n * 2 ^ k
    · rw [hr, if_pos hc]
    · exfalso
      have hc2 := lt_of_not_le hc
      -- the unit is `2 ^ 16320`
      have hk1 : 16320 ≤ k := by
        by_contra hk
        have h1 : (2 : ℚ) ^ k * 2 ≤ 2 ^ (16320 : Int) := by
          have : (2 : ℚ) ^ k * 2 = 2 ^ (k + 1) := by
            rw [zpow_add_one₀ (by norm_num)]
          rw [this]
          exact zpow_le_zpow_right₀ (by norm_num) (by omega)
        nlinarith
      have hn63 : (2 : ℚ) ^ 63 ≤ n := by
        rcases n63 with h | h
        · exact_mod_cast h
        · omega
      have hk2 : k ≤ 16320 := by
        by_contra hk
        have h1 : (2 : ℚ) ^ (k + 64) * 2 ^ ((16320 : Int) - k) =
            2 ^ k * 2 ^ 63 * (2 * 2 ^ ((16320 : Int) - k)) := by
          rw [e64]
          ring
        have h2 : (2 : ℚ) * 2 ^ ((16320 : Int) - k) = 2 ^ ((16320 : Int) - k + 1) := by
          rw [zpow_add_one₀ (by norm_num)]
          ring
        have h3 : (2 : ℚ) ^ ((16320 : Int) - k + 1) ≤ 1 :=
          zpow_le_one_of_nonpos₀ (by norm_num) (by omega)
        rw [hM, h1, h2] at hc2
        have h4 : (2 : ℚ) ^ k * 2 ^ 63 ≤ n * 2 ^ k := by
          rw [mul_comm]
          exact mul_le_mul_of_nonneg_right hn63 hpk.le
        have h5 : (0 : ℚ) < 2 ^ k * 2 ^ 63 := by positivity
        nlinarith
      have hk : k = 16320 := le_antisymm hk2 hk1
      subst hk
      rw [hM] at hc2
      simp only [sub_self, zpow_zero, mul_one] at hc2
      rw [e64] at hc2
      have hlt : (n : ℚ) < 2 ^ 64 := by
        have : (n : ℚ) * 2 ^ (16320 : Int) < 2 ^ 64 * 2 ^ (16320 : Int) := by linarith
        exact lt_of_mul_lt_mul_right this hU.le
      have hlt2 : n < 2 ^ 64 := by exact_mod_cast hlt
      have hge : (2 : ℚ) ^ 64 - 1 ≤ n := by
        have : (2 ^ 64 - 1 : ℚ) * 2 ^ (16320 : Int) ≤ n * 2 ^ (16320 : Int) := by linarith
        exact le_of_mul_le_mul_right this hU
      have hge2 : 2 ^ 64 - 1 ≤ n := by
        have : ((2 ^ 64 - 1 : Nat) : ℚ) ≤ n := by
          push_cast
          linarith
        exact_mod_cast this
      have hn : n = 2 ^ 64 - 1 := by omega
      have hev := htie (by
        rw [abs_of_nonneg]
        · have : (n : ℚ) = 2 ^ 64 - 1 := by
            rw [hn]
            push_cast
            ring
          rw [this] at d2 ⊢
          linarith
        · have : (n : ℚ) = 2 ^ 64 - 1 := by
            rw [hn]
            push_cast
            ring
          rw [this]
          linarith)
      omega

theorem natAbs_num_div_den (q : ℚ) : ((q.num.natAbs : Nat) : ℚ) / (q.den : ℚ) = |q| := by
  rw [Rat.abs_def, Rat.divInt_eq_div, Nat.cast_natAbs, Int.cast_natCast, Nat.cast_natAbs]
  norm_cast

/-- The range of `strtold`: the conversion fails exactly for the numbers whose magnitude
is at least half way between the largest `long double` and `2 ^ 16384`. -/
theorem strtold_none_iff (q : ℚ) :
    strtold q = none ↔ (2 : ℚ) ^ 16384 - 2 ^ 16319 ≤ |q| := by
  rw [← natAbs_num_div_den, ← nearest_none_iff _ _ q.den_pos]
  unfold strtold
  cases nearest_long_double q.num.natAbs q.den <;> simp

theorem strtold_some (q v : ℚ) (h : strtold q = some v) :
    ∃ u, nearest_long_double q.num.natAbs q.den = some u ∧ v = if q < 0 then -u else u := by
  unfold strtold at h
  cases hn : nearest_long_double q.num.natAbs q.den with
  | none =>
    rw [hn] at h
    exact absurd h (by simp)
  | some u =>
    rw [hn] at h
    simp only [Option.some.injEq] at h
    exact ⟨u, rfl, h.symm⟩

/-- What `strtold` returns is a `long double`. -/
theorem strtold_is_long_double (q v : ℚ) (h : strtold q = some v) : is_long_double v := by
  obtain ⟨u, hu, rfl⟩ := strtold_some q v h
  have := (nearest_is_long_double _ _ q.den_pos u hu).2
  split_ifs
  · exact is_long_double_neg u this
  · exact this

/-- What `strtold` returns is nearest to the number converted among all values of the
type. -/
theorem strtold_nearest (q v : ℚ) (h : strtold q = some v) (w : ℚ) (hw : is_long_double w) :
    |q - v| ≤ |q - w| := by
  obtain ⟨u, hu, rfl⟩ := strtold_some q v h
  have hn := nearest_is_nearest _ _ q.den_pos u hu
  rw [natAbs_num_div_den] at hn
  split_ifs with hq
  · have := hn (-w) (is_long_double_neg w hw)
    rw [abs_of_neg hq] at this
    have e1 : |q - -u| = |-q - u| := by
      rw [← abs_neg]
      congr 1
      ring
    have e2 : |q - w| = |-q - -w| := by
      rw [← abs_neg]
      congr 1
      ring
    rw [e1, e2]
    exact this
  · have := hn w hw
    rw [abs_of_nonneg (not_lt.1 hq)] at this
    exact this

/-- The conversion keeps the order: a larger number is not read as a smaller value. -/
theorem strtold_mono (p q v w : ℚ) (hp : strtold p = some v) (hq : strtold q = some w)
    (h : p ≤ q) : v ≤ w := by
  by_contra hvw
  have hlt : w < v := lt_of_not_le hvw
  have h1 := strtold_nearest p v hp w (strtold_is_long_double q w hq)
  have h2 := strtold_nearest q w hq v (strtold_is_long_double p v hp)
  have s1 := sq_le_sq.2 h1
  have s2 := sq_le_sq.2 h2
  have e1 : 0 ≤ (v - w) * (2 * p - v - w) := by nlinarith
  have e2 : 0 ≤ (v - w) * (v + w - 2 * q) := by nlinarith
  have hvw0 : 0 < v - w := by linarith
  have f1 : 0 ≤ 2 * p - v - w := nonneg_of_mul_nonneg_right e1 hvw0
  have f2 : 0 ≤ v + w - 2 * q := nonneg_of_mul_nonneg_right e2 hvw0
  have hpq : p = q := by linarith
  subst hpq
  rw [hp] at hq
  simp only [Option.some.injEq] at hq
  linarith

/-- A `long double` is converted to itself. -/
theorem strtold_of_long_double (v : ℚ) (h : is_long_double v) : strtold v = some v := by
  cases hs : strtold v with
  | none =>
    exfalso
    have hr := (strtold_none_iff v).1 hs
    obtain ⟨n, k, hn, _, hk, habs⟩ := h
    have hT : (2 : ℚ) ^ 16384 - 2 ^ 16319 = 2 ^ (16320 : Int) * (2 ^ 64 - 2⁻¹) := by
      have h1 : (2 : ℚ) ^ 16384 = 2 ^ (16320 : Int) * 2 ^ 64 := by
        rw [← zpow_natCast, ← zpow_natCast, ← zpow_add₀ (by norm_num)]
        rfl
      have h2 : (2 : ℚ) ^ 16319 = 2 ^ (16320 : Int) * 2⁻¹ := by
        rw [← zpow_natCast, ← zpow_neg_one, ← zpow_add₀ (by norm_num)]
        rfl
      rw [h1, h2]
      ring
    rw [hT, habs] at hr
    simp only [LDBL_MANT_DIG, LDBL_MAX_EXP] at hn hk
    have h1 : (n : ℚ) ≤ 2 ^ 64 - 1 := by
      have : n ≤ 2 ^ 64 - 1 := by omega
      have : (n : ℚ) ≤ ((2 ^ 64 - 1 : Nat) : ℚ) := by exact_mod_cast this
      push_cast at this
      linarith
    have h2 : (2 : ℚ) ^ k ≤ 2 ^ (16320 : Int) := zpow_le_zpow_right₀ (by norm_num) (by omega)
    have h3 : (0 : ℚ) < 2 ^ k := by positivity
    have h4 : (0 : ℚ) ≤ n := by positivity
    nlinarith
  | some u =>
    have := strtold_nearest v u hs v h
    rw [sub_self, abs_zero] at this
    have h0 : |v - u| = 0 := le_antisymm this (abs_nonneg _)
    rw [abs_eq_zero, sub_eq_zero] at h0
    rw [h0]

/-- The conversion at a few decimal numerals: 10.5 is a `long double`; 9.9 is not, and
becomes the nearest one; two numerals closer than the spacing at 0.1 become the same
value; `1e4933` is beyond the largest value and `1e4932` is not; `1e-5000` becomes 0. -/
theorem strtold_numerals :
    strtold (float_value false "10".toList "5".toList 0) = some (21 / 2) ∧
    strtold (float_value true "10".toList "5".toList 0) = some (-21 / 2) ∧
    strtold (float_value false "9".toList "9".toList 0)
      = some (11413922895607785062 / 2 ^ 60) ∧
    strtold (float_value false "0".toList "1".toList 0)
      = strtold (float_value false "0".toList "1000000000000000000001".toList 0) ∧
    strtold (float_value false "1".toList [] 4933) = none ∧
    strtold (float_value false "1".toList [] 4932) ≠ none ∧
    strtold (float_value false "1".toList [] (-5000)) = some 0 := by
  decide!

/-- The conversion at the ends of the range: the largest value `(2 ^ 64 - 1) * 2 ^ 16320`
and the least positive one `2 ^ -16445` are kept; the number half way from the largest
value to `2 ^ 16384` is out of range, and what is below it becomes the largest value;
half of the least positive value becomes 0, and one and a half times it becomes twice
it. -/
theorem strtold_range :
    strtold (((2 ^ 64 - 1) * 2 ^ 16320 : Nat) : ℚ)
      = some (((2 ^ 64 - 1) * 2 ^ 16320 : Nat) : ℚ) ∧
    strtold (((2 ^ 65 - 1) * 2 ^ 16319 : Nat) : ℚ) = none ∧
    strtold (((2 ^ 65 - 1) * 2 ^ 16319 - 1 : Nat) : ℚ)
      = some (((2 ^ 64 - 1) * 2 ^ 16320 : Nat) : ℚ) ∧
    strtold (mkRat 1 (2 ^ 16445)) = some (mkRat 1 (2 ^ 16445)) ∧
    strtold (mkRat 1 (2 ^ 16446)) = some 0 ∧
    strtold (mkRat 3 (2 ^ 16446)) = some (mkRat 1 (2 ^ 16444)) ∧
    strtold (((2 ^ 64 + 1 : Nat) : ℚ)) = some ((2 ^ 64 : Nat) : ℚ) ∧
    strtold (((2 ^ 64 + 3 : Nat) : ℚ)) = some ((2 ^ 64 + 4 : Nat) : ℚ) := by
  decide!

/-- Reading a numeral that is followed by a byte which cannot continue it: the whole
numeral is consumed, and the extraction succeeds exactly when its value is in range. -/
theorem extract_long_double_numeral (pre : List Char) (n : numeral) (c : Char)
    (rest dst : List Char) (hpre : ∀ y ∈ pre, isspace y = true)
    (hi0 : n.intd ≠ []) (hid : ∀ x ∈ n.intd, is_digit x = true)
    (hf : ∀ f, n.fracd = some f → f ≠ [] ∧ ∀ x ∈ f, is_digit x = true)
    (hc : is_digit c = false) (hdot : c ≠ '.') (he : c ≠ 'e') (hE : c ≠ 'E') :
    (tappedistream.clear (pre ++ n.text ++ c :: rest) dst).extract_long_double =
      match strtold n.value with
      | some ld => (some ld, tappedistream.clear (c :: rest) (dst ++ pre ++ n.text))
      | none =>
        (none, { tappedistream.clear (c :: rest) (dst ++ pre ++ n.text) with
                 failbit := true }) := by
  rcases n with ⟨intd, fracd⟩
  simp only at hi0 hid hf
  cases intd with
  | nil => exact absurd rfl hi0
  | cons d ds =>
    have hd0 : is_digit d = true := hid d (List.mem_cons_self _ _)
    have hce : (fun c => decide (c = 'e') || decide (c = 'E')) c = false := by simp [he, hE]
    have hcd : (fun c => decide (c = '.')) c = false := by simp [hdot]
    unfold tappedistream.extract_long_double
    cases fracd with
    | none =>
      have e1 : pre ++ numeral.text ⟨d :: ds, none⟩ ++ c :: rest =
          pre ++ d :: (ds ++ c :: rest) := by simp [numeral.text]
      rw [e1, sentry_clear pre d _ dst hpre (is_digit_not_space d hd0)]
      simp only
      rw [take_if_clear_no is_sign d _ _ (is_digit_not_sign d hd0)]
      simp only
      have e2 : d :: (ds ++ c :: rest) = (d :: ds) ++ c :: rest := by simp
      rw [e2, take_while_clear is_digit (d :: ds) c rest _ hid hc]
      simp only
      rw [take_if_clear_no _ c rest _ hcd]
      simp only [Option.isSome_none, Bool.false_eq_true, if_false]
      rw [take_if_clear_no _ c rest _ hce]
      simp [note_eof_clear, numeral.value, numeral.text, digits_value, List.append_assoc]
    | some f =>
      obtain ⟨hf0, hfd⟩ := hf f rfl
      have e1 : pre ++ numeral.text ⟨d :: ds, some f⟩ ++ c :: rest =
          pre ++ d :: (ds ++ '.' :: (f ++ c :: rest)) := by simp [numeral.text]
      rw [e1, sentry_clear pre d _ dst hpre (is_digit_not_space d hd0)]
      simp only
      rw [take_if_clear_no is_sign d _ _ (is_digit_not_sign d hd0)]
      simp only
      have e2 : d :: (ds ++ '.' :: (f ++ c :: rest)) = (d :: ds) ++ '.' :: (f ++ c :: rest) := by
        simp
      rw [e2, take_while_clear is_digit (d :: ds) '.' _ _ hid (by decide)]
      simp only
      rw [take_if_clear_yes _ '.' _ _ (by simp)]
      simp only [Option.isSome_some, if_true]
      rw [take_while_clear is_digit f c rest _ hfd hc]
      simp only
      rw [take_if_clear_no _ c rest _ hce]
      simp [note_eof_clear, numeral.value, numeral.text, digits_value, List.append_assoc]

/-- Reading a well-formed numeral that is followed by a byte which cannot continue it. -/
theorem extract_long_double_clear (pre : List Char) (n : numeral) (c : Char)
    (rest dst : List Char) (hpre : ∀ y ∈ pre, isspace y = true) (hn : n.wellformed)
    (hc : is_digit c = false) (hdot : c ≠ '.') (he : c ≠ 'e') (hE : c ≠ 'E') :
    (tappedistream.clear (pre ++ n.text ++ c :: rest) dst).extract_long_double =
      (some n.long_double, tappedistream.clear (c :: rest) (dst ++ pre ++ n.text)) := by
  obtain ⟨hi0, hid, hf, hr⟩ := hn
  rw [extract_long_double_numeral pre n c rest dst hpre hi0 hid hf hc hdot he hE]
  unfold numeral.long_double
  cases h : strtold n.value with
  | none => exact absurd h hr
  | some v => rfl

/-! ## One field of a well-formed message -/

theorem peek_clear (c : Char) (rest dst : List Char) :
    (tappedistream.clear (c :: rest) dst).peek =
      (some c, tappedistream.clear (c :: rest) dst) := by
  unfold tappedistream.peek
  rw [sentry_clear_noskip]
  simp [tappedstreambuf.underflow, tappedistream.clear]

theorem handle_field_absorb (tvp : tagvalue_processor) (m : order_message) (k : field_kind)
    (c : Char) (rest dst : List Char) (hm : m.wellformed) (hc : c = '|' ∨ c = '\n')
    (hnd : k.tag ∉ tvp.discovered_fields) :
    tvp.handle_field (tappedistream.clear ('=' :: m.value_text k ++ c :: rest) dst) k.tag =
      some (production.monostate, tvp.absorb m k,
        tappedistream.clear (c :: rest) (dst ++ '=' :: m.value_text k)) := by
  obtain ⟨ha0, has, hp, _⟩ := hm
  have hpre : ∀ y ∈ ['='], isspace y = true := by
    intro y hy
    rw [List.mem_singleton.1 hy]
    decide
  have hcs : isspace c = true := by
    rcases hc with h | h <;> rw [h] <;> decide
  have hcd : is_digit c = false := by
    rcases hc with h | h <;> rw [h] <;> decide
  have hc1 : c ≠ '.' := by
    rcases hc with h | h <;> rw [h] <;> decide
  have hc2 : c ≠ 'e' := by
    rcases hc with h | h <;> rw [h] <;> decide
  have hc3 : c ≠ 'E' := by
    rcases hc with h | h <;> rw [h] <;> decide
  have e0 : ∀ v : List Char, '=' :: v ++ c :: rest = ['='] ++ v ++ c :: rest := by
    intro v
    simp
  have e1 : ∀ v : List Char, dst ++ ['='] ++ v = dst ++ '=' :: v := by
    intro v
    simp
  unfold tagvalue_processor.handle_field
  simp only [tagvalue_processor.is_a_duplicate, if_neg hnd]
  cases k with
  | account =>
    rcases hacc : m.account with _ | ⟨t, ts⟩
    · exact absurd hacc ha0
    · rw [hacc] at has
      simp only [field_kind.tag, order_message.value_text, hacc, if_true,
        tagvalue.to_string]
      rw [e0, extract_string_clear ['='] t ts c rest dst hpre has hcs, e1]
      simp [tagvalue_processor.absorb, hacc]
  | msgtype =>
    have hD : ∀ x ∈ ['D'], isspace x = false := by
      intro x hx
      rw [List.mem_singleton.1 hx]
      decide
    have hne : ¬ (field_tag.MsgType = field_tag.Account) := by decide
    simp only [field_kind.tag, order_message.value_text, if_neg hne, if_true,
      tagvalue.to_string]
    have eD : "D".toList = ['D'] := rfl
    rw [eD, e0, extract_string_clear ['='] 'D' [] c rest dst hpre hD hcs, e1]
    simp [tagvalue_processor.absorb]
  | price =>
    have hne : ¬ (field_tag.Price = field_tag.Account) := by decide
    have hne2 : ¬ (field_tag.Price = field_tag.MsgType) := by decide
    simp only [field_kind.tag, order_message.value_text, if_neg hne, if_neg hne2, if_true,
      tagvalue.to_long_double]
    rw [e0, extract_long_double_clear ['='] m.price c rest dst hpre hp hcd hc1 hc2 hc3, e1]
    simp [tagvalue_processor.absorb]

/-- Reading the tag of a field of an order message. -/
theorem extract_tagvalue_field (pre : List Char) (k : field_kind) (more dst : List Char)
    (hpre : ∀ y ∈ pre, isspace y = true) :
    extract_tagvalue (tappedistream.clear (pre ++ k.tag_text ++ '=' :: more) dst) =
      (some k.tag, tappedistream.clear ('=' :: more) (dst ++ pre ++ k.tag_text)) := by
  unfold extract_tagvalue extract_field_tag
  cases k with
  | account =>
    exact extract_int_clear pre '1' [] '=' more dst hpre (by decide) (by decide) (by decide)
  | msgtype =>
    exact extract_int_clear pre '3' ['5'] '=' more dst hpre (by decide) (by decide) (by decide)
  | price =>
    exact extract_int_clear pre '4' ['4'] '=' more dst hpre (by decide) (by decide) (by decide)

theorem call_field_mid (tvp : tagvalue_processor) (m : order_message) (k : field_kind)
    (more dst : List Char) (hm : m.wellformed) (hnd : k.tag ∉ tvp.discovered_fields) :
    tvp.call (tappedistream.clear ('=' :: (m.value_text k ++ '|' :: more)) dst) k.tag =
      some (production.monostate, tvp.absorb m k,
        tappedistream.clear ('|' :: more) (dst ++ '=' :: m.value_text k)) := by
  unfold tagvalue_processor.call
  rw [show '=' :: (m.value_text k ++ '|' :: more) = '=' :: m.value_text k ++ '|' :: more
    from rfl, handle_field_absorb tvp m k '|' more dst hm (Or.inl rfl) hnd]
  simp only [tagvalue_processor.boundary_check, peek_clear]
  rfl

theorem call_field_last (tvp : tagvalue_processor) (m : order_message) (k : field_kind)
    (rest dst : List Char) (hm : m.wellformed) (hnd : k.tag ∉ tvp.discovered_fields) :
    tvp.call (tappedistream.clear ('=' :: (m.value_text k ++ '\n' :: rest)) dst) k.tag =
      some ((match (tvp.absorb m k).message_is_new_order_single, (tvp.absorb m k).account,
                (tvp.absorb m k).price with
              | true, some a, some p => production.order a p
              | _, _, _ => production.purge),
        tagvalue_processor.init,
        tappedistream.clear rest (dst ++ '=' :: m.value_text k ++ ['\n'])) := by
  unfold tagvalue_processor.call
  rw [show '=' :: (m.value_text k ++ '\n' :: rest) = '=' :: m.value_text k ++ '\n' :: rest
    from rfl, handle_field_absorb tvp m k '\n' rest dst hm (Or.inr rfl) hnd]
  simp only
  rw [boundary_check_newline production.monostate (tvp.absorb m k)
    (tappedistream.clear ('\n' :: rest) (dst ++ '=' :: m.value_text k)) rest rfl rfl]
  rfl

/-- One round of the loop over a field that is followed by `|`. -/
theorem transform_field_mid (fuel : Nat) (tvp : tagvalue_processor) (s : sink)
    (m : order_message) (k : field_kind) (pre more dst : List Char) (hm : m.wellformed)
    (hpre : ∀ y ∈ pre, isspace y = true) (hnd : k.tag ∉ tvp.discovered_fields) :
    transform (fuel + 1) (tappedistream.clear (pre ++ m.field k ++ '|' :: more) dst) tvp s =
      transform fuel (tappedistream.clear ('|' :: more) (dst ++ pre ++ m.field k))
        (tvp.absorb m k) { s with ss := dst ++ pre ++ m.field k } := by
  have e1 : pre ++ m.field k ++ '|' :: more =
      pre ++ k.tag_text ++ '=' :: (m.value_text k ++ '|' :: more) := by
    simp [order_message.field]
  have e2 : dst ++ pre ++ k.tag_text ++ '=' :: m.value_text k = dst ++ pre ++ m.field k := by
    simp [order_message.field]
  rw [transform, e1, extract_tagvalue_field pre k _ dst hpre]
  simp only
  rw [call_field_mid tvp m k more _ hm hnd]
  simp only [sink.assign, e2]
  rfl

/-- One round of the loop over a field that is followed by the newline. -/
theorem transform_field_last (fuel : Nat) (tvp : tagvalue_processor) (s : sink)
    (m : order_message) (k : field_kind) (pre rest dst : List Char) (hm : m.wellformed)
    (hpre : ∀ y ∈ pre, isspace y = true) (hnd : k.tag ∉ tvp.discovered_fields)
    (a : List Char) (p : ℚ) (hfl : (tvp.absorb m k).message_is_new_order_single = true)
    (hacc : (tvp.absorb m k).account = some a) (hpr : (tvp.absorb m k).price = some p) :
    transform (fuel + 1) (tappedistream.clear (pre ++ m.field k ++ '\n' :: rest) dst) tvp s =
      transform fuel (tappedistream.clear rest []) tagvalue_processor.init
        (s.assign (production.order a p)) := by
  have e1 : pre ++ m.field k ++ '\n' :: rest =
      pre ++ k.tag_text ++ '=' :: (m.value_text k ++ '\n' :: rest) := by
    simp [order_message.field]
  rw [transform, e1, extract_tagvalue_field pre k _ dst hpre]
  simp only
  rw [call_field_last tvp m k rest _ hm hnd, hfl, hacc, hpr]
  rfl

/-! ## A whole run over well-formed messages -/

theorem layout_cases (l : List field_kind)
    (h : l.Perm [field_kind.account, field_kind.msgtype, field_kind.price]) :
    ∃ k1 k2 k3, l = [k1, k2, k3] ∧ k1 ≠ k2 ∧ k1 ≠ k3 ∧ k2 ≠ k3 := by
  have hl := h.length_eq
  rcases l with _ | ⟨x, _ | ⟨y, _ | ⟨z, _ | ⟨w, l⟩⟩⟩⟩
  · simp at hl
  · simp at hl
  · simp at hl
  · refine ⟨x, y, z, rfl, ?_⟩
    have hnd : [x, y, z].Nodup := h.nodup_iff.2 (by decide)
    simp only [List.nodup_cons, List.mem_cons, List.mem_singleton, not_or, List.not_mem_nil,
      not_false_eq_true, List.nodup_nil, and_true] at hnd
    exact ⟨hnd.1.1, hnd.1.2, hnd.2⟩
  · simp at hl

theorem sink_with_ss_assign_order (s : sink) (x : List Char) (a : List Char) (p : ℚ) :
    ({ s with ss := x } : sink).assign (production.order a p) =
      s.assign (production.order a p) := rfl

theorem transform_three (fuel : Nat) (s : sink) (m : order_message) (k1 k2 k3 : field_kind)
    (rest dst : List Char) (hm : m.wellformed) (h12 : k1 ≠ k2) (h13 : k1 ≠ k3)
    (h23 : k2 ≠ k3) :
    transform (fuel + 3)
        (tappedistream.clear
          (m.field k1 ++ '|' :: (m.field k2 ++ '|' :: (m.field k3 ++ '\n' :: rest))) dst)
        tagvalue_processor.init s =
      transform fuel (tappedistream.clear rest []) tagvalue_processor.init
        (s.assign m.outcome) := by
  have hbar : ∀ y ∈ ['|'], isspace y = true := by
    intro y hy
    rw [List.mem_singleton.1 hy]
    decide
  have hnil : ∀ y ∈ ([] : List Char), isspace y = true := by
    intro y hy
    exact absurd hy (List.not_mem_nil y)
  have s1 := transform_field_mid (fuel + 2) tagvalue_processor.init s m k1 []
    (m.field k2 ++ '|' :: (m.field k3 ++ '\n' :: rest)) dst hm hnil
    (by simp [tagvalue_processor.init])
  have hnd2 : k2.tag ∉ (tagvalue_processor.init.absorb m k1).discovered_fields := by
    cases k1 <;> cases k2 <;>
      first
        | exact absurd rfl h12
        | simp [tagvalue_processor.absorb, tagvalue_processor.init, field_kind.tag,
            field_tag.Account, field_tag.MsgType, field_tag.Price]
  have s2 := transform_field_mid (fuel + 1) (tagvalue_processor.init.absorb m k1)
    { s with ss := dst ++ [] ++ m.field k1 } m k2 ['|']
    (m.field k3 ++ '\n' :: rest) (dst ++ [] ++ m.field k1) hm hbar hnd2
  have hnd3 : k3.tag ∉
      ((tagvalue_processor.init.absorb m k1).absorb m k2).discovered_fields := by
    cases k1 <;> cases k2 <;> cases k3 <;>
      first
        | exact absurd rfl h12
        | exact absurd rfl h13
        | exact absurd rfl h23
        | simp [tagvalue_processor.absorb, tagvalue_processor.init, field_kind.tag,
            field_tag.Account, field_tag.MsgType, field_tag.Price]
  have hfin : (((tagvalue_processor.init.absorb m k1).absorb m k2).absorb m
        k3).message_is_new_order_single = true ∧
      (((tagvalue_processor.init.absorb m k1).absorb m k2).absorb m k3).account =
        some m.account ∧
      (((tagvalue_processor.init.absorb m k1).absorb m k2).absorb m k3).price =
        some m.price.long_double := by
    cases k1 <;> cases k2 <;> cases k3 <;>
      first | exact absurd rfl h12 | exact absurd rfl h13 | exact absurd rfl h23
            | exact ⟨rfl, rfl, rfl⟩
  have s3 := transform_field_last fuel ((tagvalue_processor.init.absorb m k1).absorb m k2)
    { s with ss := dst ++ [] ++ m.field k1 ++ ['|'] ++ m.field k2 } m k3 ['|'] rest
    (dst ++ [] ++ m.field k1 ++ ['|'] ++ m.field k2) hm hbar hnd3 m.account m.price.long_double
    hfin.1 hfin.2.1 hfin.2.2
  exact s1.trans (s2.trans s3)

theorem text_of_layout (m : order_message) (k1 k2 k3 : field_kind) (rest : List Char)
    (hl : m.layout = [k1, k2, k3]) :
    m.text ++ rest =
      m.field k1 ++ '|' :: (m.field k2 ++ '|' :: (m.field k3 ++ '\n' :: rest)) := by
  simp [order_message.text, hl, List.intercalate, List.intersperse]

theorem transform_message (fuel : Nat) (s : sink) (m : order_message) (rest dst : List Char)
    (hm : m.wellformed) :
    transform (fuel + 3) (tappedistream.clear (m.text ++ rest) dst) tagvalue_processor.init s =
      transform fuel (tappedistream.clear rest []) tagvalue_processor.init
        (s.assign m.outcome) := by
  obtain ⟨k1, k2, k3, hl, h12, h13, h23⟩ := layout_cases m.layout hm.2.2.2
  rw [text_of_layout m k1 k2 k3 rest hl]
  exact transform_three fuel s m k1 k2 k3 rest dst hm h12 h13 h23

theorem text_length (m : order_message) (hm : m.wellformed) : 3 ≤ m.text.length := by
  obtain ⟨k1, k2, k3, hl, _⟩ := layout_cases m.layout hm.2.2.2
  have h := text_of_layout m k1 k2 k3 [] hl
  rw [List.append_nil] at h
  rw [h]
  simp only [List.length_append, List.length_cons, List.length_nil]
  omega

theorem render_length (msgs : List order_message) (h : ∀ m ∈ msgs, m.wellformed) :
    3 * msgs.length ≤ (render msgs).length := by
  induction msgs with
  | nil => simp [render]
  | cons m ms ih =>
    have h1 := text_length m (h m (List.mem_cons_self _ _))
    have h2 := ih (fun x hx => h x (List.mem_cons_of_mem _ hx))
    simp only [render, List.length_append, List.length_cons]
    omega

theorem transform_end (fuel : Nat) (s : sink) (dst : List Char) (tvp : tagvalue_processor) :
    (transform (fuel + 1) (tappedistream.clear [] dst) tvp s).kind = exit_kind.finished ∧
    (transform (fuel + 1) (tappedistream.clear [] dst) tvp s).s = s := by
  constructor <;> rfl

theorem transform_render (msgs : List order_message) :
    ∀ (fuel : Nat) (s : sink) (dst : List Char), (∀ m ∈ msgs, m.wellformed) →
      3 * msgs.length + 1 ≤ fuel →
      (transform fuel (tappedistream.clear (render msgs) dst) tagvalue_processor.init s).kind
          = exit_kind.finished ∧
      (transform fuel (tappedistream.clear (render msgs) dst) tagvalue_processor.init s).s
          = s.consume (msgs.map order_message.outcome) := by
  induction msgs with
  | nil =>
    intro fuel s dst _ hf
    obtain ⟨f, rfl⟩ : ∃ f, fuel = f + 1 := ⟨fuel - 1, by omega⟩
    exact transform_end f s dst _
  | cons m ms ih =>
    intro fuel s dst hwf hf
    obtain ⟨f, rfl⟩ : ∃ f, fuel = f + 3 := ⟨fuel - 3, by simp at hf; omega⟩
    simp only [render]
    rw [transform_message f s m (render ms) dst (hwf m (List.mem_cons_self _ _))]
    have := ih f (s.assign m.outcome) [] (fun x hx => hwf x (List.mem_cons_of_mem _ hx))
      (by simp at hf; omega)
    simpa [sink.consume] using this

/-- The run over the lines of well-formed order messages ends normally, and its sink is
the initial sink after consuming one order per message. -/
theorem main_render (msgs : List order_message) (h : ∀ m ∈ msgs, m.wellformed) :
    (main (render msgs)).kind = exit_kind.finished ∧
    (main (render msgs)).s = sink.init.consume (msgs.map order_message.outcome) := by
  have hl := render_length msgs h
  exact transform_render msgs _ sink.init [] h (by omega)

theorem consume_outcomes_cerr (msgs : List order_message) :
    ∀ s : sink, (s.consume (msgs.map order_message.outcome)).cerr = s.cerr := by
  induction msgs with
  | nil => intro s; rfl
  | cons m ms ih =>
    intro s
    show ((s.assign m.outcome).consume (ms.map order_message.outcome)).cerr = s.cerr
    rw [ih, order_message.outcome, (assign_order_frame s _ _).2.1]

theorem order_mem_outcomes (msgs : List order_message) (a : List Char) (q : ℚ) :
    production.order a q ∈ msgs.map order_message.outcome ↔
      ∃ m ∈ msgs, m.account = a ∧ m.price.long_double = q := by
  simp only [List.mem_map, order_message.outcome, production.order.injEq]

theorem prices_of_outcomes (msgs : List order_message) (a : List Char) :
    prices_of (msgs.map order_message.outcome) a =
      (msgs.filter fun m => decide (m.account = a)).map fun m => m.price.long_double := by
  induction msgs with
  | nil => rfl
  | cons m ms ih =>
    have hc : prices_of (List.map order_message.outcome (m :: ms)) a =
        (if m.account = a then [m.price.long_double] else []) ++
          prices_of (List.map order_message.outcome ms) a := by
      by_cases h : m.account = a <;>
        simp [prices_of, List.filterMap_cons, order_message.outcome, h]
    rw [hc, ih]
    by_cases h : m.account = a <;> simp [List.filter_cons, h]

/-- The table entry of an account after a run over well-formed order messages. -/
theorem main_render_entry (msgs : List order_message) (h : ∀ m ∈ msgs, m.wellformed)
    (a : List Char) :
    entry_matches ((main (render msgs)).s.mp a)
      ((msgs.filter fun m => decide (m.account = a)).map fun m => m.price.long_double) := by
  rw [(main_render msgs h).2, ← prices_of_outcomes]
  exact consume_entry_matches sink.init (fun _ => rfl) _ a

/-- A well-formed numeral is read as the conversion of the number it denotes. -/
theorem wellformed_strtold (n : numeral) (h : n.wellformed) :
    strtold n.value = some n.long_double := by
  unfold numeral.long_double
  cases hs : strtold n.value with
  | none => exact absurd hs h.2.2.2
  | some v => rfl

/-- Among the messages of an account there is a greatest and a least price. -/
theorem exists_extreme_value (msgs : List order_message) (a : List Char)
    (h : ∃ m ∈ msgs, m.account = a) :
    (∃ p, IsGreatest {p | ∃ m ∈ msgs, m.account = a ∧ m.price.value = p} p) ∧
    (∃ p, IsLeast {p | ∃ m ∈ msgs, m.account = a ∧ m.price.value = p} p) := by
  have hF : ((((msgs.toFinset.filter fun m => m.account = a).image
      fun m => m.price.value : Finset ℚ)) : Set ℚ) =
      {p | ∃ m ∈ msgs, m.account = a ∧ m.price.value = p} := by
    ext p
    simp only [Finset.coe_image, Finset.coe_filter, List.mem_toFinset, Set.mem_image,
      Set.mem_setOf_eq, and_assoc]
  have hne : ((msgs.toFinset.filter fun m => m.account = a).image
      fun m => m.price.value).Nonempty := by
    obtain ⟨m, hm, hma⟩ := h
    exact ⟨m.price.value, Finset.mem_image.2
      ⟨m, Finset.mem_filter.2 ⟨List.mem_toFinset.2 hm, hma⟩, rfl⟩⟩
  rw [← hF]
  exact ⟨⟨_, Finset.isGreatest_max' _ hne⟩, ⟨_, Finset.isLeast_min' _ hne⟩⟩

/-- C1 as amended: for an input made of the lines of well-formed order messages (the
three fields `1=<account>`, `35=D`, `44=<price>` in any order, the price a decimal numeral
within the range of `long double`), the run ends normally without a diagnostic, and every
account is either absent from the table and from the input, or occurs in the input and
has as high the greatest and as low the least of the prices of its messages, each price
being the `long double` it is read as; the high is the conversion of the greatest and the
low the conversion of the least of the numbers written as prices. -/
theorem C1_wellformed_run (msgs : List order_message) (h : ∀ m ∈ msgs, m.wellformed)
    (a : List Char) :
    (main (render msgs)).kind = exit_kind.finished ∧
    (main (render msgs)).s.cerr = [] ∧
    (((main (render msgs)).s.mp a = none ∧ ∀ m ∈ msgs, m.account ≠ a) ∨
     ((∃ m ∈ msgs, m.account = a) ∧ ∃ hi lo,
        (main (render msgs)).s.mp a = some (some hi, some lo) ∧
        IsGreatest {q | ∃ m ∈ msgs, m.account = a ∧ m.price.long_double = q} hi ∧
        IsLeast {q | ∃ m ∈ msgs, m.account = a ∧ m.price.long_double = q} lo ∧
        (∃ p, IsGreatest {p | ∃ m ∈ msgs, m.account = a ∧ m.price.value = p} p ∧
          strtold p = some hi) ∧
        (∃ p, IsLeast {p | ∃ m ∈ msgs, m.account = a ∧ m.price.value = p} p ∧
          strtold p = some lo))) := by
  have hrun := main_render msgs h
  refine ⟨hrun.1, ?_, ?_⟩
  · rw [hrun.2, consume_outcomes_cerr]
    rfl
  · have he := consume_entry_matches sink.init (fun _ => rfl)
      (msgs.map order_message.outcome) a
    rw [← hrun.2] at he
    have hset : {q | q ∈ prices_of (msgs.map order_message.outcome) a} =
        {q | ∃ m ∈ msgs, m.account = a ∧ m.price.long_double = q} := by
      ext q
      exact (mem_prices_of _ a q).trans (order_mem_outcomes msgs a q)
    by_cases hq : prices_of (msgs.map order_message.outcome) a = []
    · refine Or.inl ⟨he.1 hq, ?_⟩
      intro m hm hma
      have : m.price.long_double ∈ prices_of (msgs.map order_message.outcome) a :=
        (mem_prices_of _ a _).2 ((order_mem_outcomes msgs a _).2 ⟨m, hm, hma, rfl⟩)
      rw [hq] at this
      exact absurd this (List.not_mem_nil _)
    · obtain ⟨hi, lo, hmp, hhi, hlo⟩ := he.2 hq
      rw [hset] at hhi hlo
      obtain ⟨m, hm, hma, _⟩ := hhi.1
      obtain ⟨⟨pg, hpg⟩, ⟨pl, hpl⟩⟩ := exists_extreme_value msgs a ⟨m, hm, hma⟩
      refine Or.inr
        ⟨⟨m, hm, hma⟩, hi, lo, hmp, hhi, hlo, ⟨pg, hpg, ?_⟩, ⟨pl, hpl, ?_⟩⟩
      · obtain ⟨mg, hmg, hmga, rfl⟩ := hpg.1
        have hg : IsGreatest {q | ∃ m ∈ msgs, m.account = a ∧ m.price.long_double = q}
            mg.price.long_double := by
          refine ⟨⟨mg, hmg, hmga, rfl⟩, ?_⟩
          rintro q ⟨x, hx, hxa, rfl⟩
          exact strtold_mono _ _ _ _ (wellformed_strtold _ (h x hx).2.2.1)
            (wellformed_strtold _ (h mg hmg).2.2.1) (hpg.2 ⟨x, hx, hxa, rfl⟩)
        rw [hhi.unique hg]
        exact wellformed_strtold _ (h mg hmg).2.2.1
      · obtain ⟨ml, hml, hmla, rfl⟩ := hpl.1
        have hl : IsLeast {q | ∃ m ∈ msgs, m.account = a ∧ m.price.long_double = q}
            ml.price.long_double := by
          refine ⟨⟨ml, hml, hmla, rfl⟩, ?_⟩
          rintro q ⟨x, hx, hxa, rfl⟩
          exact strtold_mono _ _ _ _ (wellformed_strtold _ (h ml hml).2.2.1)
            (wellformed_strtold _ (h x hx).2.2.1) (hpl.2 ⟨x, hx, hxa, rfl⟩)
        rw [hlo.unique hl]
        exact wellformed_strtold _ (h ml hml).2.2.1

theorem example_messages_wellformed : ∀ m ∈ example_messages, m.wellformed := by
  intro m hm
  simp only [example_messages, List.mem_cons, List.mem_singleton, List.not_mem_nil,
    or_false] at hm
  rcases hm with rfl | rfl | rfl
  · exact ⟨by decide, by decide,
      ⟨by decide, by decide, fun f hf => by
        cases hf
        exact ⟨by decide, by decide⟩, by decide!⟩, List.Perm.refl _⟩
  · exact ⟨by decide, by decide,
      ⟨by decide, by decide, fun f hf => by
        cases hf
        exact ⟨by decide, by decide⟩, by decide!⟩, List.Perm.refl _⟩
  · exact ⟨by decide, by decide,
      ⟨by decide, by decide, (fun f hf => by cases hf), by decide!⟩, List.Perm.refl _⟩

/-- C1, the claim fails for a price beyond the range of `long double`: the line of
`nines_price` has the three fields, the account `A` and a price of 5000 digits; reading
the price fails, `bad_cast` leaves `main`, and no table is reported.  And a price is kept
as the nearest `long double`: after `1=A|35=D|44=9.9` the high and the low of `A` are
`11413922895607785062 / 2 ^ 60`, not 9.9. -/
theorem C1_price_out_of_range :
    render [nines_price] = "1=A|35=D|44=".toList ++ List.replicate 5000 '9' ++ ['\n'] ∧
    nines_price.account = "A".toList ∧ nines_price.layout = layout_apt ∧
    nines_price.price.text = List.replicate 5000 '9' ∧
    (∀ c ∈ nines_price.price.text, is_digit c = true) ∧
    (main (render [nines_price])).kind = exit_kind.bad_cast ∧
    (main (render [nines_price])).s.mp "A".toList = none ∧
    (main "1=A|35=D|44=9.9\n".toList).kind = exit_kind.finished ∧
    (main "1=A|35=D|44=9.9\n".toList).s.mp "A".toList
      = some (some (11413922895607785062 / 2 ^ 60), some (11413922895607785062 / 2 ^ 60)) ∧
    (11413922895607785062 / 2 ^ 60 : ℚ) ≠ 99 / 10 := by
  decide!

/-- C1 as amended, at the specification's example input: the run ends normally, `ACME`
gets high 12 and low 10.5, and `FOO` gets high 5 and low 5. -/
theorem C1_wellformed_run_witness :
    render example_messages =
        "1=ACME|35=D|44=10.5\n1=ACME|35=D|44=12.0\n1=FOO|35=D|44=5\n".toList ∧
    (∀ m ∈ example_messages, m.wellformed) ∧
    (main (render example_messages)).kind = exit_kind.finished ∧
    (main (render example_messages)).s.cerr = [] ∧
    (main (render example_messages)).s.mp "ACME".toList = some (some 12, some (21 / 2)) ∧
    (main (render example_messages)).s.mp "FOO".toList = some (some 5, some 5) := by
  have hA := C1_wellformed_run example_messages example_messages_wellformed "ACME".toList
  have hF := C1_wellformed_run example_messages example_messages_wellformed "FOO".toList
  have v1 : numeral.long_double { intd := "10".toList, fracd := some "5".toList } = 21 / 2 := by
    decide!
  have v2 : numeral.long_double { intd := "12".toList, fracd := some "0".toList } = 12 := by
    decide!
  have v3 : numeral.long_double { intd := "5".toList, fracd := none } = 5 := by
    decide!
  refine ⟨by decide, example_messages_wellformed, hA.1, hA.2.1, ?_, ?_⟩
  · rcases hA.2.2 with ⟨_, hno⟩ | ⟨_, hi, lo, hmp, hhi, hlo, _, _⟩
    · exact absurd rfl (hno _ (List.mem_cons_self _ _))
    · have hhi12 : hi = 12 := by
        have hub : (12 : ℚ) ≤ hi := hhi.2 ⟨_, List.mem_cons_of_mem _ (List.mem_cons_self _ _),
          rfl, v2⟩
        obtain ⟨m, hm, hma, hmv⟩ := hhi.1
        simp only [example_messages, List.mem_cons, List.mem_singleton, List.not_mem_nil,
          or_false] at hm
        rcases hm with rfl | rfl | rfl
        · rw [v1] at hmv
          rw [← hmv] at hub
          exact absurd hub (by norm_num)
        · rw [v2] at hmv
          exact hmv.symm
        · exact absurd hma (by decide)
      have hlo105 : lo = 21 / 2 := by
        have hlb : lo ≤ (21 / 2 : ℚ) := hlo.2 ⟨_, List.mem_cons_self _ _, rfl, v1⟩
        obtain ⟨m, hm, hma, hmv⟩ := hlo.1
        simp only [example_messages, List.mem_cons, List.mem_singleton, List.not_mem_nil,
          or_false] at hm
        rcases hm with rfl | rfl | rfl
        · rw [v1] at hmv
          exact hmv.symm
        · rw [v2] at hmv
          rw [← hmv] at hlb
          exact absurd hlb (by norm_num)
        · exact absurd hma (by decide)
      rw [hmp, hhi12, hlo105]
  · rcases hF.2.2 with ⟨_, hno⟩ | ⟨_, hi, lo, hmp, hhi, hlo, _, _⟩
    · exact absurd rfl
        (hno _ (List.mem_cons_of_mem _ (List.mem_cons_of_mem _ (List.mem_cons_self _ _))))
    · have hhi5 : hi = 5 := by
        obtain ⟨m, hm, hma, hmv⟩ := hhi.1
        simp only [example_messages, List.mem_cons, List.mem_singleton, List.not_mem_nil,
          or_false] at hm
        rcases hm with rfl | rfl | rfl
        · exact absurd hma (by decide)
        · exact absurd hma (by decide)
        · rw [v3] at hmv
          exact hmv.symm
      have hlo5 : lo = 5 := by
        obtain ⟨m, hm, hma, hmv⟩ := hlo.1
        simp only [example_messages, List.mem_cons, List.mem_singleton, List.not_mem_nil,
          or_false] at hm
        rcases hm with rfl | rfl | rfl
        · exact absurd hma (by decide)
        · exact absurd hma (by decide)
        · rw [v3] at hmv
          exact hmv.symm
      rw [hmp, hhi5, hlo5]

theorem tenth_twice_wellformed : ∀ m ∈ tenth_twice, m.wellformed := by
  intro m hm
  simp only [tenth_twice, List.mem_cons, List.mem_singleton, List.not_mem_nil,
    or_false] at hm
  rcases hm with rfl | rfl
  · exact ⟨by decide, by decide,
      ⟨by decide, by decide, fun f hf => by
        cases hf
        exact ⟨by decide, by decide⟩, by decide!⟩, List.Perm.refl _⟩
  · exact ⟨by decide, by decide,
      ⟨by decide, by decide, fun f hf => by
        cases hf
        exact ⟨by decide, by decide⟩, by decide!⟩, List.Perm.refl _⟩

/-- After a run over well-formed order messages, an account whose high equals its low
had all its orders at prices that are read as that one `long double`. -/
theorem high_equals_low_same_long_double (msgs : List order_message)
    (h : ∀ m ∈ msgs, m.wellformed) (a : List Char) (v : ℚ)
    (hmp : (main (render msgs)).s.mp a = some (some v, some v)) :
    ∀ m ∈ msgs, m.account = a → m.price.long_double = v := by
  have he := main_render_entry msgs h a
  have hne : ((msgs.filter fun m => decide (m.account = a)).map
      fun m => m.price.long_double) ≠ [] := by
    intro h0
    have := he.1 h0
    rw [hmp] at this
    exact absurd this (by simp)
  obtain ⟨hi2, lo2, hmp2, hhi, hlo⟩ := he.2 hne
  rw [hmp] at hmp2
  simp only [Option.some.injEq, Prod.mk.injEq] at hmp2
  obtain ⟨rfl, rfl⟩ := hmp2
  intro m hm hma
  have hmem : m.price.long_double ∈
      ((msgs.filter fun m => decide (m.account = a)).map fun m => m.price.long_double) := by
    apply List.mem_map.2
    exact ⟨m, List.mem_filter.2 ⟨hm, by simpa using hma⟩, rfl⟩
  exact le_antisymm (hhi.2 hmem) (hlo.2 hmem)

theorem ignore_until_clear (a : List Char) (d : Char) (rest dst : List Char)
    (ha : d ∉ a) :
    (tappedistream.clear (a ++ d :: rest) dst).ignore_until d =
      tappedistream.clear rest (dst ++ a ++ [d]) := by
  unfold tappedistream.ignore_until
  rw [sentry_clear_noskip]
  simp only
  rw [take_while_clear (fun c => c != d) a d rest dst
    (fun x hx => by
      have : x ≠ d := fun h => ha (h ▸ hx)
      simp [this])
    (by simp)]
  simp [tappedstreambuf.uflow, tappedistream.clear]

theorem absorb_discovered (tvp : tagvalue_processor) (m : order_message) (k : field_kind) :
    (tvp.absorb m k).discovered_fields = k.tag :: tvp.discovered_fields := by
  cases k <;> rfl

theorem tag_injective (k1 k2 : field_kind) (h : k1.tag = k2.tag) : k1 = k2 := by
  cases k1 <;> cases k2 <;> first | rfl | (exact absurd h (by decide))

/-- The rounds of the loop over fields with fresh tags, each followed by `|`: the
processor absorbs them, the table and the diagnostics stay as they are, and the bytes
consumed are in the tee buffer. -/
theorem transform_fields (m : order_message) (hm : m.wellformed) (last : List Char) :
    ∀ (ks : List field_kind) (fuel : Nat) (tvp : tagvalue_processor) (s : sink)
      (pre dst : List Char),
      (∀ y ∈ pre, isspace y = true) → ks.Nodup →
      (∀ k ∈ ks, k.tag ∉ tvp.discovered_fields) →
      ∃ (pre2 dst2 : List Char) (tvp2 : tagvalue_processor) (s2 : sink),
        (∀ y ∈ pre2, isspace y = true) ∧
        dst2 ++ pre2 ++ last = dst ++ pre ++ fields_then m ks last ∧
        s2.mp = s.mp ∧ s2.cerr = s.cerr ∧ s2.cerr_failbit = s.cerr_failbit ∧
        (∀ k, k.tag ∈ tvp2.discovered_fields ↔ (k ∈ ks ∨ k.tag ∈ tvp.discovered_fields)) ∧
        transform (fuel + ks.length)
            (tappedistream.clear (pre ++ fields_then m ks last) dst) tvp s =
          transform fuel (tappedistream.clear (pre2 ++ last) dst2) tvp2 s2 := by
  intro ks
  induction ks with
  | nil =>
    intro fuel tvp s pre dst hpre _ _
    exact ⟨pre, dst, tvp, s, hpre, rfl, rfl, rfl, rfl, fun k => by simp, rfl⟩
  | cons k ks ih =>
    intro fuel tvp s pre dst hpre hnd hfresh
    have hk : k.tag ∉ tvp.discovered_fields := hfresh k (List.mem_cons_self _ _)
    have hnd2 := List.nodup_cons.1 hnd
    have hbar : ∀ y ∈ ['|'], isspace y = true := by
      intro y hy
      rw [List.mem_singleton.1 hy]
      decide
    have hfresh2 : ∀ k2 ∈ ks, k2.tag ∉ (tvp.absorb m k).discovered_fields := by
      intro k2 hk2
      rw [absorb_discovered, List.mem_cons, not_or]
      refine ⟨fun h => hnd2.1 ?_, hfresh k2 (List.mem_cons_of_mem _ hk2)⟩
      rw [← tag_injective _ _ h]
      exact hk2
    obtain ⟨pre2, dst2, tvp2, s2, h1, h2, h3, h4, h5, h6, h7⟩ :=
      ih fuel (tvp.absorb m k) { s with ss := dst ++ pre ++ m.field k } ['|']
        (dst ++ pre ++ m.field k) hbar hnd2.2 hfresh2
    refine ⟨pre2, dst2, tvp2, s2, h1, ?_, h3, h4, h5, ?_, ?_⟩
    · rw [h2]
      simp [fields_then]
    · intro k2
      rw [h6, absorb_discovered, List.mem_cons, List.mem_cons]
      constructor
      · rintro (h | h | h)
        · exact Or.inl (Or.inr h)
        · exact Or.inl (Or.inl (tag_injective _ _ h))
        · exact Or.inr h
      · rintro ((h | h) | h)
        · exact Or.inr (Or.inl (by rw [h]))
        · exact Or.inl h
        · exact Or.inr (Or.inr h)
    · have e : fuel + (k :: ks).length = (fuel + ks.length) + 1 := by
        rw [List.length_cons, Nat.add_assoc]
      have e2 : pre ++ fields_then m (k :: ks) last =
          pre ++ m.field k ++ '|' :: fields_then m ks last := by
        simp [fields_then]
      rw [e, e2, transform_field_mid (fuel + ks.length) tvp s m k pre _ dst hm hpre hk]
      exact h7

theorem boundary_check_other (ret : production) (tvp : tagvalue_processor)
    (is : tappedistream) (o : Option Char) (is1 : tappedistream) (hp : is.peek = (o, is1))
    (ho : o ≠ some '\n') :
    tagvalue_processor.boundary_check ret tvp is = (ret, tvp, is1) := by
  unfold tagvalue_processor.boundary_check
  rw [hp]
  split
  · rename_i heq
    simp only [Prod.mk.injEq] at heq
    exact absurd heq.1 ho
  · rename_i heq
    simp only [Prod.mk.injEq] at heq
    rw [heq.2]

theorem handle_field_duplicate (tvp : tagvalue_processor) (is : tappedistream)
    (tv : field_tag) (h : tv ∈ tvp.discovered_fields) :
    tvp.handle_field is tv =
      some (production.error, tagvalue_processor.init, is.ignore_until '\n') := by
  unfold tagvalue_processor.handle_field
  simp only [tagvalue_processor.is_a_duplicate, if_pos h]
  rfl

theorem assign_error_dump (s : sink) (x : List Char) (hx : x ≠ [])
    (hf : s.cerr_failbit = false) :
    ({ s with ss := x } : sink).assign production.error =
      { s with ss := [], cerr := s.cerr ++ [x] } := by
  simp [sink.assign, sink.dump, sink.seekg_end, hf, hx]

/-- The round of the loop that meets a repeated tag: the rest of the line is consumed,
the whole tee buffer is written as one diagnostic, and the processor starts afresh. -/
theorem transform_duplicate (fuel : Nat) (tvp : tagvalue_processor) (s : sink)
    (k : field_kind) (pre tail rest dst : List Char) (hpre : ∀ y ∈ pre, isspace y = true)
    (hdup : k.tag ∈ tvp.discovered_fields) (ht : '\n' ∉ tail)
    (hf : s.cerr_failbit = false)
    (hr : ((tappedistream.clear rest
        (dst ++ pre ++ k.tag_text ++ ('=' :: tail) ++ ['\n'])).peek).1 ≠ some '\n') :
    transform (fuel + 1)
        (tappedistream.clear (pre ++ k.tag_text ++ '=' :: (tail ++ '\n' :: rest)) dst) tvp s =
      transform fuel
        { ((tappedistream.clear rest
            (dst ++ pre ++ k.tag_text ++ ('=' :: tail) ++ ['\n'])).peek).2 with dst := [] }
        tagvalue_processor.init
        { s with ss := [], cerr := s.cerr ++ [dst ++ pre ++ k.tag_text ++ ('=' :: tail) ++ ['\n']] } := by
  have hnl : '\n' ∉ '=' :: tail := by
    intro h
    rcases List.mem_cons.1 h with h1 | h1
    · exact absurd h1 (by decide)
    · exact ht h1
  have hcall : tvp.call
      (tappedistream.clear ('=' :: (tail ++ '\n' :: rest)) (dst ++ pre ++ k.tag_text)) k.tag =
      some (production.error, tagvalue_processor.init,
        ((tappedistream.clear rest
          (dst ++ pre ++ k.tag_text ++ ('=' :: tail) ++ ['\n'])).peek).2) := by
    unfold tagvalue_processor.call
    rw [handle_field_duplicate tvp _ _ hdup]
    simp only
    rw [show '=' :: (tail ++ '\n' :: rest) = ('=' :: tail) ++ '\n' :: rest from rfl,
      ignore_until_clear ('=' :: tail) '\n' rest _ hnl,
      boundary_check_other _ _ _ _ _ rfl hr]
    rfl
  have hpk : (((tappedistream.clear rest
      (dst ++ pre ++ k.tag_text ++ ('=' :: tail) ++ ['\n'])).peek).2).dst =
      dst ++ pre ++ k.tag_text ++ ('=' :: tail) ++ ['\n'] := by
    unfold tappedistream.peek
    rw [sentry_clear_noskip]
    cases rest <;> rfl
  rw [transform, extract_tagvalue_field pre k _ dst hpre]
  simp only
  rw [hcall]
  simp only
  rw [hpk, assign_error_dump s _ (by simp) hf]

theorem transform_render_then (msgs : List order_message) (rest : List Char) :
    ∀ (fuel : Nat) (s : sink), (∀ m ∈ msgs, m.wellformed) →
      transform (fuel + 3 * msgs.length) (tappedistream.clear (render msgs ++ rest) [])
          tagvalue_processor.init s =
        transform fuel (tappedistream.clear rest []) tagvalue_processor.init
          (s.consume (msgs.map order_message.outcome)) := by
  induction msgs with
  | nil =>
    intro fuel s _
    rfl
  | cons m ms ih =>
    intro fuel s hwf
    have e : fuel + 3 * (m :: ms).length = (fuel + 3 * ms.length) + 3 := by
      rw [List.length_cons]
      omega
    have e2 : render (m :: ms) ++ rest = m.text ++ (render ms ++ rest) := by
      simp [render]
    rw [e, e2, transform_message _ s m _ [] (hwf m (List.mem_cons_self _ _)),
      ih fuel _ (fun x hx => hwf x (List.mem_cons_of_mem _ hx))]
    rfl

theorem fields_then_append (m : order_message) (ks : List field_kind) (last : List Char) :
    fields_then m ks last = fields_then m ks [] ++ last := by
  induction ks with
  | nil => rfl
  | cons k ks ih =>
    simp only [fields_then]
    rw [ih]
    simp

theorem fields_then_length (m : order_message) (ks : List field_kind) :
    ks.length ≤ (fields_then m ks []).length := by
  induction ks with
  | nil => simp [fields_then]
  | cons k ks ih =>
    simp only [fields_then, List.length_append, List.length_cons]
    omega

theorem assign_mp_congr (s t : sink) (p : production) (h : s.mp = t.mp) :
    (s.assign p).mp = (t.assign p).mp := by
  cases p with
  | monostate => exact h
  | error => rw [assign_mp_error, assign_mp_error, h]
  | purge => exact h
  | order a q =>
    funext k
    by_cases hk : k = a
    · subst hk
      rw [assign_order_mp_same, assign_order_mp_same]
      simp only [map_of_high_low_per_account.at, h]
    · rw [assign_order_mp_other _ _ _ _ hk, assign_order_mp_other _ _ _ _ hk, h]

theorem consume_mp_congr (ps : List production) :
    ∀ s t : sink, s.mp = t.mp → (s.consume ps).mp = (t.consume ps).mp := by
  induction ps with
  | nil => intro s t h; exact h
  | cons p ps ih =>
    intro s t h
    exact ih _ _ (assign_mp_congr s t p h)

theorem consume_outcomes_failbit (msgs : List order_message) :
    ∀ s : sink, (s.consume (msgs.map order_message.outcome)).cerr_failbit = s.cerr_failbit := by
  induction msgs with
  | nil => intro s; rfl
  | cons m ms ih =>
    intro s
    show ((s.assign m.outcome).consume (ms.map order_message.outcome)).cerr_failbit = _
    rw [ih, order_message.outcome, (assign_order_frame s _ _).2.2]

theorem text_head (m : order_message) (hm : m.wellformed) (rest : List Char) :
    ∃ c cs, m.text ++ rest = c :: cs ∧ c ≠ '\n' := by
  obtain ⟨k1, k2, k3, hl, _⟩ := layout_cases m.layout hm.2.2.2
  rw [text_of_layout m k1 k2 k3 rest hl]
  cases k1
  · exact ⟨'1', _, rfl, by decide⟩
  · exact ⟨'3', _, rfl, by decide⟩
  · exact ⟨'4', _, rfl, by decide⟩

/-- The end of the run after the line with the repeated tag. -/
theorem transform_after_duplicate (after : List order_message)
    (ha : ∀ x ∈ after, x.wellformed) (fuel : Nat) (hfuel : 3 * after.length + 1 ≤ fuel)
    (s : sink) (x : List Char) :
    ((tappedistream.clear (render after) x).peek).1 ≠ some '\n' ∧
    (transform fuel { ((tappedistream.clear (render after) x).peek).2 with dst := [] }
        tagvalue_processor.init s).kind = exit_kind.finished ∧
    (transform fuel { ((tappedistream.clear (render after) x).peek).2 with dst := [] }
        tagvalue_processor.init s).s = s.consume (after.map order_message.outcome) := by
  cases after with
  | nil =>
    obtain ⟨f, rfl⟩ : ∃ f, fuel = f + 1 := ⟨fuel - 1, by omega⟩
    exact ⟨fun h => Option.noConfusion h, rfl, rfl⟩
  | cons m ms =>
    obtain ⟨c, cs, hc, hne⟩ := text_head m (ha m (List.mem_cons_self _ _)) (render ms)
    have hr : render (m :: ms) = c :: cs := hc
    have hp : (tappedistream.clear (render (m :: ms)) x).peek =
        (some c, tappedistream.clear (render (m :: ms)) x) := by
      rw [hr]
      exact peek_clear c cs x
    rw [hp]
    refine ⟨fun h => hne (Option.some.inj h), ?_⟩
    exact transform_render (m :: ms) fuel s [] ha hfuel

/-- The run over well-formed order messages with one line carrying a repeated tag among
them. -/
theorem main_with_duplicate_line (before after : List order_message) (m : order_message)
    (ks : List field_kind) (k : field_kind) (tail : List Char)
    (hb : ∀ x ∈ before, x.wellformed) (ha : ∀ x ∈ after, x.wellformed) (hm : m.wellformed)
    (hks : ks.Nodup) (hk : k ∈ ks) (ht : '\n' ∉ tail) :
    (main (render before ++ duplicate_line m ks k tail ++ render after)).kind
        = exit_kind.finished ∧
    (main (render before ++ duplicate_line m ks k tail ++ render after)).s.cerr
        = [duplicate_line m ks k tail] ∧
    (main (render before ++ duplicate_line m ks k tail ++ render after)).s.mp
        = (sink.init.consume ((before ++ after).map order_message.outcome)).mp := by
  have hlen : 3 * after.length + 1 + 1 + ks.length + 3 * before.length ≤
      (render before ++ duplicate_line m ks k tail ++ render after).length + 1 := by
    have h1 := render_length before hb
    have h2 := render_length after ha
    have h3 := fields_then_length m ks
    rw [duplicate_line, fields_then_append]
    simp only [List.length_append, List.length_cons, List.length_nil]
    omega
  obtain ⟨g, hg⟩ : ∃ g, (render before ++ duplicate_line m ks k tail ++ render after).length + 1
      = ((3 * after.length + 1 + g) + 1 + ks.length) + 3 * before.length :=
    ⟨(render before ++ duplicate_line m ks k tail ++ render after).length + 1 -
      (3 * after.length + 1 + 1 + ks.length + 3 * before.length), by omega⟩
  have einput : render before ++ duplicate_line m ks k tail ++ render after =
      render before ++ ([] ++ fields_then m ks
        (k.tag_text ++ '=' :: (tail ++ '\n' :: render after))) := by
    rw [duplicate_line, fields_then_append m ks (k.tag_text ++ '=' :: tail),
      fields_then_append m ks (k.tag_text ++ '=' :: (tail ++ '\n' :: render after))]
    simp
  have hnil : ∀ y ∈ ([] : List Char), isspace y = true := by
    intro y hy
    exact absurd hy (List.not_mem_nil y)
  obtain ⟨pre2, dst2, tvp2, s2, h1, h2, h3, h4, h5, h6, h7⟩ :=
    transform_fields m hm (k.tag_text ++ '=' :: (tail ++ '\n' :: render after)) ks
      (3 * after.length + 1 + g + 1) tagvalue_processor.init
      (sink.init.consume (before.map order_message.outcome)) [] [] hnil hks
      (fun _ _ h => absurd h (List.not_mem_nil _))
  have hdst : dst2 ++ pre2 = fields_then m ks [] := by
    rw [fields_then_append m ks (k.tag_text ++ '=' :: (tail ++ '\n' :: render after))] at h2
    simp only [List.nil_append] at h2
    exact List.append_cancel_right h2
  have hline : dst2 ++ pre2 ++ k.tag_text ++ ('=' :: tail) ++ ['\n'] =
      duplicate_line m ks k tail := by
    rw [hdst, duplicate_line, fields_then_append m ks (k.tag_text ++ '=' :: tail)]
    simp
  have hfb : s2.cerr_failbit = false := by
    rw [h5, consume_outcomes_failbit]
    rfl
  have hcerr : s2.cerr = [] := by
    rw [h4, consume_outcomes_cerr]
    rfl
  obtain ⟨hp, hkind, hs⟩ := transform_after_duplicate after ha (3 * after.length + 1 + g)
    (by omega)
    { s2 with ss := [], cerr := s2.cerr ++ [dst2 ++ pre2 ++ k.tag_text ++ ('=' :: tail) ++ ['\n']] }
    (dst2 ++ pre2 ++ k.tag_text ++ ('=' :: tail) ++ ['\n'])
  have hrun : main (render before ++ duplicate_line m ks k tail ++ render after) =
      transform (3 * after.length + 1 + g)
        { ((tappedistream.clear (render after)
            (dst2 ++ pre2 ++ k.tag_text ++ ('=' :: tail) ++ ['\n'])).peek).2 with dst := [] }
        tagvalue_processor.init
        { s2 with ss := [],
                  cerr := s2.cerr ++ [dst2 ++ pre2 ++ k.tag_text ++ ('=' :: tail) ++ ['\n']] } := by
    unfold main
    rw [hg, tappedistream.init, einput]
    have := transform_render_then before
      ([] ++ fields_then m ks (k.tag_text ++ '=' :: (tail ++ '\n' :: render after)))
      (3 * after.length + 1 + g + 1 + ks.length) sink.init hb
    rw [tappedistream.clear] at this
    rw [this, h7]
    have e3 : pre2 ++ (k.tag_text ++ '=' :: (tail ++ '\n' :: render after)) =
        pre2 ++ k.tag_text ++ '=' :: (tail ++ '\n' :: render after) := by
      rw [List.append_assoc]
    rw [e3]
    exact transform_duplicate (3 * after.length + 1 + g) tvp2 s2 k pre2 tail (render after)
      dst2 h1 ((h6 k).2 (Or.inl hk)) ht hfb hp
  rw [hrun]
  refine ⟨hkind, ?_, ?_⟩
  · rw [hs, consume_outcomes_cerr, hline, hcerr]
    rfl
  · have happ : sink.init.consume
        (before.map order_message.outcome ++ after.map order_message.outcome) =
        (sink.init.consume (before.map order_message.outcome)).consume
          (after.map order_message.outcome) := by
      simp [sink.consume, List.foldl_append]
    rw [hs, List.map_append, happ]
    exact consume_mp_congr _ _ _ h3

/-- C5 as amended: in an input of well-formed order messages (each price a decimal
numeral within the range of `long double`) with one line among them that starts with
distinct fields of such a message and then repeats the tag of one of them, the run ends
normally, the table is the one of the run over the input without that line, and exactly
one diagnostic is written: the whole line, from its first byte to its newline. -/
theorem C5_duplicate_line_dump (before after : List order_message) (m : order_message)
    (ks : List field_kind) (k : field_kind) (tail : List Char)
    (hb : ∀ x ∈ before, x.wellformed) (ha : ∀ x ∈ after, x.wellformed) (hm : m.wellformed)
    (hks : ks.Nodup) (hk : k ∈ ks) (ht : '\n' ∉ tail) :
    (main (render before ++ duplicate_line m ks k tail ++ render after)).kind
        = exit_kind.finished ∧
    (main (render before ++ duplicate_line m ks k tail ++ render after)).s.cerr
        = [duplicate_line m ks k tail] ∧
    (main (render before ++ duplicate_line m ks k tail ++ render after)).s.mp
        = (main (render (before ++ after))).s.mp := by
  have h := main_with_duplicate_line before after m ks k tail hb ha hm hks hk ht
  have hba : ∀ x ∈ before ++ after, x.wellformed := by
    intro x hx
    rcases List.mem_append.1 hx with h1 | h1
    · exact hb x h1
    · exact ha x h1
  refine ⟨h.1, h.2.1, ?_⟩
  rw [h.2.2, (main_render (before ++ after) hba).2]

/-- C5 as amended, at the specification's example `1=ACME|1=ACME|35=D|44=10.5`: one
diagnostic, the whole line, and an empty table. -/
theorem C5_duplicate_line_dump_witness :
    duplicate_line
        { account := "ACME".toList, price := { intd := "10".toList, fracd := some "5".toList },
          layout := layout_apt }
        [field_kind.account] field_kind.account "ACME|35=D|44=10.5".toList
      = "1=ACME|1=ACME|35=D|44=10.5\n".toList ∧
    '\n' ∉ "ACME|35=D|44=10.5".toList ∧
    (main (render [] ++ duplicate_line
        { account := "ACME".toList, price := { intd := "10".toList, fracd := some "5".toList },
          layout := layout_apt }
        [field_kind.account] field_kind.account "ACME|35=D|44=10.5".toList ++ render [])).s.cerr
      = ["1=ACME|1=ACME|35=D|44=10.5\n".toList] ∧
    (main (render [] ++ duplicate_line
        { account := "ACME".toList, price := { intd := "10".toList, fracd := some "5".toList },
          layout := layout_apt }
        [field_kind.account] field_kind.account "ACME|35=D|44=10.5".toList ++ render [])).s.mp
      = (main (render ([] ++ []))).s.mp :=
  ⟨by decide, by decide,
   (C5_duplicate_line_dump [] []
      { account := "ACME".toList, price := { intd := "10".toList, fracd := some "5".toList },
        layout := layout_apt }
      [field_kind.account] field_kind.account "ACME|35=D|44=10.5".toList
      (fun _ h => absurd h (List.not_mem_nil _)) (fun _ h => absurd h (List.not_mem_nil _))
      (example_messages_wellformed _ (List.mem_cons_self _ _))
      (List.nodup_singleton _) (List.mem_singleton.2 rfl) (by decide)).2.1,
   (C5_duplicate_line_dump [] []
      { account := "ACME".toList, price := { intd := "10".toList, fracd := some "5".toList },
        layout := layout_apt }
      [field_kind.account] field_kind.account "ACME|35=D|44=10.5".toList
      (fun _ h => absurd h (List.not_mem_nil _)) (fun _ h => absurd h (List.not_mem_nil _))
      (example_messages_wellformed _ (List.mem_cons_self _ _))
      (List.nodup_singleton _) (List.mem_singleton.2 rfl) (by decide)).2.2⟩

/-- The stream handed to the processor after a successful read of a tag is settled. -/
theorem extract_tagvalue_settled (is : tappedistream) (tv : field_tag) (is1 : tappedistream)
    (h : extract_tagvalue is = (some tv, is1)) : is1.settled := by
  unfold extract_tagvalue extract_field_tag tappedistream.extract_int at h
  rcases hs : is.sentry false with ⟨ok, is0⟩
  rw [hs] at h
  cases ok with
  | false => simp at h
  | true =>
    have hg := sentry_true_good _ _ _ hs
    simp only at h
    split_ifs at h <;>
      simp only [Prod.mk.injEq, Option.some.injEq, reduceCtorEq, false_and] at h <;>
      (rw [← h.2]; apply note_eof_settled; rw [take_while_good, take_if_good]; exact hg)

/-! ## Frame properties of the aggregator -/

/-- C12: consuming an outcome other than `Error` writes nothing to `std::cerr` and
leaves its state alone; only `Error` can add a diagnostic. -/
theorem C12_diagnostics_only_for_error (s : sink) (p : production) :
    p = production.error ∨
    ((s.assign p).cerr = s.cerr ∧ (s.assign p).cerr_failbit = s.cerr_failbit) := by
  cases p with
  | monostate => exact Or.inr ⟨rfl, rfl⟩
  | error => exact Or.inl rfl
  | purge => exact Or.inr ⟨rfl, rfl⟩
  | order a q => exact Or.inr (assign_order_frame s a q).2

/-- C18: consuming `None`, `Purge` or `Error` returns the same table, and consuming
`Order(a, q)` changes the entry of `a` only and leaves every account that was present
present. -/
theorem C18_mapping_frame (s : sink) (a b : List Char) (q : ℚ) :
    (s.assign production.monostate).mp = s.mp ∧
    (s.assign production.purge).mp = s.mp ∧
    (s.assign production.error).mp = s.mp ∧
    (s.assign (production.order a q)).mp b =
      (if b = a then some (raised (s.mp.at a).1 q, lowered (s.mp.at a).2 q) else s.mp b) ∧
    ((s.assign (production.order a q)).mp b = none ∨ s.mp b ≠ none ∨ b = a) ∧
    (s.mp b = none ∨ (s.assign (production.order a q)).mp b ≠ none) := by
  have hb : (s.assign (production.order a q)).mp b =
      (if b = a then some (raised (s.mp.at a).1 q, lowered (s.mp.at a).2 q) else s.mp b) := by
    by_cases h : b = a
    · subst h
      rw [assign_order_mp_same, if_pos rfl]
    · rw [assign_order_mp_other _ _ _ _ h, if_neg h]
  refine ⟨rfl, rfl, assign_mp_error s, hb, ?_, ?_⟩
  · by_cases h : b = a
    · exact Or.inr (Or.inr h)
    · rw [hb, if_neg h]
      by_cases h2 : s.mp b = none
      · exact Or.inl h2
      · exact Or.inr (Or.inl h2)
  · by_cases h : b = a
    · right
      rw [hb, if_pos h]
      simp
    · rw [hb, if_neg h]
      by_cases h2 : s.mp b = none
      · exact Or.inl h2
      · exact Or.inr h2

/-! ## The tee -/

theorem run_ops_law (ops : List tee_op) :
    ∀ tb : tappedstreambuf,
      (tb.run_ops ops).1.dst = tb.dst ++ consumed_bytes (tb.run_ops ops).2 ∧
      tb.src = consumed_bytes (tb.run_ops ops).2 ++ (tb.run_ops ops).1.src := by
  induction ops with
  | nil =>
    intro tb
    simp [tappedstreambuf.run_ops, consumed_bytes]
  | cons op ops ih =>
    intro tb
    cases op with
    | peek =>
      have h := ih tb
      simp only [tappedstreambuf.run_ops]
      refine ⟨?_, ?_⟩
      · rw [h.1]
        simp [consumed_bytes, List.filterMap_cons]
      · conv_lhs => rw [h.2]
        simp [consumed_bytes, List.filterMap_cons]
    | consume =>
      simp only [tappedstreambuf.run_ops]
      rcases tb with ⟨src, dst⟩
      cases src with
      | nil =>
        have h := ih ⟨[], dst⟩
        have h1 := h.1
        have h2 := h.2
        simp only at h1 h2
        simp only [tappedstreambuf.uflow]
        refine ⟨?_, ?_⟩
        · simpa [consumed_bytes, List.filterMap_cons] using h1
        · simpa [consumed_bytes, List.filterMap_cons] using h2
      | cons c rest =>
        have h := ih ⟨rest, dst ++ [c]⟩
        have h1 := h.1
        have h2 := h.2
        simp only at h1 h2
        simp only [tappedstreambuf.uflow]
        refine ⟨?_, ?_⟩
        · simpa [consumed_bytes, List.filterMap_cons] using h1
        · simpa [consumed_bytes, List.filterMap_cons] using h2

/-- C13: after any sequence of peeks and consuming reads on the tee, the destination
has grown by exactly the bytes the consuming reads returned, in order, and these bytes
followed by the unread source are the original source; a peek returns the next source
byte or end of input and leaves the buffer as it is; a consuming read at end of input
returns end of input and appends nothing. -/
theorem C13_tee_mirrors_consumed (tb : tappedstreambuf) (ops : List tee_op)
    (dst : List Char) :
    (tb.run_ops ops).1.dst = tb.dst ++ consumed_bytes (tb.run_ops ops).2 ∧
    tb.src = consumed_bytes (tb.run_ops ops).2 ++ (tb.run_ops ops).1.src ∧
    tb.underflow = tb.src.head? ∧
    tb.run_ops [tee_op.peek] = (tb, [(tee_op.peek, tb.src.head?)]) ∧
    tappedstreambuf.uflow { src := [], dst := dst } = (none, { src := [], dst := dst }) :=
  ⟨(run_ops_law ops tb).1, (run_ops_law ops tb).2, rfl, rfl, rfl⟩

/-! ## The delimiter classifier -/

theorem derive_from_table_apply (table : Char → mask) (c : Char) :
    derive_from_table table c =
      (if c = '|' ∨ c = '=' then table c ||| space else table c) := by
  unfold derive_from_table table_set
  by_cases h1 : c = '='
  · subst h1
    simp
  · by_cases h2 : c = '|'
    · subst h2
      simp
    · simp [h1, h2]

/-- C15: the derived table is the base table at every byte other than `|` and `=`; at
these two bytes it is the base entry with the `space` bit set and every other bit as it
was; and deriving from a derived table gives the same table. -/
theorem C15_delimiter_classifier (table : Char → mask) (c : Char) (i : Nat) :
    derive_from_table table c =
      (if c = '|' ∨ c = '=' then table c ||| space else table c) ∧
    (derive_from_table table c).testBit i =
      ((table c).testBit i || (decide (c = '|' ∨ c = '=') && decide (i = 13))) ∧
    derive_from_table (derive_from_table table) = derive_from_table table := by
  refine ⟨derive_from_table_apply table c, ?_, ?_⟩
  · rw [derive_from_table_apply]
    have hs : space = 2 ^ 13 := by decide
    by_cases h : c = '|' ∨ c = '='
    · rw [if_pos h, Nat.testBit_or, hs, Nat.testBit_two_pow]
      simp [h, eq_comm]
    · rw [if_neg h]
      simp [h]
  · funext d
    rw [derive_from_table_apply, derive_from_table_apply]
    by_cases h : d = '|' ∨ d = '='
    · rw [if_pos h, if_pos h, Nat.or_assoc, Nat.or_self]
    · rw [if_neg h, if_neg h]

/-! ## The processor's state across steps -/

theorem reset_eq_init (tvp : tagvalue_processor) : tvp.reset = tagvalue_processor.init := rfl

/-- The shape of a handled field with a fresh tag: nothing is returned yet, the tag is
recorded, and only the value that belongs to the tag can change. -/
theorem handle_field_fresh (tvp : tagvalue_processor) (is : tappedistream) (tv : field_tag)
    (ret : production) (tvp1 : tagvalue_processor) (is1 : tappedistream)
    (hnd : tv ∉ tvp.discovered_fields)
    (hf : tvp.handle_field is tv = some (ret, tvp1, is1)) :
    ret = production.monostate ∧
    tvp1.discovered_fields = tv :: tvp.discovered_fields ∧
    (tvp1.account = tvp.account ∨ tv = field_tag.Account) ∧
    (tvp1.price = tvp.price ∨ tv = field_tag.Price) ∧
    (tvp1.message_is_new_order_single = tvp.message_is_new_order_single ∨
      tv = field_tag.MsgType) := by
  unfold tagvalue_processor.handle_field at hf
  simp only [tagvalue_processor.is_a_duplicate, if_neg hnd] at hf
  split_ifs at hf with h1 h2 h3
  · rcases hv : tagvalue.to_string is with _ | ⟨s, is2⟩
    · rw [hv] at hf
      simp at hf
    · rw [hv] at hf
      simp only [Option.some.injEq, Prod.mk.injEq] at hf
      rw [← hf.2.1, ← hf.1]
      exact ⟨rfl, rfl, Or.inr h1, Or.inl rfl, Or.inl rfl⟩
  · rcases hv : tagvalue.to_string is with _ | ⟨s, is2⟩
    · rw [hv] at hf
      simp at hf
    · rw [hv] at hf
      simp only [Option.some.injEq, Prod.mk.injEq] at hf
      rw [← hf.2.1, ← hf.1]
      refine ⟨rfl, ?_, ?_, ?_, Or.inr h2⟩ <;> split_ifs <;> first | rfl | exact Or.inl rfl
  · rcases hv : tagvalue.to_long_double is with _ | ⟨s, is2⟩
    · rw [hv] at hf
      simp at hf
    · rw [hv] at hf
      simp only [Option.some.injEq, Prod.mk.injEq] at hf
      rw [← hf.2.1, ← hf.1]
      exact ⟨rfl, rfl, Or.inl rfl, Or.inr h3, Or.inl rfl⟩
  · simp only [Option.some.injEq, Prod.mk.injEq] at hf
    rw [← hf.2.1, ← hf.1]
    exact ⟨rfl, rfl, Or.inl rfl, Or.inl rfl, Or.inl rfl⟩

/-- The state and outcome of `boundary_check`: either nothing happens to them, or the
state is the initial one. -/
theorem boundary_check_cases (ret : production) (tvp : tagvalue_processor)
    (is : tappedistream) :
    ((tagvalue_processor.boundary_check ret tvp is).1 = ret ∧
      (tagvalue_processor.boundary_check ret tvp is).2.1 = tvp) ∨
    ((tagvalue_processor.boundary_check ret tvp is).2.1 = tagvalue_processor.init ∧
      ((tagvalue_processor.boundary_check ret tvp is).1 = production.purge ∨
        ∃ a q, (tagvalue_processor.boundary_check ret tvp is).1 = production.order a q ∧
          tvp.account = some a ∧ tvp.price = some q ∧
          tvp.message_is_new_order_single = true)) := by
  unfold tagvalue_processor.boundary_check
  split
  · right
    refine ⟨rfl, ?_⟩
    rcases tvp with ⟨d, acc, pr, fl⟩
    cases fl <;> cases acc <;> cases pr <;> simp
  · left
    exact ⟨rfl, rfl⟩

/-- After a step that returns an outcome other than `None` the processor is in its
initial state. -/
theorem call_boundary_reset (tvp : tagvalue_processor) (is : tappedistream) (tv : field_tag)
    (p : production) (tvp2 : tagvalue_processor) (is2 : tappedistream)
    (h : tvp.call is tv = some (p, tvp2, is2)) (hp : p ≠ production.monostate) :
    tvp2 = tagvalue_processor.init := by
  unfold tagvalue_processor.call at h
  rcases hf : tvp.handle_field is tv with _ | ⟨ret, tvp1, is1⟩
  · rw [hf] at h
    simp at h
  · rw [hf] at h
    simp only [Option.some.injEq] at h
    have hc := boundary_check_cases ret tvp1 is1
    rw [h] at hc
    simp only at hc
    rcases hc with ⟨h1, h2⟩ | ⟨h1, _⟩
    · by_cases hd : tv ∈ tvp.discovered_fields
      · rw [handle_field_duplicate tvp is tv hd] at hf
        simp only [Option.some.injEq, Prod.mk.injEq] at hf
        rw [h2, ← hf.2.1]
      · have := (handle_field_fresh tvp is tv ret tvp1 is1 hd hf).1
        rw [h1, this] at hp
        exact absurd rfl hp
    · exact h1

theorem handle_field_keeps_invariant (tvp : tagvalue_processor) (is : tappedistream)
    (tv : field_tag) (ret : production) (tvp1 : tagvalue_processor) (is1 : tappedistream)
    (hI : tvp.captured_are_discovered)
    (hf : tvp.handle_field is tv = some (ret, tvp1, is1)) :
    tvp1.captured_are_discovered := by
  by_cases hd : tv ∈ tvp.discovered_fields
  · rw [handle_field_duplicate tvp is tv hd] at hf
    simp only [Option.some.injEq, Prod.mk.injEq] at hf
    rw [← hf.2.1]
    exact ⟨fun h => absurd rfl h, fun h => absurd rfl h, fun h => absurd h (by decide)⟩
  · obtain ⟨_, h2, h3, h4, h5⟩ := handle_field_fresh tvp is tv ret tvp1 is1 hd hf
    refine ⟨fun h => ?_, fun h => ?_, fun h => ?_⟩
    · rw [h2]
      rcases h3 with h3 | h3
      · exact List.mem_cons_of_mem _ (hI.1 (h3 ▸ h))
      · rw [h3]
        exact List.mem_cons_self _ _
    · rw [h2]
      rcases h4 with h4 | h4
      · exact List.mem_cons_of_mem _ (hI.2.1 (h4 ▸ h))
      · rw [h4]
        exact List.mem_cons_self _ _
    · rw [h2]
      rcases h5 with h5 | h5
      · exact List.mem_cons_of_mem _ (hI.2.2 (h5 ▸ h))
      · rw [h5]
        exact List.mem_cons_self _ _

theorem init_captured_are_discovered :
    tagvalue_processor.init.captured_are_discovered :=
  ⟨fun h => absurd rfl h, fun h => absurd rfl h, fun h => absurd h (by decide)⟩

theorem reachable_captured_are_discovered (tvp : tagvalue_processor)
    (h : tvp.reachable) : tvp.captured_are_discovered := by
  induction h with
  | init => exact init_captured_are_discovered
  | step tvp is tv p tvp2 is2 _ hc ih =>
    unfold tagvalue_processor.call at hc
    rcases hf : tvp.handle_field is tv with _ | ⟨ret, tvp1, is1⟩
    · rw [hf] at hc
      simp at hc
    · rw [hf] at hc
      simp only [Option.some.injEq] at hc
      have h1 := handle_field_keeps_invariant tvp is tv ret tvp1 is1 ih hf
      have hb := boundary_check_cases ret tvp1 is1
      rw [hc] at hb
      simp only at hb
      rcases hb with ⟨_, h2⟩ | ⟨h2, _⟩
      · rw [h2]
        exact h1
      · rw [h2]
        exact init_captured_are_discovered

/-- C19: in every reachable processor state a captured account, a captured price and a
set type flag each have their tag in the discovered set; when a field is handled, each of
account, price and type flag stays as it is, is cleared, or is written under its own tag
while it was unset; and an order returned by a step carries the
account and the price that were captured before the step or, if none was, the one read
in this step under its own tag. -/
theorem C19_captured_imply_discovered (tvp : tagvalue_processor) (h : tvp.reachable)
    (is : tappedistream) (tv : field_tag) :
    tvp.captured_are_discovered ∧
    (∀ ret tvp1 is1, tvp.handle_field is tv = some (ret, tvp1, is1) →
      (tvp1.account = tvp.account ∨ tvp1.account = none ∨
        (tvp.account = none ∧ tv = field_tag.Account)) ∧
      (tvp1.price = tvp.price ∨ tvp1.price = none ∨
        (tvp.price = none ∧ tv = field_tag.Price)) ∧
      (tvp1.message_is_new_order_single = tvp.message_is_new_order_single ∨
        tvp1.message_is_new_order_single = false ∨
        (tvp.message_is_new_order_single = false ∧ tv = field_tag.MsgType))) ∧
    (∀ a q tvp2 is2, tvp.call is tv = some (production.order a q, tvp2, is2) →
      tv ∉ tvp.discovered_fields ∧
      (tvp.account = some a ∨ (tvp.account = none ∧ tv = field_tag.Account)) ∧
      (tvp.price = some q ∨ (tvp.price = none ∧ tv = field_tag.Price))) := by
  have hI := reachable_captured_are_discovered tvp h
  have hacc : tv ∉ tvp.discovered_fields → tv = field_tag.Account → tvp.account = none := by
    intro hd ht
    by_contra hne
    exact hd (ht ▸ hI.1 hne)
  have hpr : tv ∉ tvp.discovered_fields → tv = field_tag.Price → tvp.price = none := by
    intro hd ht
    by_contra hne
    exact hd (ht ▸ hI.2.1 hne)
  have hfl : tv ∉ tvp.discovered_fields → tv = field_tag.MsgType →
      tvp.message_is_new_order_single = false := by
    intro hd ht
    by_contra hne
    exact hd (ht ▸ hI.2.2 (by simpa using hne))
  refine ⟨hI, ?_, ?_⟩
  · intro ret tvp1 is1 hf
    by_cases hd : tv ∈ tvp.discovered_fields
    · rw [handle_field_duplicate tvp is tv hd] at hf
      simp only [Option.some.injEq, Prod.mk.injEq] at hf
      rw [← hf.2.1]
      exact ⟨Or.inr (Or.inl rfl), Or.inr (Or.inl rfl), Or.inr (Or.inl rfl)⟩
    · obtain ⟨_, _, h3, h4, h5⟩ := handle_field_fresh tvp is tv ret tvp1 is1 hd hf
      refine ⟨?_, ?_, ?_⟩
      · rcases h3 with h3 | h3
        · exact Or.inl h3
        · exact Or.inr (Or.inr ⟨hacc hd h3, h3⟩)
      · rcases h4 with h4 | h4
        · exact Or.inl h4
        · exact Or.inr (Or.inr ⟨hpr hd h4, h4⟩)
      · rcases h5 with h5 | h5
        · exact Or.inl h5
        · exact Or.inr (Or.inr ⟨hfl hd h5, h5⟩)
  · intro a q tvp2 is2 hc
    unfold tagvalue_processor.call at hc
    rcases hf : tvp.handle_field is tv with _ | ⟨ret, tvp1, is1⟩
    · rw [hf] at hc
      simp at hc
    · rw [hf] at hc
      simp only [Option.some.injEq] at hc
      have hb := boundary_check_cases ret tvp1 is1
      rw [hc] at hb
      simp only at hb
      by_cases hd : tv ∈ tvp.discovered_fields
      · exfalso
        rw [handle_field_duplicate tvp is tv hd] at hf
        simp only [Option.some.injEq, Prod.mk.injEq] at hf
        rcases hb with ⟨h1, _⟩ | ⟨_, h1 | ⟨a2, q2, _, h2, _⟩⟩
        · rw [← hf.1] at h1
          exact absurd h1 (by simp)
        · exact absurd h1 (by simp)
        · rw [← hf.2.1] at h2
          exact absurd h2 (by simp [tagvalue_processor.init])
      · obtain ⟨hret, _, h3, h4, _⟩ := handle_field_fresh tvp is tv ret tvp1 is1 hd hf
        rcases hb with ⟨h1, _⟩ | ⟨_, h1 | ⟨a2, q2, h0, h2, h2q, _⟩⟩
        · rw [hret] at h1
          exact absurd h1 (by simp)
        · exact absurd h1 (by simp)
        · simp only [production.order.injEq] at h0
          rw [← h0.1] at h2
          rw [← h0.2] at h2q
          refine ⟨hd, ?_, ?_⟩
          · rcases h3 with h3 | h3
            · exact Or.inl (h3 ▸ h2)
            · exact Or.inr ⟨hacc hd h3, h3⟩
          · rcases h4 with h4 | h4
            · exact Or.inl (h4 ▸ h2q)
            · exact Or.inr ⟨hpr hd h4, h4⟩

/-- C19 at the state reached from the initial one by handling `1=A|`: the state is
reachable, and its captured account goes with the discovered tag 1. -/
theorem C19_captured_imply_discovered_witness :
    tagvalue_processor.reachable
      { discovered_fields := [1], account := some "A".toList, price := none,
        message_is_new_order_single := false } ∧
    tagvalue_processor.captured_are_discovered
      { discovered_fields := [1], account := some "A".toList, price := none,
        message_is_new_order_single := false } :=
  have hr : tagvalue_processor.reachable
      { discovered_fields := [1], account := some "A".toList, price := none,
        message_is_new_order_single := false } :=
    tagvalue_processor.reachable.step tagvalue_processor.init
      (tappedistream.clear "=A|".toList []) 1 production.monostate _
      (tappedistream.clear "|".toList "=A".toList) tagvalue_processor.reachable.init
      (by decide)
  ⟨hr, (C19_captured_imply_discovered _ hr (tappedistream.clear [] []) 44).1⟩

/-- C14: a step that returns `Order`, `Purge` or `Error` leaves the processor in its
initial state: no discovered tag, no account, no price, type flag false.  So the rest of
the run after such a step, the returned step of a line with a repeated tag included, is
the same whatever state some other processor was in before its own boundary step. -/
theorem C14_state_reset_at_boundary (tvp : tagvalue_processor) (is : tappedistream)
    (tv : field_tag) (p : production) (tvp2 : tagvalue_processor) (is2 : tappedistream)
    (h : tvp.call is tv = some (p, tvp2, is2)) (hp : p ≠ production.monostate) :
    tvp2 = tagvalue_processor.init ∧
    tvp2.discovered_fields = [] ∧ tvp2.account = none ∧ tvp2.price = none ∧
    tvp2.message_is_new_order_single = false ∧
    (∀ (tvpB : tagvalue_processor) (isB : tappedistream) (tvB : field_tag) (pB : production)
        (tvpB2 : tagvalue_processor) (fuel : Nat) (s : sink),
      tvpB.call isB tvB = some (pB, tvpB2, is2) → pB ≠ production.monostate →
      transform fuel is2 tvpB2 s = transform fuel is2 tvp2 s) := by
  have h1 := call_boundary_reset tvp is tv p tvp2 is2 h hp
  refine ⟨h1, ?_, ?_, ?_, ?_, ?_⟩
  · rw [h1]; rfl
  · rw [h1]; rfl
  · rw [h1]; rfl
  · rw [h1]; rfl
  · intro tvpB isB tvB pB tvpB2 fuel s hB hpB
    rw [h1, call_boundary_reset tvpB isB tvB pB tvpB2 is2 hB hpB]

/-- C14 at a step that returns an order: the processor has seen `1=A` and `35=D`, handles
tag 44 before `=5` and a newline, and is left in its initial state. -/
theorem C14_state_reset_at_boundary_witness :
    tagvalue_processor.call
        { discovered_fields := [35, 1], account := some "A".toList, price := none,
          message_is_new_order_single := true }
        (tappedistream.clear "=5\n1=B".toList "1=A|35=D|44".toList) 44 =
      some (production.order "A".toList 5, tagvalue_processor.init,
        tappedistream.clear "1=B".toList "1=A|35=D|44=5\n".toList) ∧
    production.order "A".toList 5 ≠ production.monostate ∧
    tagvalue_processor.init.discovered_fields = [] :=
  ⟨by decide!, by decide,
   (C14_state_reset_at_boundary
      { discovered_fields := [35, 1], account := some "A".toList, price := none,
        message_is_new_order_single := true }
      (tappedistream.clear "=5\n1=B".toList "1=A|35=D|44".toList) 44
      (production.order "A".toList 5) tagvalue_processor.init
      (tappedistream.clear "1=B".toList "1=A|35=D|44=5\n".toList) (by decide!)
      (by decide)).2.1⟩

/-! ## Consumed bytes go to the tee -/

theorem follows_refl (a : tappedistream) : a.follows a := ⟨[], rfl, by simp⟩

theorem follows_trans (a b c : tappedistream) (h1 : a.follows b) (h2 : b.follows c) :
    a.follows c := by
  obtain ⟨k1, e1, e2⟩ := h1
  obtain ⟨k2, e3, e4⟩ := h2
  exact ⟨k1 ++ k2, by rw [e1, e3, List.append_assoc], by rw [e4, e2, List.append_assoc]⟩

theorem follows_mk (a b : tappedistream) (e f : Bool) (h : a.follows b) :
    a.follows { b with eofbit := e, failbit := f } := h

theorem follows_take_while (a b : tappedistream) (p : Char → Bool) (h : a.follows b) :
    a.follows (b.take_while p).2 :=
  follows_trans a b _ h ⟨b.src.takeWhile p, (List.takeWhile_append_dropWhile p b.src).symm, rfl⟩

theorem follows_take_if (a b : tappedistream) (p : Char → Bool) (h : a.follows b) :
    a.follows (b.take_if p).2 := by
  apply follows_trans a b _ h
  unfold tappedistream.take_if
  split
  · exact follows_refl b
  · rename_i c rest hs
    split
    · exact ⟨[c], by simp [hs], rfl⟩
    · exact follows_refl b

theorem follows_note_eof (a b : tappedistream) (h : a.follows b) : a.follows b.note_eof := by
  unfold tappedistream.note_eof
  split
  · exact h
  · exact h

theorem follows_sentry (a b : tappedistream) (n : Bool) (h : a.follows b) :
    a.follows (b.sentry n).2 := by
  unfold tappedistream.sentry
  by_cases h1 : (!b.good) = true
  · rw [if_pos h1]
    exact h
  · rw [if_neg h1]
    by_cases h2 : n = true
    · rw [if_pos h2]
      exact h
    · rw [if_neg h2]
      simp only
      by_cases h3 : (b.take_while isspace).2.src = []
      · rw [if_pos h3]
        exact follows_take_while a b isspace h
      · rw [if_neg h3]
        exact follows_take_while a b isspace h

theorem follows_uflow (a b : tappedistream) (e f : Bool) (h : a.follows b) :
    a.follows { src := (b.uflow).2.src, dst := (b.uflow).2.dst, eofbit := e, failbit := f } := by
  apply follows_trans a b _ h
  unfold tappedstreambuf.uflow
  split
  · exact follows_refl b
  · rename_i c rest hs
    exact ⟨[c], by simp [hs], rfl⟩

theorem follows_peek (a b : tappedistream) (h : a.follows b) : a.follows (b.peek).2 := by
  unfold tappedistream.peek
  have hs := follows_sentry a b true h
  rcases hq0 : b.sentry true with ⟨ok, is1⟩
  rw [hq0] at hs
  simp only at hs
  cases ok with
  | false => exact hs
  | true =>
    simp only
    split
    · exact hs
    · exact hs

theorem follows_ignore (a b : tappedistream) (h : a.follows b) : a.follows b.ignore := by
  unfold tappedistream.ignore
  have hs := follows_sentry a b true h
  rcases hq0 : b.sentry true with ⟨ok, is1⟩
  rw [hq0] at hs
  simp only at hs
  cases ok with
  | false => exact hs
  | true =>
    simp only
    have hu := follows_uflow a is1 is1.eofbit is1.failbit hs
    rcases hq : is1.uflow with ⟨c, tb⟩
    rw [hq] at hu
    cases c with
    | none => exact hs
    | some c => exact hu

theorem follows_ignore_until (a b : tappedistream) (d : Char) (h : a.follows b) :
    a.follows (b.ignore_until d) := by
  unfold tappedistream.ignore_until
  have hs := follows_sentry a b true h
  rcases hq0 : b.sentry true with ⟨ok, is1⟩
  rw [hq0] at hs
  simp only at hs
  cases ok with
  | false => exact hs
  | true =>
    simp only
    have ht := follows_take_while a is1 (fun c => c != d) hs
    have hu := follows_uflow a (is1.take_while fun c => c != d).2
      (is1.take_while fun c => c != d).2.eofbit (is1.take_while fun c => c != d).2.failbit ht
    rcases hq : (is1.take_while fun c => c != d).2.uflow with ⟨c, tb⟩
    rw [hq] at hu
    cases c with
    | none => exact ht
    | some c => exact hu

theorem follows_extract_int (a b : tappedistream) (h : a.follows b) :
    a.follows (b.extract_int).2 := by
  unfold tappedistream.extract_int
  have hs := follows_sentry a b false h
  rcases hq0 : b.sentry false with ⟨ok, is1⟩
  rw [hq0] at hs
  simp only at hs
  cases ok with
  | false => exact hs
  | true =>
    simp only
    have h4 := follows_note_eof a _
      (follows_take_while a _ is_digit (follows_take_if a is1 is_sign hs))
    split_ifs <;> exact h4

theorem follows_extract_string (a b : tappedistream) (h : a.follows b) :
    a.follows (b.extract_string).2 := by
  unfold tappedistream.extract_string
  have hs := follows_sentry a b false h
  rcases hq0 : b.sentry false with ⟨ok, is1⟩
  rw [hq0] at hs
  simp only at hs
  cases ok with
  | false => exact hs
  | true =>
    simp only
    have h4 := follows_note_eof a _ (follows_take_while a is1 (fun c => !isspace c) hs)
    split_ifs <;> exact h4

theorem follows_extract_long_double (a b : tappedistream) (h : a.follows b) :
    a.follows (b.extract_long_double).2 := by
  unfold tappedistream.extract_long_double
  have hs := follows_sentry a b false h
  rcases hq0 : b.sentry false with ⟨ok, is1⟩
  rw [hq0] at hs
  simp only at hs
  cases ok with
  | false => exact hs
  | true =>
    simp only
    have f2 := follows_take_if a is1 is_sign hs
    rcases h2 : is1.take_if is_sign with ⟨sign, is2⟩
    rw [h2] at f2
    simp only at f2 ⊢
    have f3 := follows_take_while a is2 is_digit f2
    rcases h3 : is2.take_while is_digit with ⟨intd, is3⟩
    rw [h3] at f3
    simp only at f3 ⊢
    have f4 := follows_take_if a is3 (fun c => c = '.') f3
    rcases h4 : is3.take_if (fun c => c = '.') with ⟨dot, is4⟩
    rw [h4] at f4
    simp only at f4 ⊢
    have f5 : a.follows (if dot.isSome = true then is4.take_while is_digit else ([], is4)).2 := by
      split_ifs
      · exact follows_take_while a is4 is_digit f4
      · exact f4
    rcases h5 : (if dot.isSome = true then is4.take_while is_digit else ([], is4)) with
      ⟨fracd, is5⟩
    rw [h5] at f5
    simp only at f5 ⊢
    have f6 : a.follows (if intd ++ fracd = [] then (none, is5)
        else is5.take_if (fun c => c = 'e' || c = 'E')).2 := by
      split_ifs
      · exact f5
      · exact follows_take_if a is5 _ f5
    rcases h6 : (if intd ++ fracd = [] then (none, is5)
        else is5.take_if (fun c => c = 'e' || c = 'E')) with ⟨ex, is6⟩
    rw [h6] at f6
    simp only at f6 ⊢
    have f7 : a.follows (if ex.isSome = true then is6.take_if is_sign else (none, is6)).2 := by
      split_ifs
      · exact follows_take_if a is6 _ f6
      · exact f6
    rcases h7 : (if ex.isSome = true then is6.take_if is_sign else (none, is6)) with
      ⟨esign, is7⟩
    rw [h7] at f7
    simp only at f7 ⊢
    have f8 : a.follows (if ex.isSome = true then is7.take_while is_digit else ([], is7)).2 := by
      split_ifs
      · exact follows_take_while a is7 _ f7
      · exact f7
    rcases h8 : (if ex.isSome = true then is7.take_while is_digit else ([], is7)) with
      ⟨expd, is8⟩
    rw [h8] at f8
    simp only at f8 ⊢
    have f9 := follows_note_eof a is8 f8
    split_ifs <;> first | exact f9 | (split <;> exact f9)

theorem extract_int_progress (is : tappedistream) (v : Int) (is4 : tappedistream)
    (h : is.extract_int = (some v, is4)) : is4.src.length < is.src.length := by
  unfold tappedistream.extract_int at h
  have hs := follows_sentry is is false (follows_refl is)
  rcases hq0 : is.sentry false with ⟨ok, is1⟩
  rw [hq0] at hs h
  simp only at hs
  cases ok with
  | false => simp at h
  | true =>
    simp only at h
    have h2 := follows_take_if is is1 is_sign hs
    obtain ⟨k, hk, _⟩ := h2
    by_cases hd : ((is1.take_if is_sign).2.take_while is_digit).1 = []
    · rw [if_pos (Or.inl hd)] at h
      simp at h
    · have hsrc : is4.src = (is1.take_if is_sign).2.src.dropWhile is_digit := by
        split_ifs at h <;>
          simp only [Prod.mk.injEq, Option.some.injEq, reduceCtorEq, false_and] at h <;>
          (rw [← h.2]; unfold tappedistream.note_eof; split <;> rfl)
      have hlen : ((is1.take_if is_sign).2.src.dropWhile is_digit).length <
          (is1.take_if is_sign).2.src.length := by
        have e := List.takeWhile_append_dropWhile is_digit (is1.take_if is_sign).2.src
        have hne : ((is1.take_if is_sign).2.src.takeWhile is_digit).length ≠ 0 := by
          intro h0
          exact hd (List.length_eq_zero.1 h0)
        have := congrArg List.length e
        rw [List.length_append] at this
        omega
      rw [hsrc, hk, List.length_append]
      omega

/-- A successful read of a tag takes at least one byte from the source. -/
theorem extract_tagvalue_progress (is : tappedistream) (tv : field_tag) (is1 : tappedistream)
    (h : extract_tagvalue is = (some tv, is1)) : is1.src.length < is.src.length :=
  extract_int_progress is tv is1 h

theorem follows_extract_tagvalue (a b : tappedistream) (h : a.follows b) :
    a.follows (extract_tagvalue b).2 :=
  follows_extract_int a b h

theorem follows_to_string (is : tappedistream) (s : List Char) (is1 : tappedistream)
    (h : tagvalue.to_string is = some (s, is1)) : is.follows is1 := by
  unfold tagvalue.to_string at h
  have hf := follows_extract_string is is (follows_refl is)
  rcases he : is.extract_string with ⟨r, is2⟩
  rw [he] at h hf
  cases r with
  | none => simp at h
  | some t =>
    simp only [Option.some.injEq, Prod.mk.injEq] at h
    rw [← h.2]
    exact hf

theorem follows_to_long_double (is : tappedistream) (v : ℚ) (is1 : tappedistream)
    (h : tagvalue.to_long_double is = some (v, is1)) : is.follows is1 := by
  unfold tagvalue.to_long_double at h
  have hf := follows_extract_long_double is is (follows_refl is)
  rcases he : is.extract_long_double with ⟨r, is2⟩
  rw [he] at h hf
  cases r with
  | none => simp at h
  | some t =>
    simp only [Option.some.injEq, Prod.mk.injEq] at h
    rw [← h.2]
    exact hf

theorem follows_handle_field (tvp : tagvalue_processor) (is : tappedistream) (tv : field_tag)
    (ret : production) (tvp1 : tagvalue_processor) (is1 : tappedistream)
    (hf : tvp.handle_field is tv = some (ret, tvp1, is1)) : is.follows is1 := by
  by_cases hd : tv ∈ tvp.discovered_fields
  · rw [handle_field_duplicate tvp is tv hd] at hf
    simp only [Option.some.injEq, Prod.mk.injEq] at hf
    rw [← hf.2.2]
    exact follows_ignore_until is is '\n' (follows_refl is)
  · unfold tagvalue_processor.handle_field at hf
    simp only [tagvalue_processor.is_a_duplicate, if_neg hd] at hf
    split_ifs at hf with h1 h2 h3
    · rcases hv : tagvalue.to_string is with _ | ⟨s, is2⟩
      · rw [hv] at hf
        simp at hf
      · rw [hv] at hf
        simp only [Option.some.injEq, Prod.mk.injEq] at hf
        rw [← hf.2.2]
        exact follows_to_string _ _ _ hv
    · rcases hv : tagvalue.to_string is with _ | ⟨s, is2⟩
      · rw [hv] at hf
        simp at hf
      · rw [hv] at hf
        simp only [Option.some.injEq, Prod.mk.injEq] at hf
        rw [← hf.2.2]
        exact follows_to_string _ _ _ hv
    · rcases hv : tagvalue.to_long_double is with _ | ⟨s, is2⟩
      · rw [hv] at hf
        simp at hf
      · rw [hv] at hf
        simp only [Option.some.injEq, Prod.mk.injEq] at hf
        rw [← hf.2.2]
        exact follows_to_long_double _ _ _ hv
    · simp only [Option.some.injEq, Prod.mk.injEq] at hf
      rw [← hf.2.2]
      exact follows_ignore_until is is '|' (follows_refl is)

theorem follows_boundary_check (ret : production) (tvp : tagvalue_processor)
    (is : tappedistream) : is.follows (tagvalue_processor.boundary_check ret tvp is).2.2 := by
  unfold tagvalue_processor.boundary_check
  have hp := follows_peek is is (follows_refl is)
  rcases hq : is.peek with ⟨c, is1⟩
  rw [hq] at hp
  simp only at hp
  split
  · rename_i heq
    simp only [Prod.mk.injEq] at heq
    rw [← heq.2]
    exact follows_ignore is is1 hp
  · rename_i heq
    simp only [Prod.mk.injEq] at heq
    rw [← heq.2]
    exact hp

/-- A step of the processor only takes bytes from the source, and what it takes is in
the destination. -/
theorem follows_call (tvp : tagvalue_processor) (is : tappedistream) (tv : field_tag)
    (p : production) (tvp2 : tagvalue_processor) (is2 : tappedistream)
    (h : tvp.call is tv = some (p, tvp2, is2)) : is.follows is2 := by
  unfold tagvalue_processor.call at h
  rcases hf : tvp.handle_field is tv with _ | ⟨ret, tvp1, is1⟩
  · rw [hf] at h
    simp at h
  · rw [hf] at h
    simp only [Option.some.injEq] at h
    have h1 := follows_handle_field tvp is tv ret tvp1 is1 hf
    have h2 := follows_boundary_check ret tvp1 is1
    rw [h] at h2
    exact follows_trans _ _ _ h1 h2

/-- One round of the loop: the bytes it takes from the source are a non-empty prefix of
the source, and the destination grows by them. -/
theorem round_consumes (is : tappedistream) (tvp : tagvalue_processor) (tv : field_tag)
    (is1 : tappedistream) (p : production) (tvp2 : tagvalue_processor) (is2 : tappedistream)
    (h1 : extract_tagvalue is = (some tv, is1)) (h2 : tvp.call is1 tv = some (p, tvp2, is2)) :
    is2.src.length < is.src.length ∧
    is.src = is.src.take (is.src.length - is2.src.length) ++ is2.src ∧
    is2.dst = is.dst ++ is.src.take (is.src.length - is2.src.length) ∧
    is.src.take (is.src.length - is2.src.length) ≠ [] := by
  have hp := extract_tagvalue_progress is tv is1 h1
  have f1 : is.follows is1 := by
    have := follows_extract_tagvalue is is (follows_refl is)
    rw [h1] at this
    exact this
  obtain ⟨k, hk1, hk2⟩ := follows_trans _ _ _ f1 (follows_call tvp is1 tv p tvp2 is2 h2)
  obtain ⟨k2, hk3, _⟩ := follows_call tvp is1 tv p tvp2 is2 h2
  have hlen : is2.src.length ≤ is1.src.length := by
    rw [hk3, List.length_append]
    omega
  have htake : is.src.take (is.src.length - is2.src.length) = k := by
    conv_lhs => rw [hk1]
    rw [List.length_append, Nat.add_sub_cancel]
    simp
  refine ⟨by omega, ?_, ?_, ?_⟩
  · rw [htake]
    exact hk1
  · rw [htake]
    exact hk2
  · rw [htake]
    intro h0
    rw [h0, List.nil_append] at hk1
    rw [hk1] at hp
    omega

/-! ## Termination and the log of a run -/

theorem transform_fuel_suffices (fuel : Nat) :
    ∀ (is : tappedistream) (tvp : tagvalue_processor) (s : sink),
      is.src.length < fuel →
      (transform fuel is tvp s).kind = exit_kind.finished ∨
      (transform fuel is tvp s).kind = exit_kind.bad_cast := by
  induction fuel with
  | zero =>
    intro is tvp s h
    exact absurd h (Nat.not_lt_zero _)
  | succ fuel ih =>
    intro is tvp s h
    rw [transform]
    rcases h1 : extract_tagvalue is with ⟨r, is1⟩
    cases r with
    | none => exact Or.inl rfl
    | some tv =>
      simp only
      rcases h2 : tvp.call is1 tv with _ | ⟨p, tvp2, is2⟩
      · exact Or.inr rfl
      · simp only
        have hc := round_consumes is tvp tv is1 p tvp2 is2 h1 h2
        apply ih
        show is2.src.length < fuel
        omega

theorem rounds_length (fuel : Nat) :
    ∀ (is : tappedistream) (tvp : tagvalue_processor) (s : sink),
      (rounds fuel is tvp s).length ≤ is.src.length := by
  induction fuel with
  | zero =>
    intro is tvp s
    simp [rounds]
  | succ fuel ih =>
    intro is tvp s
    rw [rounds]
    rcases h1 : extract_tagvalue is with ⟨r, is1⟩
    cases r with
    | none => simp
    | some tv =>
      simp only
      rcases h2 : tvp.call is1 tv with _ | ⟨p, tvp2, is2⟩
      · simp
      · simp only [List.length_cons]
        have hc := round_consumes is tvp tv is1 p tvp2 is2 h1 h2
        have := ih { is2 with dst := (({ s with ss := is2.dst } : sink).assign p).ss } tvp2
          (({ s with ss := is2.dst } : sink).assign p)
        have e : ({ is2 with dst := (({ s with ss := is2.dst } : sink).assign p).ss } :
            tappedistream).src = is2.src := rfl
        rw [e] at this
        omega

/-- The table a run leaves is the one obtained by consuming the outcomes of its rounds. -/
theorem transform_table_of_rounds (fuel : Nat) :
    ∀ (is : tappedistream) (tvp : tagvalue_processor) (s : sink),
      (transform fuel is tvp s).s.mp =
        (s.consume ((rounds fuel is tvp s).map Prod.fst)).mp := by
  induction fuel with
  | zero =>
    intro is tvp s
    rfl
  | succ fuel ih =>
    intro is tvp s
    rw [transform, rounds]
    rcases h1 : extract_tagvalue is with ⟨r, is1⟩
    cases r with
    | none => rfl
    | some tv =>
      simp only
      rcases h2 : tvp.call is1 tv with _ | ⟨p, tvp2, is2⟩
      · rfl
      · simp only [List.map_cons]
        rw [ih]
        show _ = ((s.assign p).consume _).mp
        apply consume_mp_congr
        exact assign_mp_congr _ _ p rfl

/-- The bytes taken by the rounds of a run, one round after the other, are a prefix of
the source. -/
theorem rounds_prefix (fuel : Nat) :
    ∀ (is : tappedistream) (tvp : tagvalue_processor) (s : sink),
      ∃ rest, is.src = ((rounds fuel is tvp s).map Prod.snd).flatten ++ rest := by
  induction fuel with
  | zero =>
    intro is tvp s
    exact ⟨is.src, by simp [rounds]⟩
  | succ fuel ih =>
    intro is tvp s
    rw [rounds]
    rcases h1 : extract_tagvalue is with ⟨r, is1⟩
    cases r with
    | none => exact ⟨is.src, by simp⟩
    | some tv =>
      simp only
      rcases h2 : tvp.call is1 tv with _ | ⟨p, tvp2, is2⟩
      · exact ⟨is.src, by simp⟩
      · simp only [List.map_cons, List.flatten_cons]
        have hc := round_consumes is tvp tv is1 p tvp2 is2 h1 h2
        obtain ⟨rest, hr⟩ := ih { is2 with dst := (({ s with ss := is2.dst } : sink).assign p).ss }
          tvp2 (({ s with ss := is2.dst } : sink).assign p)
        refine ⟨rest, ?_⟩
        rw [List.append_assoc, ← hr]
        exact hc.2.1

theorem assign_ss_empty (s : sink) (p : production) :
    p = production.monostate ∨ (s.assign p).ss = [] := by
  cases p with
  | monostate => exact Or.inl rfl
  | error =>
    right
    simp [sink.assign, sink.seekg_end]
  | purge => exact Or.inr rfl
  | order a q => exact Or.inr (assign_order_frame s a q).1

theorem dumps_of_purge (buf k : List Char) (r : List (production × List Char)) :
    dumps_of buf ((production.purge, k) :: r) = dumps_of [] r := rfl

theorem dumps_of_order (buf k : List Char) (a : List Char) (q : ℚ)
    (r : List (production × List Char)) :
    dumps_of buf ((production.order a q, k) :: r) = dumps_of [] r := rfl

/-- The diagnostics of a run are the dumps its rounds call for: the tee buffer dumped at
an `Error` holds the bytes consumed since the last outcome other than `None`. -/
theorem transform_dumps_of_rounds (fuel : Nat) :
    ∀ (is : tappedistream) (tvp : tagvalue_processor) (s : sink),
      s.cerr_failbit = false →
      (transform fuel is tvp s).s.cerr = s.cerr ++ dumps_of is.dst (rounds fuel is tvp s) ∧
      (transform fuel is tvp s).s.cerr_failbit = false := by
  induction fuel with
  | zero =>
    intro is tvp s hf
    exact ⟨by simp [transform, rounds, dumps_of], hf⟩
  | succ fuel ih =>
    intro is tvp s hf
    rw [transform, rounds]
    rcases h1 : extract_tagvalue is with ⟨r, is1⟩
    cases r with
    | none => exact ⟨by simp [dumps_of], hf⟩
    | some tv =>
      simp only
      rcases h2 : tvp.call is1 tv with _ | ⟨p, tvp2, is2⟩
      · exact ⟨by simp [dumps_of], hf⟩
      · simp only
        have hc := round_consumes is tvp tv is1 p tvp2 is2 h1 h2
        have hne : is2.dst ≠ [] := by
          rw [hc.2.2.1]
          intro h0
          exact hc.2.2.2 (List.append_eq_nil.1 h0).2
        cases p with
        | monostate =>
          have := ih { is2 with dst := is2.dst } tvp2 { s with ss := is2.dst } hf
          refine ⟨?_, this.2⟩
          rw [dumps_of, ← hc.2.2.1]
          exact this.1
        | error =>
          rw [assign_error_dump s is2.dst hne hf]
          have := ih { is2 with dst := [] } tvp2
            { s with ss := [], cerr := s.cerr ++ [is2.dst] } hf
          refine ⟨?_, this.2⟩
          rw [dumps_of, ← hc.2.2.1, this.1]
          simp
        | purge =>
          have := ih { is2 with dst := [] } tvp2 { s with ss := [] } hf
          refine ⟨?_, this.2⟩
          rw [dumps_of_purge]
          exact this.1
        | order a q =>
          have hfr := assign_order_frame ({ s with ss := is2.dst } : sink) a q
          have := ih { is2 with dst := (({ s with ss := is2.dst } : sink).assign
            (production.order a q)).ss } tvp2
            (({ s with ss := is2.dst } : sink).assign (production.order a q))
            (by rw [hfr.2.2]; exact hf)
          refine ⟨?_, this.2⟩
          rw [dumps_of_order, this.1, hfr.2.1]
          have e : ({ is2 with dst := (({ s with ss := is2.dst } : sink).assign
            (production.order a q)).ss } : tappedistream).dst = [] := hfr.1
          rw [e]

/-- With more fuel than the source has bytes, the amount of fuel does not matter. -/
theorem transform_fuel_irrelevant (fuel : Nat) :
    ∀ (fuel2 : Nat) (is : tappedistream) (tvp : tagvalue_processor) (s : sink),
      is.src.length < fuel → is.src.length < fuel2 →
      transform fuel is tvp s = transform fuel2 is tvp s := by
  induction fuel with
  | zero =>
    intro fuel2 is tvp s h _
    exact absurd h (Nat.not_lt_zero _)
  | succ fuel ih =>
    intro fuel2 is tvp s h h'
    obtain ⟨f2, rfl⟩ : ∃ f2, fuel2 = f2 + 1 := ⟨fuel2 - 1, by omega⟩
    rw [transform, transform]
    rcases h1 : extract_tagvalue is with ⟨r, is1⟩
    cases r with
    | none => rfl
    | some tv =>
      simp only
      rcases h2 : tvp.call is1 tv with _ | ⟨p, tvp2, is2⟩
      · rfl
      · simp only
        have hc := round_consumes is tvp tv is1 p tvp2 is2 h1 h2
        apply ih
        · show is2.src.length < fuel
          omega
        · show is2.src.length < f2
          omega

/-- C16: the diagnostics of a run are exactly the dumps called for by the log of its
rounds, where an `Error` dumps the bytes taken from the source since the last outcome
other than `None` (or since the start), its own round included, and nothing else; the
bytes of the rounds, in order, are a prefix of the input; and after an `Order`, `Purge`
or `Error` is consumed the unread part of the tee buffer is empty. -/
theorem C16_dump_is_consumed_bytes (input : List Char) (s : sink) (p : production) :
    (main input).s.cerr =
      dumps_of [] (rounds (input.length + 1) (tappedistream.init input)
        tagvalue_processor.init sink.init) ∧
    (∃ rest, input =
      ((rounds (input.length + 1) (tappedistream.init input)
        tagvalue_processor.init sink.init).map Prod.snd).flatten ++ rest) ∧
    (main input).s.mp =
      (sink.init.consume ((rounds (input.length + 1) (tappedistream.init input)
        tagvalue_processor.init sink.init).map Prod.fst)).mp ∧
    (p = production.monostate ∨ (s.assign p).ss = []) := by
  refine ⟨?_, ?_, ?_, assign_ss_empty s p⟩
  · have h := (transform_dumps_of_rounds (input.length + 1) (tappedistream.init input)
      tagvalue_processor.init sink.init rfl).1
    rw [main, h]
    rfl
  · exact rounds_prefix (input.length + 1) (tappedistream.init input)
      tagvalue_processor.init sink.init
  · exact transform_table_of_rounds (input.length + 1) (tappedistream.init input)
      tagvalue_processor.init sink.init

/-- The log and the dumps of the run over an accepted order for `A`, a line that repeats
tag 1, and an accepted order for `B`: the one dump is the line with the repeated tag. -/
theorem rounds_example :
    (rounds 41 (tappedistream.init "1=A|35=D|44=5\n1=C|1=C\n1=B|35=D|44=6\n".toList)
        tagvalue_processor.init sink.init).map Prod.snd =
      ["1=A".toList, "|35=D".toList, "|44=5\n".toList, "1=C".toList, "|1=C\n".toList,
        "1=B".toList, "|35=D".toList, "|44=6\n".toList] ∧
    dumps_of [] (rounds 41 (tappedistream.init "1=A|35=D|44=5\n1=C|1=C\n1=B|35=D|44=6\n".toList)
        tagvalue_processor.init sink.init) = ["1=C|1=C\n".toList] := by
  decide!

/-- C20: every run ends, with a table or with `bad_cast`; it has at most as many rounds
as the input has bytes; a successful read of a tag takes at least one byte from the
source; a step of the processor leaves a suffix of the source it was given; and any
amount of fuel above the length of the input gives the same run. -/
theorem C20_run_terminates (input : List Char) :
    ((main input).kind = exit_kind.finished ∨ (main input).kind = exit_kind.bad_cast) ∧
    (rounds (input.length + 1) (tappedistream.init input)
      tagvalue_processor.init sink.init).length ≤ input.length ∧
    (∀ (is : tappedistream) (tv : field_tag) (is1 : tappedistream),
      extract_tagvalue is = (some tv, is1) → is1.src.length < is.src.length) ∧
    (∀ (tvp : tagvalue_processor) (is : tappedistream) (tv : field_tag) (p : production)
        (tvp2 : tagvalue_processor) (is2 : tappedistream),
      tvp.call is tv = some (p, tvp2, is2) → ∃ k, is.src = k ++ is2.src) ∧
    (∀ fuel, input.length < fuel →
      transform fuel (tappedistream.init input) tagvalue_processor.init sink.init =
        main input) := by
  refine ⟨?_, ?_, extract_tagvalue_progress, ?_, ?_⟩
  · exact transform_fuel_suffices (input.length + 1) (tappedistream.init input)
      tagvalue_processor.init sink.init (Nat.lt_succ_self _)
  · exact rounds_length (input.length + 1) (tappedistream.init input)
      tagvalue_processor.init sink.init
  · intro tvp is tv p tvp2 is2 h
    obtain ⟨k, hk, _⟩ := follows_call tvp is tv p tvp2 is2 h
    exact ⟨k, hk⟩
  · intro fuel hf
    exact transform_fuel_irrelevant fuel (input.length + 1) (tappedistream.init input)
      tagvalue_processor.init sink.init hf (Nat.lt_succ_self _)

/-! ## Malformed tokens -/

theorem handle_field_absorb_other (tvp : tagvalue_processor) (m : order_message)
    (t : List Char) (k : field_kind) (c : Char) (rest dst : List Char) (hm : m.wellformed)
    (ht0 : t ≠ []) (hts : ∀ x ∈ t, isspace x = false) (hD : t ≠ "D".toList)
    (hc : c = '|' ∨ c = '\n') (hnd : k.tag ∉ tvp.discovered_fields) :
    tvp.handle_field (tappedistream.clear ('=' :: m.value_with t k ++ c :: rest) dst) k.tag =
      some (production.monostate, tvp.absorb_other m k,
        tappedistream.clear (c :: rest) (dst ++ '=' :: m.value_with t k)) := by
  cases k with
  | account => exact handle_field_absorb tvp m field_kind.account c rest dst hm hc hnd
  | price => exact handle_field_absorb tvp m field_kind.price c rest dst hm hc hnd
  | msgtype =>
    have hpre : ∀ y ∈ ['='], isspace y = true := by
      intro y hy
      rw [List.mem_singleton.1 hy]
      decide
    have hcs : isspace c = true := by
      rcases hc with h | h <;> rw [h] <;> decide
    rcases htt : t with _ | ⟨t0, ts⟩
    · exact absurd htt ht0
    · rw [htt] at hts hD
      have hne : ¬ (field_tag.MsgType = field_tag.Account) := by decide
      have e0 : '=' :: (t0 :: ts) ++ c :: rest = ['='] ++ (t0 :: ts) ++ c :: rest := by simp
      have e1 : dst ++ ['='] ++ (t0 :: ts) = dst ++ '=' :: (t0 :: ts) := by simp
      unfold tagvalue_processor.handle_field
      simp only [tagvalue_processor.is_a_duplicate, if_neg hnd, field_kind.tag,
        order_message.value_with, if_neg hne, if_true, tagvalue.to_string]
      rw [e0, extract_string_clear ['='] t0 ts c rest dst hpre hts hcs, e1]
      have hnd2 : field_tag.MsgType ∉ tvp.discovered_fields := hnd
      simp only [if_neg (Ne.symm hD), if_neg hnd2]
      rfl

/-- A round of the loop and of its log over a field followed by `|`, given how the
processor handles the field. -/
theorem round_mid_generic (fuel : Nat) (tvp tvp1 : tagvalue_processor) (s : sink)
    (k : field_kind) (pre v more dst : List Char) (hpre : ∀ y ∈ pre, isspace y = true)
    (hh : tvp.handle_field
        (tappedistream.clear ('=' :: v ++ '|' :: more) (dst ++ pre ++ k.tag_text)) k.tag =
      some (production.monostate, tvp1,
        tappedistream.clear ('|' :: more) (dst ++ pre ++ k.tag_text ++ '=' :: v))) :
    transform (fuel + 1)
        (tappedistream.clear (pre ++ k.tag_text ++ '=' :: (v ++ '|' :: more)) dst) tvp s =
      transform fuel
        (tappedistream.clear ('|' :: more) (dst ++ pre ++ k.tag_text ++ '=' :: v)) tvp1
        { s with ss := dst ++ pre ++ k.tag_text ++ '=' :: v } ∧
    (rounds (fuel + 1)
        (tappedistream.clear (pre ++ k.tag_text ++ '=' :: (v ++ '|' :: more)) dst) tvp s).map
        Prod.fst =
      production.monostate ::
        (rounds fuel
          (tappedistream.clear ('|' :: more) (dst ++ pre ++ k.tag_text ++ '=' :: v)) tvp1
          { s with ss := dst ++ pre ++ k.tag_text ++ '=' :: v }).map Prod.fst := by
  have hcall : tvp.call
      (tappedistream.clear ('=' :: (v ++ '|' :: more)) (dst ++ pre ++ k.tag_text)) k.tag =
      some (production.monostate, tvp1,
        tappedistream.clear ('|' :: more) (dst ++ pre ++ k.tag_text ++ '=' :: v)) := by
    unfold tagvalue_processor.call
    rw [show '=' :: (v ++ '|' :: more) = '=' :: v ++ '|' :: more from rfl, hh]
    simp only [tagvalue_processor.boundary_check, peek_clear]
    rfl
  constructor
  · rw [transform, extract_tagvalue_field pre k _ dst hpre]
    simp only
    rw [hcall]
    rfl
  · rw [rounds, extract_tagvalue_field pre k _ dst hpre]
    simp only
    rw [hcall]
    rfl

/-- A round of the loop and of its log over a field followed by the newline, when the
type flag is not set afterwards. -/
theorem round_last_purge (fuel : Nat) (tvp tvp1 : tagvalue_processor) (s : sink)
    (k : field_kind) (pre v rest dst : List Char) (hpre : ∀ y ∈ pre, isspace y = true)
    (hh : tvp.handle_field
        (tappedistream.clear ('=' :: v ++ '\n' :: rest) (dst ++ pre ++ k.tag_text)) k.tag =
      some (production.monostate, tvp1,
        tappedistream.clear ('\n' :: rest) (dst ++ pre ++ k.tag_text ++ '=' :: v)))
    (hfl : tvp1.message_is_new_order_single = false) :
    transform (fuel + 1)
        (tappedistream.clear (pre ++ k.tag_text ++ '=' :: (v ++ '\n' :: rest)) dst) tvp s =
      transform fuel (tappedistream.clear rest []) tagvalue_processor.init
        (s.assign production.purge) ∧
    (rounds (fuel + 1)
        (tappedistream.clear (pre ++ k.tag_text ++ '=' :: (v ++ '\n' :: rest)) dst) tvp s).map
        Prod.fst =
      production.purge ::
        (rounds fuel (tappedistream.clear rest []) tagvalue_processor.init
          (s.assign production.purge)).map Prod.fst := by
  have hcall : tvp.call
      (tappedistream.clear ('=' :: (v ++ '\n' :: rest)) (dst ++ pre ++ k.tag_text)) k.tag =
      some (production.purge, tagvalue_processor.init,
        tappedistream.clear rest (dst ++ pre ++ k.tag_text ++ '=' :: v ++ ['\n'])) := by
    unfold tagvalue_processor.call
    rw [show '=' :: (v ++ '\n' :: rest) = '=' :: v ++ '\n' :: rest from rfl, hh]
    simp only
    rw [boundary_check_newline production.monostate tvp1
      (tappedistream.clear ('\n' :: rest) (dst ++ pre ++ k.tag_text ++ '=' :: v)) rest rfl rfl,
      hfl]
    rfl
  constructor
  · rw [transform, extract_tagvalue_field pre k _ dst hpre]
    simp only
    rw [hcall]
    rfl
  · rw [rounds, extract_tagvalue_field pre k _ dst hpre]
    simp only
    rw [hcall]
    rfl

theorem round_mid_other (fuel : Nat) (tvp : tagvalue_processor) (s : sink)
    (m : order_message) (t : List Char) (k : field_kind) (pre more dst : List Char)
    (hm : m.wellformed) (ht0 : t ≠ []) (hts : ∀ x ∈ t, isspace x = false)
    (hD : t ≠ "D".toList) (hpre : ∀ y ∈ pre, isspace y = true)
    (hnd : k.tag ∉ tvp.discovered_fields) :
    transform (fuel + 1)
        (tappedistream.clear (pre ++ m.field_with t k ++ '|' :: more) dst) tvp s =
      transform fuel (tappedistream.clear ('|' :: more) (dst ++ pre ++ m.field_with t k))
        (tvp.absorb_other m k) { s with ss := dst ++ pre ++ m.field_with t k } ∧
    (rounds (fuel + 1)
        (tappedistream.clear (pre ++ m.field_with t k ++ '|' :: more) dst) tvp s).map
        Prod.fst =
      production.monostate ::
        (rounds fuel (tappedistream.clear ('|' :: more) (dst ++ pre ++ m.field_with t k))
          (tvp.absorb_other m k) { s with ss := dst ++ pre ++ m.field_with t k }).map
          Prod.fst := by
  have e1 : pre ++ m.field_with t k ++ '|' :: more =
      pre ++ k.tag_text ++ '=' :: (m.value_with t k ++ '|' :: more) := by
    simp [order_message.field_with]
  have e2 : dst ++ pre ++ k.tag_text ++ '=' :: m.value_with t k =
      dst ++ pre ++ m.field_with t k := by
    simp [order_message.field_with]
  have h := round_mid_generic fuel tvp (tvp.absorb_other m k) s k pre (m.value_with t k)
    more dst hpre
    (handle_field_absorb_other tvp m t k '|' more _ hm ht0 hts hD (Or.inl rfl) hnd)
  rw [e2] at h
  rw [e1]
  exact h

theorem round_last_other (fuel : Nat) (tvp : tagvalue_processor) (s : sink)
    (m : order_message) (t : List Char) (k : field_kind) (pre rest dst : List Char)
    (hm : m.wellformed) (ht0 : t ≠ []) (hts : ∀ x ∈ t, isspace x = false)
    (hD : t ≠ "D".toList) (hpre : ∀ y ∈ pre, isspace y = true)
    (hnd : k.tag ∉ tvp.discovered_fields)
    (hfl : (tvp.absorb_other m k).message_is_new_order_single = false) :
    transform (fuel + 1)
        (tappedistream.clear (pre ++ m.field_with t k ++ '\n' :: rest) dst) tvp s =
      transform fuel (tappedistream.clear rest []) tagvalue_processor.init
        (s.assign production.purge) ∧
    (rounds (fuel + 1)
        (tappedistream.clear (pre ++ m.field_with t k ++ '\n' :: rest) dst) tvp s).map
        Prod.fst =
      production.purge ::
        (rounds fuel (tappedistream.clear rest []) tagvalue_processor.init
          (s.assign production.purge)).map Prod.fst := by
  have e1 : pre ++ m.field_with t k ++ '\n' :: rest =
      pre ++ k.tag_text ++ '=' :: (m.value_with t k ++ '\n' :: rest) := by
    simp [order_message.field_with]
  rw [e1]
  exact round_last_purge fuel tvp (tvp.absorb_other m k) s k pre (m.value_with t k) rest dst
    hpre (handle_field_absorb_other tvp m t k '\n' rest _ hm ht0 hts hD (Or.inr rfl) hnd) hfl

theorem absorb_other_discovered (tvp : tagvalue_processor) (m : order_message)
    (k : field_kind) :
    (tvp.absorb_other m k).discovered_fields = k.tag :: tvp.discovered_fields := by
  cases k <;> rfl

theorem absorb_other_flag (tvp : tagvalue_processor) (m : order_message) (k : field_kind) :
    (tvp.absorb_other m k).message_is_new_order_single = tvp.message_is_new_order_single := by
  cases k <;> rfl

/-- The three rounds over a message whose type is not `D`: nothing, nothing, `Purge`. -/
theorem transform_three_other (fuel : Nat) (s : sink) (m : order_message) (t : List Char)
    (k1 k2 k3 : field_kind) (rest dst : List Char) (hm : m.wellformed) (ht0 : t ≠ [])
    (hts : ∀ x ∈ t, isspace x = false) (hD : t ≠ "D".toList) (h12 : k1 ≠ k2)
    (h13 : k1 ≠ k3) (h23 : k2 ≠ k3) :
    transform (fuel + 3)
        (tappedistream.clear
          (m.field_with t k1 ++ '|' :: (m.field_with t k2 ++ '|' ::
            (m.field_with t k3 ++ '\n' :: rest))) dst)
        tagvalue_processor.init s =
      transform fuel (tappedistream.clear rest []) tagvalue_processor.init
        (s.assign production.purge) ∧
    (rounds (fuel + 3)
        (tappedistream.clear
          (m.field_with t k1 ++ '|' :: (m.field_with t k2 ++ '|' ::
            (m.field_with t k3 ++ '\n' :: rest))) dst)
        tagvalue_processor.init s).map Prod.fst =
      production.monostate :: production.monostate :: production.purge ::
        (rounds fuel (tappedistream.clear rest []) tagvalue_processor.init
          (s.assign production.purge)).map Prod.fst := by
  have hbar : ∀ y ∈ ['|'], isspace y = true := by
    intro y hy
    rw [List.mem_singleton.1 hy]
    decide
  have hnil : ∀ y ∈ ([] : List Char), isspace y = true := by
    intro y hy
    exact absurd hy (List.not_mem_nil y)
  have s1 := round_mid_other (fuel + 2) tagvalue_processor.init s m t k1 []
    (m.field_with t k2 ++ '|' :: (m.field_with t k3 ++ '\n' :: rest)) dst hm ht0 hts hD hnil
    (by simp [tagvalue_processor.init])
  have hnd2 : k2.tag ∉ (tagvalue_processor.init.absorb_other m k1).discovered_fields := by
    rw [absorb_other_discovered]
    intro h
    rcases List.mem_cons.1 h with h | h
    · exact h12 (tag_injective _ _ h).symm
    · simp [tagvalue_processor.init] at h
  have s2 := round_mid_other (fuel + 1) (tagvalue_processor.init.absorb_other m k1)
    { s with ss := dst ++ [] ++ m.field_with t k1 } m t k2 ['|']
    (m.field_with t k3 ++ '\n' :: rest) (dst ++ [] ++ m.field_with t k1) hm ht0 hts hD hbar
    hnd2
  have hnd3 : k3.tag ∉
      ((tagvalue_processor.init.absorb_other m k1).absorb_other m k2).discovered_fields := by
    rw [absorb_other_discovered, absorb_other_discovered]
    intro h
    rcases List.mem_cons.1 h with h | h
    · exact h23 (tag_injective _ _ h).symm
    · rcases List.mem_cons.1 h with h | h
      · exact h13 (tag_injective _ _ h).symm
      · simp [tagvalue_processor.init] at h
  have s3 := round_last_other fuel
    ((tagvalue_processor.init.absorb_other m k1).absorb_other m k2)
    { s with ss := dst ++ [] ++ m.field_with t k1 ++ ['|'] ++ m.field_with t k2 } m t k3 ['|']
    rest (dst ++ [] ++ m.field_with t k1 ++ ['|'] ++ m.field_with t k2) hm ht0 hts hD hbar
    hnd3 (by rw [absorb_other_flag, absorb_other_flag, absorb_other_flag]; rfl)
  constructor
  · exact s1.1.trans (s2.1.trans s3.1)
  · have r1 := s1.2
    have r2 := s2.2
    have r3 := s3.2
    rw [show fuel + 3 = fuel + 2 + 1 from rfl]
    exact r1.trans (congrArg _ (r2.trans (congrArg _ r3)))

theorem text_with_of_layout (m : order_message) (t : List Char) (k1 k2 k3 : field_kind)
    (rest : List Char) (hl : m.layout = [k1, k2, k3]) :
    m.text_with t ++ rest =
      m.field_with t k1 ++ '|' :: (m.field_with t k2 ++ '|' ::
        (m.field_with t k3 ++ '\n' :: rest)) := by
  simp [order_message.text_with, hl, List.intercalate, List.intersperse]

theorem text_with_length (m : order_message) (t : List Char) (hm : m.wellformed) :
    3 ≤ (m.text_with t).length := by
  obtain ⟨k1, k2, k3, hl, _⟩ := layout_cases m.layout hm.2.2.2
  have h := text_with_of_layout m t k1 k2 k3 [] hl
  rw [List.append_nil] at h
  rw [h]
  simp only [List.length_append, List.length_cons, List.length_nil]
  omega

theorem main_after_render_ge (before : List order_message)
    (hb : ∀ m ∈ before, m.wellformed) (x : List Char) (n : Nat) (hn : n ≤ x.length) :
    ∃ g, main (render before ++ x) =
      transform (g + 1 + n) (tappedistream.clear x []) tagvalue_processor.init
        (sink.init.consume (before.map order_message.outcome)) := by
  have hl := render_length before hb
  refine ⟨(render before ++ x).length - 3 * before.length - n, ?_⟩
  have e : (render before ++ x).length + 1 =
      ((render before ++ x).length - 3 * before.length - n + 1 + n) + 3 * before.length := by
    rw [List.length_append]
    omega
  unfold main
  rw [e]
  exact transform_render_then before x _ sink.init hb

/-- The run over well-formed order messages with one message among them whose type is a
token other than `D`. -/
theorem main_with_other_type (before after : List order_message) (m : order_message)
    (t : List Char) (hb : ∀ x ∈ before, x.wellformed) (ha : ∀ x ∈ after, x.wellformed)
    (hm : m.wellformed) (ht0 : t ≠ []) (hts : ∀ x ∈ t, isspace x = false)
    (hD : t ≠ "D".toList) :
    (main (render before ++ (m.text_with t ++ render after))).kind = exit_kind.finished ∧
    (main (render before ++ (m.text_with t ++ render after))).s.cerr = [] ∧
    (main (render before ++ (m.text_with t ++ render after))).s.mp =
      (sink.init.consume ((before ++ after).map order_message.outcome)).mp := by
  obtain ⟨k1, k2, k3, hl, h12, h13, h23⟩ := layout_cases m.layout hm.2.2.2
  have hlen : 3 + 3 * after.length ≤ (m.text_with t ++ render after).length := by
    have h1 := text_with_length m t hm
    have h2 := render_length after ha
    rw [List.length_append]
    omega
  obtain ⟨g, hg⟩ := main_after_render_ge before hb (m.text_with t ++ render after)
    (3 + 3 * after.length) hlen
  have e : g + 1 + (3 + 3 * after.length) = (g + 1 + 3 * after.length) + 3 := by omega
  rw [hg, e, text_with_of_layout m t k1 k2 k3 (render after) hl,
    (transform_three_other (g + 1 + 3 * after.length) _ m t k1 k2 k3 (render after) []
      hm ht0 hts hD h12 h13 h23).1]
  have hr := transform_render after (g + 1 + 3 * after.length)
    ((sink.init.consume (before.map order_message.outcome)).assign production.purge) [] ha
    (by omega)
  refine ⟨hr.1, ?_, ?_⟩
  · rw [hr.2, consume_outcomes_cerr]
    show (sink.init.consume (before.map order_message.outcome)).cerr = []
    rw [consume_outcomes_cerr]
    rfl
  · have happ : sink.init.consume
        (before.map order_message.outcome ++ after.map order_message.outcome) =
        (sink.init.consume (before.map order_message.outcome)).consume
          (after.map order_message.outcome) := by
      simp [sink.consume, List.foldl_append]
    rw [hr.2, List.map_append, happ]
    exact consume_mp_congr _ _ _ rfl

theorem acme_type_first_wellformed : acme_type_first.wellformed :=
  ⟨by decide, by decide,
    ⟨by decide, by decide, fun f hf => by
      cases hf
      exact ⟨by decide, by decide⟩, by decide!⟩, by decide⟩

/-- C17 as amended: for a message of the three fields 1, 35 and 44 (the account a token,
the price a decimal numeral within the range of `long double`) whose message type is a
non-empty token free of whitespace, `|` and `=` and other than `D`: handling the
message-type field records tag 35 and changes nothing else, the flag included; the three
rounds over the message return nothing, nothing and `Purge`; and in an input of
well-formed order messages with this message among them the run ends normally, writes no
diagnostic, and leaves the table of the input without the message. -/
theorem C17_other_type_is_purged (before after : List order_message) (m : order_message)
    (t rest : List Char) (hb : ∀ x ∈ before, x.wellformed) (ha : ∀ x ∈ after, x.wellformed)
    (hm : m.wellformed) (ht0 : t ≠ []) (hts : ∀ x ∈ t, isspace x = false)
    (hD : t ≠ "D".toList) :
    (∀ (tvp : tagvalue_processor) (c : Char) (more dst : List Char),
      field_tag.MsgType ∉ tvp.discovered_fields → c = '|' ∨ c = '\n' →
      tvp.handle_field (tappedistream.clear ('=' :: t ++ c :: more) dst) field_tag.MsgType =
        some (production.monostate,
          { tvp with discovered_fields := field_tag.MsgType :: tvp.discovered_fields },
          tappedistream.clear (c :: more) (dst ++ '=' :: t))) ∧
    ((rounds ((m.text_with t ++ rest).length + 1) (tappedistream.init (m.text_with t ++ rest))
        tagvalue_processor.init sink.init).map Prod.fst).take 3 =
      [production.monostate, production.monostate, production.purge] ∧
    (main (render before ++ (m.text_with t ++ render after))).kind = exit_kind.finished ∧
    (main (render before ++ (m.text_with t ++ render after))).s.cerr = [] ∧
    (main (render before ++ (m.text_with t ++ render after))).s.mp =
      (main (render (before ++ after))).s.mp := by
  have hrun := main_with_other_type before after m t hb ha hm ht0 hts hD
  have hba : ∀ x ∈ before ++ after, x.wellformed := by
    intro x hx
    rcases List.mem_append.1 hx with h1 | h1
    · exact hb x h1
    · exact ha x h1
  refine ⟨?_, ?_, hrun.1, hrun.2.1, ?_⟩
  · intro tvp c more dst hnd hc
    exact handle_field_absorb_other tvp m t field_kind.msgtype c more dst hm ht0 hts hD hc hnd
  · obtain ⟨k1, k2, k3, hl, h12, h13, h23⟩ := layout_cases m.layout hm.2.2.2
    have h3 := text_with_length m t hm
    obtain ⟨f, hf⟩ : ∃ f, (m.text_with t ++ rest).length + 1 = f + 3 :=
      ⟨(m.text_with t ++ rest).length + 1 - 3, by rw [List.length_append]; omega⟩
    rw [hf, tappedistream.init]
    have := (transform_three_other f sink.init m t k1 k2 k3 rest [] hm ht0 hts hD h12 h13
      h23).2
    rw [← text_with_of_layout m t k1 k2 k3 rest hl, tappedistream.clear] at this
    rw [this]
    rfl
  · rw [hrun.2.2, (main_render (before ++ after) hba).2]

/-- C17, the claim fails for a text that is not a token: in `35=D=|1=ACME|44=9.9` the
message type is the text `D=`, not `D`, yet the text read for tag 35 is `D`, the flag is
set and the order is accepted, at the `long double` nearest to 9.9, which is
`11413922895607785062 / 2 ^ 60`. -/
theorem C17_type_text_with_separator :
    (main "35=D=|1=ACME|44=9.9\n".toList).kind = exit_kind.finished ∧
    (main "35=D=|1=ACME|44=9.9\n".toList).s.cerr = [] ∧
    (main "35=D=|1=ACME|44=9.9\n".toList).s.mp "ACME".toList
      = some (some (11413922895607785062 / 2 ^ 60), some (11413922895607785062 / 2 ^ 60)) ∧
    (rounds 21 (tappedistream.init "35=D=|1=ACME|44=9.9\n".toList) tagvalue_processor.init
        sink.init).map Prod.fst =
      [production.monostate, production.monostate,
        production.order "ACME".toList (11413922895607785062 / 2 ^ 60)] := by
  decide!

/-- C17 as amended, at the specification's example `35=8|1=ACME|44=9.9`: the rounds
return nothing, nothing and `Purge`, no diagnostic is written and the table is that of
the empty input. -/
theorem C17_other_type_is_purged_witness :
    acme_type_first.text_with "8".toList = "35=8|1=ACME|44=9.9\n".toList ∧
    acme_type_first.wellformed ∧
    ((rounds ((acme_type_first.text_with "8".toList ++ []).length + 1)
        (tappedistream.init (acme_type_first.text_with "8".toList ++ []))
        tagvalue_processor.init sink.init).map Prod.fst).take 3 =
      [production.monostate, production.monostate, production.purge] ∧
    (main (render [] ++ (acme_type_first.text_with "8".toList ++ render []))).s.cerr = [] ∧
    (main (render [] ++ (acme_type_first.text_with "8".toList ++ render []))).s.mp =
      (main (render ([] ++ []))).s.mp :=
  ⟨by decide, acme_type_first_wellformed,
   (C17_other_type_is_purged [] [] acme_type_first "8".toList []
      (fun _ h => absurd h (List.not_mem_nil _)) (fun _ h => absurd h (List.not_mem_nil _))
      acme_type_first_wellformed (by decide) (by decide) (by decide)).2.1,
   (C17_other_type_is_purged [] [] acme_type_first "8".toList []
      (fun _ h => absurd h (List.not_mem_nil _)) (fun _ h => absurd h (List.not_mem_nil _))
      acme_type_first_wellformed (by decide) (by decide) (by decide)).2.2.2.1,
   (C17_other_type_is_purged [] [] acme_type_first "8".toList []
      (fun _ h => absurd h (List.not_mem_nil _)) (fun _ h => absurd h (List.not_mem_nil _))
      acme_type_first_wellformed (by decide) (by decide) (by decide)).2.2.2.2⟩

end FixDemo
